import Mathlib

/-! # mmdb: acquisition and activation of GeoLite database releases

A shallow embedding of `mmdb.go` (`GetDataDir`, `GetLatest`, `IsTagDownloaded`,
`DownloadTag`, `EnsureLatestDBFiles`) together with the parts of the Go
standard library and of the operating system the program talks to.

* Go strings are byte sequences; they are modelled as `List Char`.  The only
  byte the program and the `path` package ever inspect is `/`, `.` and the
  end of the string, so the two views agree.
* `path.Base`, `path.Join` and `path.Clean` follow the Go `path` package.
  `Clean` is written over the list of `/`-separated elements, applying the
  four rewriting rules of its documentation with the same element stack the
  library keeps in its output buffer.
* The file system is a finite map from physical locations to nodes (regular
  file, directory, symbolic link) with POSIX path resolution (symbolic links
  are followed, at most `maxSymlinks` of them per lookup).  Regular files
  carry no content.
* Everything outside the control of the program is an explicit input
  (`Env`): the environment variables read by `os.UserHomeDir` and
  `os.TempDir`, the random source of `os.MkdirTemp`, the answers of the
  remote host, the verdict of `net/url` on a `Location` header, and a fault
  schedule that lets any system call fail with an error that does not depend
  on the name space (permissions, I/O, space).
* `http.Client` parses the `Location` of a redirect before it consults
  `CheckRedirect`; `clientResponse` is that filter.
* Every system call and network request is recorded in `World.trace`.
-/

set_option autoImplicit false

namespace Mmdb

/-! ## Strings and the `path` package -/

/-- Go `string`. -/
abbrev Str := List Char

/-- `const RepoURL`. -/
def RepoURL : Str := "https://github.com/P3TERX/GeoLite.mmdb".toList

/-- `var Files`. -/
def Files : List Str :=
  ["GeoLite2-ASN.mmdb".toList, "GeoLite2-City.mmdb".toList, "GeoLite2-Country.mmdb".toList]

/-- Puts a byte in front of the first element of a list of elements. -/
def consHead (c : Char) : List Str → List Str
  | [] => [[c]]
  | h :: t => (c :: h) :: t

/-- The elements of a path: the pieces between `/` bytes (possibly empty). -/
def splitSlash : Str → List Str
  | [] => [[]]
  | c :: cs => if c = '/' then [] :: splitSlash cs else consHead c (splitSlash cs)

/-- Inverse of `splitSlash`: elements separated by one `/`. -/
def joinSlash : List Str → Str
  | [] => []
  | [a] => a
  | a :: b :: r => a ++ '/' :: joinSlash (b :: r)

/-- `path[0] == '/'`. -/
def rooted (path : Str) : Bool := decide (path.head? = some '/')

/-- One iteration of the loop of `path.Clean`, on one path element.  `out` is
the stack of elements written so far, last written first. -/
def cleanStep (isRooted : Bool) (out : List Str) (c : Str) : List Str :=
  if c = [] then out                       -- empty path element
  else if c = ['.'] then out               -- . element
  else if c = ['.', '.'] then              -- .. element
    match out with
    | [] => if isRooted then [] else [c]   -- cannot backtrack
    | t :: r =>
      if t = ['.', '.'] then (if isRooted then out else c :: out)
      else r                               -- can backtrack
  else c :: out                            -- real path element

/-- `path.Clean`. -/
def Clean (path : Str) : Str :=
  if path = [] then ['.']
  else
    let out := (splitSlash path).foldl (cleanStep (rooted path)) []
    if rooted path then '/' :: joinSlash out.reverse
    else if out = [] then ['.']
    else joinSlash out.reverse

/-- The buffer `path.Join` builds before cleaning it. -/
def joinRaw : Str → List Str → Str
  | buf, [] => buf
  | buf, e :: es =>
    if buf ≠ [] ∨ e ≠ [] then
      joinRaw ((if buf ≠ [] then buf ++ ['/'] else buf) ++ e) es
    else joinRaw buf es

/-- `path.Join`. -/
def Join (elem : List Str) : Str :=
  if (elem.map List.length).sum = 0 then [] else Clean (joinRaw [] elem)

/-- The loop of `path.Base` that strips trailing slashes. -/
def stripTrailingSlashes (path : Str) : Str :=
  (path.reverse.dropWhile (fun c => decide (c = '/'))).reverse

/-- What follows the last `/` of the path (all of it when there is none). -/
def afterLastSlash (path : Str) : Str :=
  (path.reverse.takeWhile (fun c => decide (c ≠ '/'))).reverse

/-- `path.Base`. -/
def Base (path : Str) : Str :=
  if path = [] then ['.']
  else
    let p := afterLastSlash (stripTrailingSlashes path)
    if p = [] then ['/'] else p

/-! ## The file system -/

/-- What a directory entry is. -/
inductive Node where
  | file
  | dir
  | link (target : Str)
  deriving DecidableEq, Repr

/-- A physical location: the names from the root directory down. -/
abbrev Loc := List Str

/-- The state of the file system: the nodes, and the working directory of the
process. The root directory `[]` always exists. -/
structure FS where
  nodes : List (Loc × Node)
  cwd : Loc
  deriving DecidableEq

/-- First binding of a location in the node list. -/
def lookupLoc : List (Loc × Node) → Loc → Option Node
  | [], _ => none
  | (k, n) :: r, l => if k = l then some n else lookupLoc r l

/-- The node at a location. -/
def FS.get (fs : FS) (l : Loc) : Option Node :=
  if l = [] then some Node.dir else lookupLoc fs.nodes l

/-- Adds a node at a location. -/
def FS.add (fs : FS) (l : Loc) (n : Node) : FS :=
  { fs with nodes := (l, n) :: fs.nodes }

/-- Removes the node at a location. -/
def FS.del (fs : FS) (l : Loc) : FS :=
  { fs with nodes := fs.nodes.filter (fun kn => decide (kn.1 ≠ l)) }

/-- Whether a directory has an entry. -/
def FS.hasChildren (fs : FS) (l : Loc) : Bool :=
  fs.nodes.any (fun kn => decide (kn.1 ≠ [] ∧ kn.1.dropLast = l) && (fs.get kn.1).isSome)

/-- Error numbers. -/
inductive Errno where
  | ENOENT | ENOTDIR | EEXIST | EISDIR | ENOTEMPTY | ELOOP | EBUSY | ENAMETOOLONG
  | EACCES | EIO | ENOSPC
  deriving DecidableEq, Repr

/-- Failures that do not depend on the name space. -/
inductive Fault where
  | EACCES | EIO | ENOSPC
  deriving DecidableEq, Repr

/-- The error number of a fault. -/
def Fault.toErrno : Fault → Errno
  | Fault.EACCES => Errno.EACCES
  | Fault.EIO => Errno.EIO
  | Fault.ENOSPC => Errno.ENOSPC

/-- Equality of results of fallible calls is decidable. -/
instance decEqExcept {ε α : Type} [DecidableEq ε] [DecidableEq α] : DecidableEq (Except ε α)
  | Except.ok a, Except.ok b =>
    if h : a = b then isTrue (congrArg Except.ok h)
    else isFalse (fun e => h (Except.ok.inj e))
  | Except.error a, Except.error b =>
    if h : a = b then isTrue (congrArg Except.error h)
    else isFalse (fun e => h (Except.error.inj e))
  | Except.ok _, Except.error _ => isFalse (fun e => Except.noConfusion e)
  | Except.error _, Except.ok _ => isFalse (fun e => Except.noConfusion e)

/-- Result of a path lookup: the node found, or the place where the last
element of the path would be created (`needDir`: the path ends in a slash). -/
inductive Res where
  | found (loc : Loc) (n : Node)
  | missing (parent : Loc) (name : Str) (needDir : Bool)
  deriving DecidableEq, Repr

/-- Path walk from the directory `cur` over the remaining elements; `next`
continues the walk after a symbolic link has been expanded. -/
def walkWith (next : Loc → List Str → Except Errno Res) (fs : FS) (follow : Bool) :
    Loc → List Str → Except Errno Res
  | cur, [] => Except.ok (Res.found cur Node.dir)
  | cur, c :: rest =>
    if c = [] ∨ c = ['.'] then walkWith next fs follow cur rest
    else if c = ['.', '.'] then walkWith next fs follow cur.dropLast rest
    else
      match fs.get (cur ++ [c]) with
      | none =>
        if rest.all (fun r => decide (r = [])) then
          Except.ok (Res.missing cur c (decide (rest ≠ [])))
        else Except.error Errno.ENOENT
      | some Node.dir => walkWith next fs follow (cur ++ [c]) rest
      | some Node.file =>
        if rest = [] then Except.ok (Res.found (cur ++ [c]) Node.file)
        else Except.error Errno.ENOTDIR
      | some (Node.link t) =>
        if rest = [] ∧ follow = false then Except.ok (Res.found (cur ++ [c]) (Node.link t))
        else next (if rooted t then [] else cur) (splitSlash t ++ rest)

/-- Path walk that expands at most `n` symbolic links. -/
def walk (fs : FS) (follow : Bool) : Nat → Loc → List Str → Except Errno Res
  | 0 => walkWith (fun _ _ => Except.error Errno.ELOOP) fs follow
  | n + 1 => walkWith (walk fs follow n) fs follow

/-- Number of symbolic links one lookup may expand. -/
def maxSymlinks : Nat := 40

/-- Path resolution. -/
def resolve (fs : FS) (follow : Bool) (path : Str) : Except Errno Res :=
  if path = [] then Except.error Errno.ENOENT
  else walk fs follow maxSymlinks (if rooted path then [] else fs.cwd) (splitSlash path)

/-- `stat(2)`. -/
def fsStat (path : Str) (fs : FS) : Except Errno (Node × FS) :=
  match resolve fs true path with
  | Except.ok (Res.found _ n) => Except.ok (n, fs)
  | Except.ok (Res.missing _ _ _) => Except.error Errno.ENOENT
  | Except.error e => Except.error e

/-- `lstat(2)`. -/
def fsLstat (path : Str) (fs : FS) : Except Errno (Node × FS) :=
  match resolve fs false path with
  | Except.ok (Res.found _ n) => Except.ok (n, fs)
  | Except.ok (Res.missing _ _ _) => Except.error Errno.ENOENT
  | Except.error e => Except.error e

/-- `mkdir(2)`. -/
def fsMkdir (path : Str) (fs : FS) : Except Errno (Unit × FS) :=
  match resolve fs false path with
  | Except.ok (Res.found _ _) => Except.error Errno.EEXIST
  | Except.ok (Res.missing p c _) => Except.ok ((), fs.add (p ++ [c]) Node.dir)
  | Except.error e => Except.error e

/-- `open(2)` with `O_RDWR|O_CREATE|O_TRUNC`, as `os.Create` calls it. -/
def fsCreate (path : Str) (fs : FS) : Except Errno (Unit × FS) :=
  match resolve fs true path with
  | Except.ok (Res.found _ Node.file) => Except.ok ((), fs)
  | Except.ok (Res.found _ Node.dir) => Except.error Errno.EISDIR
  | Except.ok (Res.found _ (Node.link _)) => Except.error Errno.ELOOP
  | Except.ok (Res.missing p c needDir) =>
    if needDir then Except.error Errno.EISDIR
    else Except.ok ((), fs.add (p ++ [c]) Node.file)
  | Except.error e => Except.error e

/-- Writing to an open file: the name space does not change. -/
def fsWrite (fs : FS) : Except Errno (Unit × FS) := Except.ok ((), fs)

/-- `unlink(2)`, then `rmdir(2)`, as `os.Remove` calls them. -/
def fsRemove (path : Str) (fs : FS) : Except Errno (Unit × FS) :=
  match resolve fs false path with
  | Except.ok (Res.found loc Node.dir) =>
    if loc = [] then Except.error Errno.EBUSY
    else if fs.hasChildren loc then Except.error Errno.ENOTEMPTY
    else Except.ok ((), fs.del loc)
  | Except.ok (Res.found loc _) => Except.ok ((), fs.del loc)
  | Except.ok (Res.missing _ _ _) => Except.error Errno.ENOENT
  | Except.error e => Except.error e

/-- `symlink(2)`. -/
def fsSymlink (target path : Str) (fs : FS) : Except Errno (Unit × FS) :=
  if target = [] then Except.error Errno.ENOENT
  else
    match resolve fs false path with
    | Except.ok (Res.found _ _) => Except.error Errno.EEXIST
    | Except.ok (Res.missing p c needDir) =>
      if needDir then Except.error Errno.ENOENT
      else Except.ok ((), fs.add (p ++ [c]) (Node.link target))
    | Except.error e => Except.error e

/-! ## The world of one process -/

/-- A request to the operating system or to the network. -/
inductive Call where
  | head (url : Str)
  | get (url : Str)
  | stat (path : Str)
  | lstat (path : Str)
  | mkdir (path : Str)
  | create (path : Str)
  | write (path : Str)
  | remove (path : Str)
  | symlink (target path : Str)
  deriving DecidableEq, Repr

/-- A request with its outcome. -/
structure Event where
  call : Call
  ok : Bool
  deriving DecidableEq, Repr

/-- File system, number of system calls made so far, and the requests issued
so far, oldest first. -/
structure World where
  fs : FS
  tick : Nat
  trace : List Event
  deriving DecidableEq

/-- A response to the HEAD request. -/
structure Response where
  /-- The status code is 301, 302, 303, 307 or 308: the client takes the
  response for a redirect. -/
  redirect : Bool
  /-- The `Location` header, if the response has one. -/
  location : Option Str
  deriving DecidableEq, Repr

/-- What the program cannot control. -/
structure Env where
  /-- Value of `$HOME`, empty when unset. -/
  HOME : Str
  /-- Value of `$TMPDIR`, empty when unset. -/
  TMPDIR : Str
  /-- Random source of `os.MkdirTemp`, by system call number. -/
  rand : Nat → Nat
  /-- Answer of the remote host to the HEAD request: `none` when the request
  cannot be completed. -/
  head : Option Response
  /-- Whether `net/url` parses a reference; its grammar is not modelled. -/
  urlParses : Str → Bool
  /-- Answer to a GET request: `none` when it fails, else the body. -/
  get : Str → Option Str
  /-- Fault schedule, by system call number. -/
  fault : Nat → Option Fault

/-- One system call: it fails with the scheduled fault, if any, and else acts
on the file system. -/
def sys {α : Type} (env : Env) (w : World) (c : Call)
    (run : FS → Except Errno (α × FS)) : Except Errno α × World :=
  match env.fault w.tick with
  | some f =>
    (Except.error f.toErrno,
      { fs := w.fs, tick := w.tick + 1, trace := w.trace ++ [Event.mk c false] })
  | none =>
    match run w.fs with
    | Except.ok (a, fs1) =>
      (Except.ok a, { fs := fs1, tick := w.tick + 1, trace := w.trace ++ [Event.mk c true] })
    | Except.error e =>
      (Except.error e,
        { fs := w.fs, tick := w.tick + 1, trace := w.trace ++ [Event.mk c false] })

/-- `os.Stat`. -/
def Stat (env : Env) (w : World) (path : Str) : Except Errno Node × World :=
  sys env w (Call.stat path) (fsStat path)

/-- `os.Lstat`. -/
def Lstat (env : Env) (w : World) (path : Str) : Except Errno Node × World :=
  sys env w (Call.lstat path) (fsLstat path)

/-- `os.Mkdir`. -/
def Mkdir (env : Env) (w : World) (path : Str) : Except Errno Unit × World :=
  sys env w (Call.mkdir path) (fsMkdir path)

/-- `os.Create`. -/
def Create (env : Env) (w : World) (path : Str) : Except Errno Unit × World :=
  sys env w (Call.create path) (fsCreate path)

/-- `io.Copy` of a response body into the file just created. -/
def Copy (env : Env) (w : World) (path : Str) (_body : Str) : Except Errno Unit × World :=
  sys env w (Call.write path) fsWrite

/-- `os.Remove`. -/
def Remove (env : Env) (w : World) (path : Str) : Except Errno Unit × World :=
  sys env w (Call.remove path) (fsRemove path)

/-- `os.Symlink`. -/
def Symlink (env : Env) (w : World) (target path : Str) : Except Errno Unit × World :=
  sys env w (Call.symlink target path) (fsSymlink target path)

/-- What `http.Client` returns for the response when `CheckRedirect` returns
`http.ErrUseLastResponse`: it parses the non-empty `Location` of a redirect
before it consults `CheckRedirect`, and returns an error when the header does
not parse; every other response is handed over as it is. -/
def clientResponse (env : Env) : Option Response :=
  match env.head with
  | none => none
  | some resp =>
    if resp.redirect = true ∧ resp.location.getD [] ≠ [] ∧
        env.urlParses (resp.location.getD []) = false then none
    else some resp

/-- `client.Head` with redirects not followed. -/
def Head (env : Env) (w : World) (url : Str) : Option Response × World :=
  (clientResponse env,
    { w with trace := w.trace ++ [Event.mk (Call.head url) (clientResponse env).isSome] })

/-- `http.Get`. -/
def Get (env : Env) (w : World) (url : Str) : Option Str × World :=
  (env.get url, { w with trace := w.trace ++ [Event.mk (Call.get url) (env.get url).isSome] })

/-- The prefix `path[:i+1]` that `os.MkdirAll` takes as the parent: trailing
separators are skipped, then the last element. -/
def parentPrefix (path : Str) : Str :=
  ((path.reverse.dropWhile (fun c => decide (c = '/'))).dropWhile
    (fun c => decide (c ≠ '/'))).reverse

/-- `os.MkdirAll`; the first argument bounds the recursion on the parents
(`path.length + 1` is enough). -/
def MkdirAll (env : Env) : Nat → World → Str → Option Errno × World
  | 0, w, _ => (some Errno.ENAMETOOLONG, w)
  | fuel + 1, w, path =>
    match Stat env w path with
    | (Except.ok n, w1) => if n = Node.dir then (none, w1) else (some Errno.ENOTDIR, w1)
    | (Except.error _, w1) =>
      let parent := parentPrefix path
      let r := if parent.length > 0 then MkdirAll env fuel w1 parent else (none, w1)
      match r with
      | (some e, w2) => (some e, w2)
      | (none, w2) =>
        match Mkdir env w2 path with
        | (Except.ok _, w3) => (none, w3)
        | (Except.error e, w3) =>
          match Lstat env w3 path with
          | (Except.ok Node.dir, w4) => (none, w4)
          | (_, w4) => (some e, w4)

/-- `os.TempDir`. -/
def TempDir (env : Env) : Str :=
  if env.TMPDIR = [] then "/tmp".toList else env.TMPDIR

/-- The helper `joinPath` of `os.MkdirTemp`. -/
def joinPath (dir name : Str) : Str :=
  if dir ≠ [] ∧ dir.getLast? = some '/' then dir ++ name else dir ++ '/' :: name

/-- The retry loop of `os.MkdirTemp`. -/
def mkdirTempLoop (env : Env) (dir pre : Str) : Nat → World → Option Str × World
  | 0, w => (none, w)
  | tries + 1, w =>
    let name := pre ++ (Nat.repr (env.rand w.tick % 2 ^ 32)).toList
    match Mkdir env w name with
    | (Except.ok _, w1) => (some name, w1)
    | (Except.error e, w1) =>
      if e = Errno.EEXIST then mkdirTempLoop env dir pre tries w1
      else if e = Errno.ENOENT then (none, (Stat env w1 dir).2)
      else (none, w1)

/-- `os.MkdirTemp` for a pattern without `*`; `none` is an error. -/
def MkdirTemp (env : Env) (w : World) (dir pattern : Str) : Option Str × World :=
  let dir1 := if dir = [] then TempDir env else dir
  mkdirTempLoop env dir1 (joinPath dir1 pattern) 10000 w

/-- `os.UserHomeDir`; `none` is an error. -/
def UserHomeDir (env : Env) : Option Str :=
  if env.HOME = [] then none else some env.HOME

/-! ## The program -/

/-- `GetDataDir`; `none` is a panic. -/
def GetDataDir (env : Env) (w : World) : Option Str × World :=
  match UserHomeDir env with
  | some homeDir => (some (Join [homeDir, ".mmdb".toList]), w)
  | none => MkdirTemp env w [] "mmdb".toList

/-- Errors of `GetLatest`. -/
inductive GetLatestErr where
  | headFailed
  | locationMissing
  deriving DecidableEq, Repr

/-- `GetLatest`. -/
def GetLatest (env : Env) (w : World) : Except GetLatestErr Str × World :=
  match Head env w (RepoURL ++ "/releases/latest".toList) with
  | (none, w1) => (Except.error GetLatestErr.headFailed, w1)
  | (some resp, w1) =>
    let location := resp.location.getD []
    if location = [] then (Except.error GetLatestErr.locationMissing, w1)
    else (Except.ok (Base location), w1)

/-- `IsTagDownloaded`. -/
def IsTagDownloaded (env : Env) (w : World) (dataDir tag : Str) : Bool × World :=
  let okFilePath := Join [dataDir, tag, ".ok".toList]
  match Stat env w okFilePath with
  | (Except.ok _, w1) => (true, w1)
  | (Except.error e, w1) => (!decide (e = Errno.ENOENT), w1)

/-- Errors of `DownloadTag`. -/
inductive DownloadErr where
  | mkdir (e : Errno)
  | download (file : Str)
  | createFile (file : Str) (e : Errno)
  | write (file : Str) (e : Errno)
  | createOk (e : Errno)
  deriving DecidableEq, Repr

/-- The address `RepoURL + "/releases/download/" + tag + "/" + file`. -/
def downloadURL (tag file : Str) : Str :=
  RepoURL ++ "/releases/download/".toList ++ tag ++ "/".toList ++ file

/-- The loop of `DownloadTag` over the required files. -/
def downloadFiles (env : Env) (dir tag : Str) : List Str → World → Option DownloadErr × World
  | [], w => (none, w)
  | file :: rest, w =>
    let filePath := Join [dir, file]
    match Stat env w filePath with
    | (Except.ok _, w1) => downloadFiles env dir tag rest w1
    | (Except.error _, w1) =>
      match Get env w1 (downloadURL tag file) with
      | (none, w2) => (some (DownloadErr.download file), w2)
      | (some body, w2) =>
        match Create env w2 filePath with
        | (Except.error e, w3) => (some (DownloadErr.createFile file e), w3)
        | (Except.ok _, w3) =>
          match Copy env w3 filePath body with
          | (Except.error e, w4) => (some (DownloadErr.write file e), w4)
          | (Except.ok _, w4) => downloadFiles env dir tag rest w4

/-- `DownloadTag`; `none` is the nil error. -/
def DownloadTag (env : Env) (w : World) (dataDir tag : Str) : Option DownloadErr × World :=
  match IsTagDownloaded env w dataDir tag with
  | (true, w1) => (none, w1)
  | (false, w1) =>
    let dir := Join [dataDir, tag]
    match MkdirAll env (dir.length + 1) w1 dir with
    | (some e, w2) => (some (DownloadErr.mkdir e), w2)
    | (none, w2) =>
      match downloadFiles env dir tag Files w2 with
      | (some e, w3) => (some e, w3)
      | (none, w3) =>
        let okFilePath := Join [dir, ".ok".toList]
        match Create env w3 okFilePath with
        | (Except.error e, w4) => (some (DownloadErr.createOk e), w4)
        | (Except.ok _, w4) => (none, w4)

/-- Errors of `EnsureLatestDBFiles`, by the step that failed. -/
inductive EnsureErr where
  | getLatest (e : GetLatestErr)
  | download (e : DownloadErr)
  | symlink (e : Errno)
  deriving DecidableEq, Repr

/-- How a call of `EnsureLatestDBFiles` ends. -/
inductive Outcome where
  | paths (ps : List Str)
  | error (e : EnsureErr)
  | panic
  deriving DecidableEq, Repr

/-- The part of `EnsureLatestDBFiles` after the tag has been resolved and
found or made complete: the active reference and the paths. -/
def activate (env : Env) (w : World) (dataDir latestTag : Str) : Outcome × World :=
  let symlink := Join [dataDir, "latest".toList]
  let w1 := (Remove env w symlink).2
  match Symlink env w1 (Join [dataDir, latestTag]) symlink with
  | (Except.error e, w2) => (Outcome.error (EnsureErr.symlink e), w2)
  | (Except.ok _, w2) => (Outcome.paths (Files.map (fun file => Join [symlink, file])), w2)

/-- `EnsureLatestDBFiles`. -/
def EnsureLatestDBFiles (env : Env) (w : World) : Outcome × World :=
  match GetDataDir env w with
  | (none, w0) => (Outcome.panic, w0)
  | (some dataDir, w0) =>
    match GetLatest env w0 with
    | (Except.error e, w1) => (Outcome.error (EnsureErr.getLatest e), w1)
    | (Except.ok latestTag, w1) =>
      match IsTagDownloaded env w1 dataDir latestTag with
      | (true, w2) => activate env w2 dataDir latestTag
      | (false, w2) =>
        match DownloadTag env w2 dataDir latestTag with
        | (some e, w3) => (Outcome.error (EnsureErr.download e), w3)
        | (none, w3) => activate env w3 dataDir latestTag

/-! ## Observations on a state -/

/-- The path names an existing file, directory or link target. -/
def pathExists (fs : FS) (path : Str) : Bool :=
  match resolve fs true path with
  | Except.ok (Res.found _ _) => true
  | _ => false

/-- The path names an existing directory. -/
def isDirectory (fs : FS) (path : Str) : Bool :=
  match resolve fs true path with
  | Except.ok (Res.found _ Node.dir) => true
  | _ => false

/-- The entry the path names, the last element not being followed. -/
def entryAt (fs : FS) (path : Str) : Option Node :=
  match resolve fs false path with
  | Except.ok (Res.found _ n) => some n
  | _ => none

/-- The GET requests in a trace. -/
def getRequests (tr : List Event) : List Event :=
  tr.filter (fun e => match e.call with
    | Call.get _ => true
    | _ => false)

/-- The network requests in a trace. -/
def networkRequests (tr : List Event) : List Event :=
  tr.filter (fun e => match e.call with
    | Call.get _ => true
    | Call.head _ => true
    | _ => false)

/-- Requests to the remote host. -/
def Call.isNetwork : Call → Bool
  | Call.head _ => true
  | Call.get _ => true
  | _ => false

/-- Calls of the activation step: removing and creating the active reference. -/
def Call.isActivation : Call → Bool
  | Call.remove _ => true
  | Call.symlink _ _ => true
  | _ => false

/-! ## Notions used in the statements and in the proofs -/

/-- The tag is the final path segment of the location: what stands between
the last `/` that is followed by something other than `/` (or the start) and
the trailing slashes. -/
def IsFinalSegment (loc tag : Str) : Prop :=
  ∃ (pre : Str) (k : Nat), loc = pre ++ tag ++ List.replicate k '/' ∧ tag ≠ [] ∧ '/' ∉ tag ∧
    (pre = [] ∨ pre.getLast? = some '/')

/-- A real path element: not empty, without `/`, and neither `.` nor `..`. -/
def Plain (c : Str) : Prop := c ≠ [] ∧ '/' ∉ c ∧ c ≠ ['.'] ∧ c ≠ ['.', '.']

/-- An element stack as `path.Clean` keeps it: real elements on top of
`..` elements, the latter only when the path is not rooted. -/
def normStack (r : Bool) : List Str → Prop
  | [] => True
  | c :: rest => (Plain c ∧ normStack r rest) ∨ (c = ['.', '.'] ∧ r = false ∧ ∀ d ∈ rest, d = ['.', '.'])

/-- What `path.Clean` returns for a stack of elements. -/
def render (r : Bool) (out : List Str) : Str :=
  if r then '/' :: joinSlash out.reverse
  else if out = [] then ['.']
  else joinSlash out.reverse

/-- The part of `Join [d, f]` that comes before a real last element `f`. -/
def dirPrefix (d : Str) : Str :=
  if d = [] then []
  else if (splitSlash d).foldl (cleanStep (rooted d)) [] = [] then
    (if rooted d then ['/'] else [])
  else render (rooted d) ((splitSlash d).foldl (cleanStep (rooted d)) []) ++ ['/']

/-- The file system `b` extends `a`: every node of `a` is a node of `b`. -/
def FS.le (a b : FS) : Prop :=
  a.cwd = b.cwd ∧ ∀ l n, a.get l = some n → b.get l = some n

/-- A lookup result that creating further nodes cannot change. -/
def stable : Except Errno Res → Prop
  | Except.ok (Res.found _ _) => True
  | Except.ok (Res.missing _ _ _) => False
  | Except.error e => e ≠ Errno.ENOENT

/-- Calls that change or create the entry their path names. -/
def Call.entryChanging : Call → Bool
  | Call.create _ => true
  | Call.remove _ => true
  | Call.symlink _ _ => true
  | _ => false

/-- A property of requests that holds of every system call that leaves existing
entries alone and creates no file: `stat`, `lstat`, `mkdir` and `write`. -/
def benign (good : Event → Prop) : Prop :=
  ∀ (c : Call) (b : Bool), c.entryChanging = false → c.isNetwork = false → good (Event.mk c b)

/-- The world `w1` is reached from `w` by creating nodes only, with requests
that all satisfy `good`. -/
def World.ext (good : Event → Prop) (w w1 : World) : Prop :=
  w.fs.le w1.fs ∧ ∃ evs, w1.trace = w.trace ++ evs ∧ ∀ e ∈ evs, good e

/-- The directory step of `DownloadTag`. -/
def dirStep (env : Env) (w : World) (dataDir tag : Str) : Option Errno × World :=
  MkdirAll env ((Join [dataDir, tag]).length + 1) (IsTagDownloaded env w dataDir tag).2
    (Join [dataDir, tag])

/-- The file loop of `DownloadTag`. -/
def filesStep (env : Env) (w : World) (dataDir tag : Str) : Option DownloadErr × World :=
  downloadFiles env (Join [dataDir, tag]) tag Files (dirStep env w dataDir tag).2

/-- The marker step of `DownloadTag`. -/
def markerStep (env : Env) (w : World) (dataDir tag : Str) : Except Errno Unit × World :=
  Create env (filesStep env w dataDir tag).2 (Join [Join [dataDir, tag], ".ok".toList])

/-- The resolution step of `EnsureLatestDBFiles`. -/
def resolveStep (env : Env) (w : World) : Except GetLatestErr Str × World :=
  GetLatest env (GetDataDir env w).2

/-- The completeness check of `EnsureLatestDBFiles`. -/
def checkStep (env : Env) (w : World) (dataDir tag : Str) : Bool × World :=
  IsTagDownloaded env (resolveStep env w).2 dataDir tag

/-- The download step of `EnsureLatestDBFiles`. -/
def downloadStep (env : Env) (w : World) (dataDir tag : Str) : Option DownloadErr × World :=
  DownloadTag env (checkStep env w dataDir tag).2 dataDir tag

/-- The state in which `EnsureLatestDBFiles` starts the activation step: after
the check when it reported the tag as downloaded, and else after the download. -/
def activationStart (env : Env) (w : World) (dataDir tag : Str) : World :=
  if (checkStep env w dataDir tag).1 = true then (checkStep env w dataDir tag).2
  else (downloadStep env w dataDir tag).2

/-- The file system `b` extends `a`, and what `b` has and `a` has not is a
directory, or the regular file that one of the given paths names in `b`. -/
def grows (paths : List Str) (a b : FS) : Prop :=
  a.le b ∧ ∀ loc, b.get loc ≠ a.get loc →
    b.get loc = some Node.dir ∨
    (b.get loc = some Node.file ∧
      ∃ q ∈ paths, resolve b true q = Except.ok (Res.found loc Node.file))

/-- The entries a path walk looks at, in the order of the walk; `next` gives
the entries looked at after a symbolic link has been expanded. -/
def visitsWith (next : Loc → List Str → List Loc) (fs : FS) (follow : Bool) :
    Loc → List Str → List Loc
  | _, [] => []
  | cur, c :: rest =>
    if c = [] ∨ c = ['.'] then visitsWith next fs follow cur rest
    else if c = ['.', '.'] then visitsWith next fs follow cur.dropLast rest
    else
      (cur ++ [c]) ::
        match fs.get (cur ++ [c]) with
        | none => []
        | some Node.dir => visitsWith next fs follow (cur ++ [c]) rest
        | some Node.file => []
        | some (Node.link t) =>
          if rest = [] ∧ follow = false then []
          else next (if rooted t then [] else cur) (splitSlash t ++ rest)

/-- The entries looked at by the walk that expands at most `n` symbolic links. -/
def visits (fs : FS) (follow : Bool) : Nat → Loc → List Str → List Loc
  | 0 => visitsWith (fun _ _ => []) fs follow
  | n + 1 => visitsWith (visits fs follow n) fs follow

/-- Path resolution with a budget of `n` symbolic links. -/
def resolveWithin (n : Nat) (fs : FS) (follow : Bool) (path : Str) : Except Errno Res :=
  if path = [] then Except.error Errno.ENOENT
  else walk fs follow n (if rooted path then [] else fs.cwd) (splitSlash path)

/-- The entries path resolution with a budget of `n` symbolic links looks at. -/
def visitedWithin (n : Nat) (fs : FS) (follow : Bool) (path : Str) : List Loc :=
  if path = [] then []
  else visits fs follow n (if rooted path then [] else fs.cwd) (splitSlash path)

/-- Expanding at most `n` symbolic links resolves the path as path resolution
does, and the entry at location `l` is not looked at on the way. -/
def avoids (fs : FS) (n : Nat) (l : Loc) (path : Str) : Bool :=
  decide (resolveWithin n fs true path = resolve fs true path ∧
    l ∉ visitedWithin n fs true path)

/-- The elements of `Join [d, g]` before a real last element `g`. -/
def stemElems (d : Str) : List Str :=
  if dirPrefix d = [] then [] else splitSlash (dirPrefix d).dropLast

/-- No target of a symbolic link of the file system has the element `c`. -/
def linkFree (c : Str) (fs : FS) : Prop :=
  ∀ loc t, fs.get loc = some (Node.link t) → c ∉ splitSlash t

/-! ## Concrete states and environments -/

/-- The path of the data directory in the examples. -/
def exDataDir : Str := "/home/u/.mmdb".toList

/-- The location of the data directory in the examples. -/
def exLoc : Loc := ["home".toList, "u".toList, ".mmdb".toList]

/-- A home directory without data directory, and `/tmp`. -/
def freshFS : FS :=
  { nodes := [(["home".toList], Node.dir), (["home".toList, "u".toList], Node.dir),
      (["tmp".toList], Node.dir)],
    cwd := [] }

/-- Release `v1` downloaded completely and active. -/
def installedFS : FS :=
  { nodes := [(["home".toList], Node.dir), (["home".toList, "u".toList], Node.dir),
      (exLoc, Node.dir), (exLoc ++ ["v1".toList], Node.dir),
      (exLoc ++ ["v1".toList, "GeoLite2-ASN.mmdb".toList], Node.file),
      (exLoc ++ ["v1".toList, "GeoLite2-City.mmdb".toList], Node.file),
      (exLoc ++ ["v1".toList, "GeoLite2-Country.mmdb".toList], Node.file),
      (exLoc ++ ["v1".toList, ".ok".toList], Node.file),
      (exLoc ++ ["latest".toList], Node.link "/home/u/.mmdb/v1".toList)],
    cwd := [] }

/-- Release `v1` active, and the marker of `v2` in place without its files. -/
def markerOnlyFS : FS :=
  { installedFS with nodes := (exLoc ++ ["v2".toList], Node.dir) ::
      (exLoc ++ ["v2".toList, ".ok".toList], Node.file) :: installedFS.nodes }

/-- Release `v1` active, and a regular file where the directory of `v2` would be. -/
def blockedFS : FS :=
  { installedFS with nodes := (exLoc ++ ["v2".toList], Node.file) :: installedFS.nodes }

/-- Release `v1` active, and a directory of `v2` in which the first required
file is a symbolic link to the marker, which does not exist. -/
def danglingFS : FS :=
  { installedFS with nodes := (exLoc ++ ["v2".toList], Node.dir) ::
      (exLoc ++ ["v2".toList, "GeoLite2-ASN.mmdb".toList], Node.link ".ok".toList) ::
      installedFS.nodes }

/-- A home directory reached through the symbolic link `/home`, without data
directory. -/
def linkedHomeFS : FS :=
  { nodes := [(["usr".toList], Node.dir), (["usr".toList, "home".toList], Node.dir),
      (["usr".toList, "home".toList, "u".toList], Node.dir),
      (["home".toList], Node.link "/usr/home".toList), (["tmp".toList], Node.dir)],
    cwd := [] }

/-- The directory of `v1` is empty and active, and `dataDir/v2` is a symbolic
link to `dataDir/latest`. -/
def loopFS : FS :=
  { nodes := [(["home".toList], Node.dir), (["home".toList, "u".toList], Node.dir),
      (exLoc, Node.dir), (exLoc ++ ["v1".toList], Node.dir),
      (exLoc ++ ["latest".toList], Node.link "/home/u/.mmdb/v1".toList),
      (exLoc ++ ["v2".toList], Node.link "/home/u/.mmdb/latest".toList)],
    cwd := [] }

/-- Release `v1` is active and its directory holds a file `.ok2`; the marker
of `v2` is a symbolic link to `dataDir/latest/.ok2`. -/
def aliasFS : FS :=
  { nodes := [(["home".toList], Node.dir), (["home".toList, "u".toList], Node.dir),
      (exLoc, Node.dir), (exLoc ++ ["v1".toList], Node.dir),
      (exLoc ++ ["v1".toList, ".ok2".toList], Node.file),
      (exLoc ++ ["latest".toList], Node.link "/home/u/.mmdb/v1".toList),
      (exLoc ++ ["v2".toList], Node.dir),
      (exLoc ++ ["v2".toList, ".ok".toList], Node.link "/home/u/.mmdb/latest/.ok2".toList)],
    cwd := [] }

/-- The home directory `/l0` is reached through a chain of twenty symbolic
links, `/l0` to `/l1` and so on to `/l19`, which refers to `/real`. -/
def chainFS : FS :=
  { nodes := [(["real".toList], Node.dir),
      (["l0".toList], Node.link "/l1".toList),
      (["l1".toList], Node.link "/l2".toList),
      (["l2".toList], Node.link "/l3".toList),
      (["l3".toList], Node.link "/l4".toList),
      (["l4".toList], Node.link "/l5".toList),
      (["l5".toList], Node.link "/l6".toList),
      (["l6".toList], Node.link "/l7".toList),
      (["l7".toList], Node.link "/l8".toList),
      (["l8".toList], Node.link "/l9".toList),
      (["l9".toList], Node.link "/l10".toList),
      (["l10".toList], Node.link "/l11".toList),
      (["l11".toList], Node.link "/l12".toList),
      (["l12".toList], Node.link "/l13".toList),
      (["l13".toList], Node.link "/l14".toList),
      (["l14".toList], Node.link "/l15".toList),
      (["l15".toList], Node.link "/l16".toList),
      (["l16".toList], Node.link "/l17".toList),
      (["l17".toList], Node.link "/l18".toList),
      (["l18".toList], Node.link "/l19".toList),
      (["l19".toList], Node.link "/real".toList)],
    cwd := [] }

/-- A world at the start of a process. -/
def startWorld (fs : FS) : World := { fs := fs, tick := 0, trace := [] }

/-- A hexadecimal digit. -/
def isHex (c : Char) : Bool :=
  ('0' ≤ c ∧ c ≤ '9') ∨ ('a' ≤ c ∧ c ≤ 'f') ∨ ('A' ≤ c ∧ c ≤ 'F')

/-- Stand-in for the parser of `net/url` in the examples: every `%` is followed
by two hexadecimal digits. On the `Location` values of the examples, which
have neither query nor fragment, it gives the verdict of `net/url`. -/
def validEscapes : Str → Bool
  | [] => true
  | c :: rest =>
    if c = '%' then
      match rest with
      | a :: b :: _ => isHex a && isHex b && validEscapes rest
      | _ => false
    else validEscapes rest

/-- The remote host answers every request, the latest release is `tag` and the
HEAD request is redirected to its page, and no system call fails for a reason
outside the name space. -/
def goodEnv (home tag : Str) : Env :=
  { HOME := home
    TMPDIR := []
    rand := fun n => n
    head := some
      { redirect := true
        location := some ("https://github.com/P3TERX/GeoLite.mmdb/releases/tag/".toList ++ tag) }
    urlParses := validEscapes
    get := fun _ => some "data".toList
    fault := fun _ => none }

/-- As `goodEnv`, but the redirect carries the given `Location`. -/
def redirectEnv (location : Str) : Env :=
  { goodEnv [] [] with head := some { redirect := true, location := some location } }

/-- As `goodEnv`, but the HEAD request cannot be completed. -/
def offlineEnv (home : Str) : Env :=
  { goodEnv home [] with head := none }

/-- As `goodEnv`, but every GET request fails. -/
def noDownloadEnv (home tag : Str) : Env :=
  { goodEnv home tag with get := fun _ => none }

/-- As `goodEnv`, but the GET request for the given file of the release fails. -/
def oneDownloadFailsEnv (home tag file : Str) : Env :=
  { goodEnv home tag with
    get := fun url => if url = downloadURL tag file then none else some "data".toList }

/-- As `goodEnv`, but the system call number `n` fails with an I/O error. -/
def faultyEnv (home tag : Str) (n : Nat) : Env :=
  { goodEnv home tag with fault := fun k => if k = n then some Fault.EIO else none }

/-! ## Lemmas -/

/-- Test table of `path.Clean` (Go `path_test.go`). -/
theorem Clean_examples :
    (["", "abc", "abc/def", "a/b/c", ".", "..", "../..", "../../abc", "/abc", "/",
      "abc/", "abc/def/", "a/b/c/", "./", "../", "../../", "/abc/",
      "abc//def//ghi", "//abc", "///abc", "//abc//", "abc//",
      "abc/./def", "/./abc/def", "abc/.",
      "abc/def/ghi/../jkl", "abc/def/../ghi/../jkl", "abc/def/..", "abc/def/../..",
      "/abc/def/../..", "abc/def/../../..", "/abc/def/../../..",
      "abc/def/../../../ghi/jkl/../../../mno",
      "abc/./../def", "abc//./../def", "abc/../../././../def"].map
        (fun s => Clean s.toList)) =
    (["." , "abc", "abc/def", "a/b/c", ".", "..", "../..", "../../abc", "/abc", "/",
      "abc", "abc/def", "a/b/c", ".", "..", "../..", "/abc",
      "abc/def/ghi", "/abc", "/abc", "/abc", "abc",
      "abc/def", "/abc/def", "abc",
      "abc/def/jkl", "abc/jkl", "abc", ".",
      "/", "..", "/",
      "../../mno",
      "def", "def", "../../def"].map String.toList) := by
  decide!

/-- Test table of `path.Join` (Go `path_test.go`). -/
theorem Join_examples :
    ([[], [""], ["a"], ["a", "b"], ["a", ""], ["", "b"], ["/", "a"], ["/", ""],
      ["a/", "b"], ["a/", ""], ["", ""]].map (fun l => Join (l.map String.toList))) =
    (["", "", "a", "a/b", "a", "b", "/a", "/", "a/b", "a", ""].map String.toList) := by
  decide!

/-- Test table of `path.Base` (Go `path_test.go`). -/
theorem Base_examples :
    (["", ".", "/.", "/", "////", "x/", "abc", "abc/def", "a/b/.x", "a/b/c.", "a/b/c.x"].map
      (fun s => Base s.toList)) =
    ([".", ".", ".", "/", "/", "x", "abc", "def", ".x", "c.", "c.x"].map String.toList) := by
  decide!

theorem stripTrailingSlashes_decomp (p : Str) :
    ∃ k, p = stripTrailingSlashes p ++ List.replicate k '/' ∧
      (stripTrailingSlashes p).getLast? ≠ some '/' := by
  refine ⟨(p.reverse.takeWhile (fun c => decide (c = '/'))).length, ?_, ?_⟩
  · have h := List.takeWhile_append_dropWhile (fun c => decide (c = '/')) p.reverse
    have h2 : (p.reverse.takeWhile (fun c => decide (c = '/'))) =
        List.replicate (p.reverse.takeWhile (fun c => decide (c = '/'))).length '/' := by
      apply List.eq_replicate_of_mem
      intro a ha
      simpa using List.mem_takeWhile_imp ha
    have h3 := congrArg List.reverse h
    rw [List.reverse_append, List.reverse_reverse] at h3
    rw [h2, List.reverse_replicate] at h3
    simpa [stripTrailingSlashes] using h3.symm
  · unfold stripTrailingSlashes
    rw [List.getLast?_reverse]
    intro h
    have := List.head?_dropWhile_not (fun c => decide (c = '/')) p.reverse
    rw [h] at this
    simp at this

theorem afterLastSlash_decomp (s : Str) :
    ∃ pre, s = pre ++ afterLastSlash s ∧ '/' ∉ afterLastSlash s ∧
      (pre = [] ∨ pre.getLast? = some '/') := by
  refine ⟨(s.reverse.dropWhile (fun c => decide (c ≠ '/'))).reverse, ?_, ?_, ?_⟩
  · have h := List.takeWhile_append_dropWhile (fun c => decide (c ≠ '/')) s.reverse
    have h3 := congrArg List.reverse h
    rw [List.reverse_append, List.reverse_reverse] at h3
    simpa [afterLastSlash] using h3.symm
  · intro h
    unfold afterLastSlash at h
    rw [List.mem_reverse] at h
    simpa using List.mem_takeWhile_imp h
  · by_cases hnil : s.reverse.dropWhile (fun c => decide (c ≠ '/')) = []
    · left; rw [hnil]; rfl
    · right
      rw [List.getLast?_reverse]
      have := List.head?_dropWhile_not (fun c => decide (c ≠ '/')) s.reverse
      cases hd : (s.reverse.dropWhile (fun c => decide (c ≠ '/'))) with
      | nil => exact absurd hd hnil
      | cons a r =>
        rw [hd] at this
        simp at this
        simp [this]

theorem afterLastSlash_append (pre t : Str) (ht : '/' ∉ t) :
    afterLastSlash (pre ++ '/' :: t) = t := by
  unfold afterLastSlash
  have h : (pre ++ '/' :: t).reverse = t.reverse ++ '/' :: pre.reverse := by simp
  rw [h, List.takeWhile_append_of_pos]
  · simp
  · intro a ha
    rw [List.mem_reverse] at ha
    have : a ≠ '/' := fun e => ht (e ▸ ha)
    simpa using this

theorem stripTrailingSlashes_eq_self (p : Str) (h : p.getLast? ≠ some '/') :
    stripTrailingSlashes p = p := by
  unfold stripTrailingSlashes
  cases hr : p.reverse with
  | nil => simp at hr; simp [hr]
  | cons a r =>
    have ha : a ≠ '/' := by
      intro e
      apply h
      rw [← List.head?_reverse, hr, e]; rfl
    rw [List.dropWhile_cons_of_neg (by simpa using ha), ← hr, List.reverse_reverse]

theorem Base_suffix (pre t : Str) (ht : '/' ∉ t) (hne : t ≠ []) :
    Base (pre ++ '/' :: t) = t := by
  have hl : (pre ++ '/' :: t).getLast? ≠ some '/' := by
    have e : pre ++ '/' :: t = (pre ++ ['/']) ++ t := by simp
    rw [e, List.getLast?_append_of_ne_nil _ hne]
    intro h
    exact ht (List.mem_of_getLast?_eq_some h)
  unfold Base
  rw [if_neg (by simp)]
  simp only [stripTrailingSlashes_eq_self _ hl, afterLastSlash_append pre t ht, if_neg hne]

theorem Base_no_slash (loc : Str) (h : '/' ∈ Base loc) : Base loc = ['/'] := by
  unfold Base at h ⊢
  by_cases h0 : loc = []
  · simp [h0] at h
  · rw [if_neg h0] at h ⊢
    by_cases h1 : afterLastSlash (stripTrailingSlashes loc) = []
    · simp [h1]
    · simp only [h1, if_false] at h
      obtain ⟨_, _, hns, _⟩ := afterLastSlash_decomp (stripTrailingSlashes loc)
      exact absurd h hns

theorem Base_final_segment (loc : Str) (h0 : loc ≠ []) :
    (Base loc = ['/'] ∧ ∃ k, loc = List.replicate k '/') ∨ IsFinalSegment loc (Base loc) := by
  obtain ⟨k, hk, hlast⟩ := stripTrailingSlashes_decomp loc
  obtain ⟨pre, hpre, hns, hp⟩ := afterLastSlash_decomp (stripTrailingSlashes loc)
  unfold Base
  rw [if_neg h0]
  by_cases h1 : afterLastSlash (stripTrailingSlashes loc) = []
  · left
    simp only [h1, if_true, true_and]
    rw [h1, List.append_nil] at hpre
    rcases hp with hp | hp
    · refine ⟨k, ?_⟩
      rw [hk, hpre, hp]; rfl
    · rw [← hpre] at hp
      exact absurd hp hlast
  · right
    simp only [h1, if_false]
    exact ⟨pre, k, by rw [← hpre]; exact hk, h1, hns, hp⟩

theorem splitSlash_slash (cs : Str) : splitSlash ('/' :: cs) = [] :: splitSlash cs := by
  simp [splitSlash]

theorem splitSlash_cons (c : Char) (cs : Str) (hc : c ≠ '/') :
    splitSlash (c :: cs) = consHead c (splitSlash cs) := by
  simp [splitSlash, hc]

theorem splitSlash_ne_nil (p : Str) : splitSlash p ≠ [] := by
  cases p with
  | nil => simp [splitSlash]
  | cons c cs =>
    by_cases hc : c = '/'
    · subst hc; rw [splitSlash_slash]; simp
    · rw [splitSlash_cons c cs hc]
      cases splitSlash cs <;> simp [consHead]

theorem splitSlash_append (a b : Str) :
    splitSlash (a ++ '/' :: b) = splitSlash a ++ splitSlash b := by
  induction a with
  | nil => rw [List.nil_append, splitSlash_slash]; rfl
  | cons c cs ih =>
    rw [List.cons_append]
    by_cases hc : c = '/'
    · subst hc
      rw [splitSlash_slash, splitSlash_slash, ih, List.cons_append]
    · rw [splitSlash_cons c _ hc, splitSlash_cons c _ hc, ih]
      cases hs : splitSlash cs with
      | nil => exact absurd hs (splitSlash_ne_nil cs)
      | cons h t => rfl

theorem splitSlash_no_slash (p : Str) : ∀ c ∈ splitSlash p, '/' ∉ c := by
  induction p with
  | nil => simp [splitSlash]
  | cons c cs ih =>
    by_cases hc : c = '/'
    · subst hc
      rw [splitSlash_slash]
      intro d hd
      rcases List.mem_cons.1 hd with h | h
      · simp [h]
      · exact ih d h
    · rw [splitSlash_cons c cs hc]
      cases hs : splitSlash cs with
      | nil => exact absurd hs (splitSlash_ne_nil cs)
      | cons h t =>
        rw [hs] at ih
        intro d hd
        rcases List.mem_cons.1 hd with e | e
        · rw [e]
          intro hm
          rcases List.mem_cons.1 hm with e1 | e1
          · exact hc e1.symm
          · exact ih h (List.mem_cons_self _ _) e1
        · exact ih d (List.mem_cons_of_mem _ e)

theorem splitSlash_of_no_slash (c : Str) (h : '/' ∉ c) : splitSlash c = [c] := by
  induction c with
  | nil => rfl
  | cons a r ih =>
    have ha : a ≠ '/' := fun e => h (e ▸ List.mem_cons_self _ _)
    have hr : '/' ∉ r := fun e => h (List.mem_cons_of_mem _ e)
    rw [splitSlash_cons a r ha, ih hr]
    rfl

theorem splitSlash_joinSlash (l : List Str) (hl : l ≠ []) (h : ∀ c ∈ l, '/' ∉ c) :
    splitSlash (joinSlash l) = l := by
  induction l with
  | nil => exact absurd rfl hl
  | cons a r ih =>
    cases r with
    | nil => simpa [joinSlash] using splitSlash_of_no_slash a (h a (List.mem_cons_self _ _))
    | cons b r2 =>
      simp only [joinSlash]
      rw [splitSlash_append, splitSlash_of_no_slash a (h a (List.mem_cons_self _ _)),
        ih (by simp) (fun c hc => h c (List.mem_cons_of_mem _ hc))]
      rfl

theorem normStack_all_dotdot (l : List Str) (h : ∀ d ∈ l, d = ['.', '.']) :
    normStack false l := by
  induction l with
  | nil => trivial
  | cons c rest ih =>
    right
    exact ⟨h c (List.mem_cons_self _ _), rfl, fun d hd => h d (List.mem_cons_of_mem _ hd)⟩

theorem normStack_tail {r : Bool} {c : Str} {rest : List Str} (h : normStack r (c :: rest)) :
    normStack r rest := by
  rcases h with h | ⟨_, hr, hall⟩
  · exact h.2
  · subst hr
    exact normStack_all_dotdot rest hall

theorem normStack_elem {r : Bool} {out : List Str} (h : normStack r out) :
    ∀ c ∈ out, c ≠ [] ∧ '/' ∉ c ∧ c ≠ ['.'] := by
  induction out with
  | nil => simp
  | cons c rest ih =>
    intro d hd
    rcases List.mem_cons.1 hd with e | e
    · subst e
      rcases h with h | ⟨hc, _, _⟩
      · exact ⟨h.1.1, h.1.2.1, h.1.2.2.1⟩
      · subst hc; simp
    · exact ih (normStack_tail h) d e

theorem cleanStep_empty (r : Bool) (out : List Str) : cleanStep r out [] = out := by
  simp [cleanStep]

theorem cleanStep_dot (r : Bool) (out : List Str) : cleanStep r out ['.'] = out := by
  simp [cleanStep]

theorem cleanStep_dotdot_nil (r : Bool) :
    cleanStep r [] ['.', '.'] = if r then [] else [['.', '.']] := by
  simp [cleanStep]

theorem cleanStep_dotdot_cons (r : Bool) (t : Str) (rest : List Str) :
    cleanStep r (t :: rest) ['.', '.'] =
      if t = ['.', '.'] then (if r then t :: rest else ['.', '.'] :: t :: rest) else rest := by
  simp [cleanStep]

theorem cleanStep_plain (r : Bool) (out : List Str) (c : Str) (h1 : c ≠ []) (h2 : c ≠ ['.'])
    (h3 : c ≠ ['.', '.']) : cleanStep r out c = c :: out := by
  simp [cleanStep, h1, h2, h3]

theorem normStack_cleanStep {r : Bool} {out : List Str} (c : Str) (hc : '/' ∉ c)
    (h : normStack r out) : normStack r (cleanStep r out c) := by
  by_cases h1 : c = []
  · subst h1; rw [cleanStep_empty]; exact h
  by_cases h2 : c = ['.']
  · subst h2; rw [cleanStep_dot]; exact h
  by_cases h3 : c = ['.', '.']
  · subst h3
    cases out with
    | nil =>
      rw [cleanStep_dotdot_nil]
      cases r with
      | true => exact h
      | false => exact Or.inr ⟨rfl, rfl, by simp⟩
    | cons t rest =>
      rw [cleanStep_dotdot_cons]
      by_cases h4 : t = ['.', '.']
      · rw [if_pos h4]
        cases r with
        | true => exact h
        | false =>
          refine Or.inr ⟨rfl, rfl, ?_⟩
          rcases h with h | ⟨_, _, hall⟩
          · exact absurd h4 h.1.2.2.2
          · intro d hd
            rcases List.mem_cons.1 hd with e | e
            · rw [e, h4]
            · exact hall d e
      · rw [if_neg h4]
        exact normStack_tail h
  · rw [cleanStep_plain r out c h1 h2 h3]
    exact Or.inl ⟨⟨h1, hc, h2, h3⟩, h⟩

theorem normStack_foldl {r : Bool} (comps : List Str) (hc : ∀ c ∈ comps, '/' ∉ c) :
    ∀ out, normStack r out → normStack r (comps.foldl (cleanStep r) out) := by
  induction comps with
  | nil => intro out h; exact h
  | cons c rest ih =>
    intro out h
    exact ih (fun d hd => hc d (List.mem_cons_of_mem _ hd)) _
      (normStack_cleanStep c (hc c (List.mem_cons_self _ _)) h)

theorem cleanStep_replay {r : Bool} (out : List Str) (h : normStack r out) :
    out.reverse.foldl (cleanStep r) [] = out := by
  induction out with
  | nil => rfl
  | cons c rest ih =>
    rw [List.reverse_cons, List.foldl_append, ih (normStack_tail h)]
    simp only [List.foldl_cons, List.foldl_nil]
    rcases h with h | ⟨hc, hr, hall⟩
    · exact cleanStep_plain r rest c h.1.1 h.1.2.2.1 h.1.2.2.2
    · subst hc hr
      cases rest with
      | nil => rw [cleanStep_dotdot_nil]; rfl
      | cons t rest2 =>
        have ht : t = ['.', '.'] := hall t (List.mem_cons_self _ _)
        rw [cleanStep_dotdot_cons, if_pos ht]; rfl

theorem Clean_eq_render (p : Str) (h : p ≠ []) :
    Clean p = render (rooted p) ((splitSlash p).foldl (cleanStep (rooted p)) []) := by
  simp only [Clean, render, h, if_false]

theorem cleanStack_norm (r : Bool) (p : Str) :
    normStack r ((splitSlash p).foldl (cleanStep r) []) :=
  normStack_foldl _ (splitSlash_no_slash p) [] trivial

theorem joinSlash_snoc (l : List Str) (f : Str) (hl : l ≠ []) :
    joinSlash (l ++ [f]) = joinSlash l ++ '/' :: f := by
  induction l with
  | nil => exact absurd rfl hl
  | cons a r ih =>
    cases r with
    | nil => simp [joinSlash]
    | cons b r2 =>
      have := ih (by simp)
      rw [List.cons_append] at this
      show a ++ '/' :: joinSlash (b :: (r2 ++ [f])) = (a ++ '/' :: joinSlash (b :: r2)) ++ '/' :: f
      rw [this]
      simp

theorem joinSlash_head (a : Str) (rest : List Str) (ha : a ≠ []) :
    (joinSlash (a :: rest)).head? = a.head? := by
  cases rest with
  | nil => rfl
  | cons b r =>
    simp only [joinSlash]
    cases a with
    | nil => exact absurd rfl ha
    | cons x xs => rfl

theorem render_ne_nil (r : Bool) (out : List Str) (h : normStack r out) : render r out ≠ [] := by
  unfold render
  cases r with
  | true => simp
  | false =>
    simp only [Bool.false_eq_true, if_false]
    by_cases ho : out = []
    · simp [ho]
    · rw [if_neg ho]
      intro hj
      obtain ⟨l, a, hl⟩ : ∃ l a, out = l ++ [a] := by
        rcases List.eq_nil_or_concat out with h0 | ⟨l, a, e⟩
        · exact absurd h0 ho
        · exact ⟨l, a, by simpa using e⟩
      have ha := (normStack_elem h a (by simp [hl])).1
      rw [hl, List.reverse_append, List.reverse_singleton, List.singleton_append] at hj
      have := joinSlash_head a l.reverse ha
      rw [hj] at this
      cases a with
      | nil => exact ha rfl
      | cons x xs => simp at this

theorem rooted_render (r : Bool) (out : List Str) (h : normStack r out) :
    rooted (render r out) = r := by
  unfold render rooted
  cases r with
  | true => simp
  | false =>
    simp only [Bool.false_eq_true, if_false]
    by_cases ho : out = []
    · simp [ho]
    · rw [if_neg ho]
      obtain ⟨l, a, hl⟩ : ∃ l a, out = l ++ [a] := by
        rcases List.eq_nil_or_concat out with h0 | ⟨l, a, e⟩
        · exact absurd h0 ho
        · exact ⟨l, a, by simpa using e⟩
      have hel := normStack_elem h a (by simp [hl])
      rw [hl, List.reverse_append, List.reverse_singleton, List.singleton_append,
        joinSlash_head a l.reverse hel.1]
      cases a with
      | nil => exact absurd rfl hel.1
      | cons x xs =>
        have hx : x ≠ '/' := fun e => hel.2.1 (e ▸ List.mem_cons_self _ _)
        simpa using fun e => hx e

theorem foldl_render (r : Bool) (out : List Str) (h : normStack r out) :
    (splitSlash (render r out)).foldl (cleanStep r) [] = out := by
  have hns : ∀ c ∈ out.reverse, '/' ∉ c := fun c hc =>
    (normStack_elem h c (List.mem_reverse.1 hc)).2.1
  unfold render
  cases r with
  | true =>
    simp only [if_true, splitSlash_slash, List.foldl_cons, cleanStep_empty]
    by_cases ho : out = []
    · subst ho
      simp [joinSlash, splitSlash, cleanStep_empty]
    · rw [splitSlash_joinSlash _ (by simpa using ho) hns]
      exact cleanStep_replay out h
  | false =>
    simp only [Bool.false_eq_true, if_false]
    by_cases ho : out = []
    · subst ho
      simp [splitSlash, consHead, cleanStep_dot]
    · rw [if_neg ho, splitSlash_joinSlash _ (by simpa using ho) hns]
      exact cleanStep_replay out h

theorem rooted_append (y z : Str) (hy : y ≠ []) : rooted (y ++ z) = rooted y := by
  cases y with
  | nil => exact absurd rfl hy
  | cons a r => rfl

/-- Cleaning `x/c` continues the element stack of `x` with the elements of `c`. -/
theorem Clean_append (x c : Str) (hx : x ≠ []) :
    Clean (x ++ '/' :: c) = render (rooted x)
      ((splitSlash c).foldl (cleanStep (rooted x))
        ((splitSlash x).foldl (cleanStep (rooted x)) [])) := by
  rw [Clean_eq_render _ (by simp [hx]), rooted_append x _ hx, splitSlash_append,
    List.foldl_append]

theorem Clean_ne_nil (p : Str) : Clean p ≠ [] := by
  by_cases h : p = []
  · simp [Clean, h]
  · rw [Clean_eq_render p h]
    exact render_ne_nil _ _ (cleanStack_norm _ p)

/-- Cleaning is absorbed by a later cleaning of a longer path. -/
theorem Clean_Clean_append (x c : Str) (hx : x ≠ []) :
    Clean (Clean x ++ '/' :: c) = Clean (x ++ '/' :: c) := by
  have hn := cleanStack_norm (rooted x) x
  rw [Clean_append _ _ (Clean_ne_nil x), Clean_append _ _ hx, Clean_eq_render x hx,
    rooted_render _ _ hn, foldl_render _ _ hn]

theorem Join_nil_cons (es : List Str) : Join ([] :: es) = Join es := by
  simp [Join, joinRaw]

theorem Join_single (a : Str) : Join [a] = if a = [] then [] else Clean a := by
  by_cases h : a = []
  · simp [Join, h]
  · simp [Join, joinRaw, h]

theorem Join_pair (a b : Str) (ha : a ≠ []) : Join [a, b] = Clean (a ++ '/' :: b) := by
  simp [Join, joinRaw, ha]

theorem Join_triple (a b c : Str) (ha : a ≠ []) :
    Join [a, b, c] = Clean ((a ++ '/' :: b) ++ '/' :: c) := by
  simp [Join, joinRaw, ha]

theorem Join_pair_ne_nil (a b : Str) (h : a ≠ [] ∨ b ≠ []) : Join [a, b] ≠ [] := by
  by_cases ha : a = []
  · subst ha
    have hb : b ≠ [] := by tauto
    rw [Join_nil_cons, Join_single, if_neg hb]
    exact Clean_ne_nil b
  · rw [Join_pair a b ha]
    exact Clean_ne_nil _

/-- Joining in two steps is joining in one step. -/
theorem Join_assoc (a b c : Str) : Join [Join [a, b], c] = Join [a, b, c] := by
  by_cases ha : a = []
  · subst ha
    rw [Join_nil_cons, Join_nil_cons, Join_single]
    by_cases hb : b = []
    · subst hb
      rw [if_pos rfl, Join_nil_cons]
    · rw [if_neg hb, Join_pair _ _ (Clean_ne_nil b), Join_pair _ _ hb, Clean_Clean_append _ _ hb]
  · rw [Join_pair a b ha, Join_pair _ _ (Clean_ne_nil _), Join_triple a b c ha,
      Clean_Clean_append _ _ (by simp [ha])]

theorem Plain_not_rooted (f : Str) (hf : Plain f) : rooted f = false := by
  cases f with
  | nil => rfl
  | cons a r =>
    have ha : a ≠ '/' := fun e => hf.2.1 (e ▸ List.mem_cons_self _ _)
    simpa [rooted] using fun e => ha e

theorem foldl_plain (r : Bool) (out : List Str) (f : Str) (hf : Plain f) :
    (splitSlash f).foldl (cleanStep r) out = f :: out := by
  rw [splitSlash_of_no_slash f hf.2.1]
  exact cleanStep_plain r out f hf.1 hf.2.2.1 hf.2.2.2

theorem render_cons (r : Bool) (f : Str) (out : List Str) (ho : out ≠ []) :
    render r (f :: out) = render r out ++ '/' :: f := by
  unfold render
  have h1 : (f :: out).reverse = out.reverse ++ [f] := by simp
  rw [h1, joinSlash_snoc _ _ (by simpa using ho)]
  cases r with
  | true => simp
  | false => simp [ho]

theorem render_single (r : Bool) (f : Str) :
    render r [f] = if r then '/' :: f else f := by
  cases r <;> simp [render, joinSlash]

theorem Clean_plain (f : Str) (hf : Plain f) : Clean f = f := by
  rw [Clean_eq_render f hf.1, foldl_plain _ _ f hf, Plain_not_rooted f hf, render_single]
  rfl

/-- Joining a directory and a real element appends the element. -/
theorem Join_plain (d f : Str) (hf : Plain f) : Join [d, f] = dirPrefix d ++ f := by
  unfold dirPrefix
  by_cases hd : d = []
  · subst hd
    rw [Join_nil_cons, Join_single, if_neg hf.1, Clean_plain f hf]
    rfl
  · rw [if_neg hd, Join_pair d f hd, Clean_append d f hd, foldl_plain _ _ f hf]
    by_cases hs : (splitSlash d).foldl (cleanStep (rooted d)) [] = []
    · rw [if_pos hs, hs, render_single]
      cases rooted d <;> rfl
    · rw [if_neg hs, render_cons _ _ _ hs]
      simp

theorem Join_plain_inj (d f g : Str) (hf : Plain f) (hg : Plain g)
    (h : Join [d, f] = Join [d, g]) : f = g := by
  rw [Join_plain d f hf, Join_plain d g hg] at h
  exact List.append_cancel_left h

/-- Below a path that ends in a real element, joining is concatenation. -/
theorem Join_Join_plain (d g f : Str) (hg : Plain g) (hf : Plain f) :
    Join [Join [d, g], f] = Join [d, g] ++ '/' :: f := by
  by_cases hd : d = []
  · subst hd
    rw [Join_nil_cons, Join_single, if_neg hg.1, Clean_plain g hg, Join_pair g f hg.1,
      Clean_append g f hg.1, foldl_plain _ _ f hf, foldl_plain _ _ g hg,
      render_cons _ _ _ (by simp), render_single, Plain_not_rooted g hg]
    rfl
  · rw [Join_pair d g hd, Join_pair _ f (Clean_ne_nil _), Clean_Clean_append _ _ (by simp [hd]),
      Clean_append _ f (by simp [hd]), foldl_plain _ _ f hf, Clean_append d g hd,
      foldl_plain _ _ g hg, rooted_append d _ hd, splitSlash_append, List.foldl_append,
      foldl_plain _ _ g hg, render_cons _ _ _ (by simp)]

theorem FS.le_refl (a : FS) : a.le a := ⟨rfl, fun _ _ h => h⟩

theorem FS.le_trans {a b c : FS} (h1 : a.le b) (h2 : b.le c) : a.le c :=
  ⟨h1.1.trans h2.1, fun l n h => h2.2 l n (h1.2 l n h)⟩

theorem FS.get_add (fs : FS) (l : Loc) (n : Node) (l' : Loc) :
    (fs.add l n).get l' = if l' = [] then some Node.dir else if l = l' then some n else fs.get l' := by
  unfold FS.get FS.add
  by_cases h : l' = []
  · simp [h]
  · simp [h, lookupLoc]

theorem FS.le_add (fs : FS) (l : Loc) (n : Node) (h : fs.get l = none) : fs.le (fs.add l n) := by
  refine ⟨rfl, fun l' n' h' => ?_⟩
  rw [FS.get_add]
  by_cases h0 : l' = []
  · rw [if_pos h0]; rw [h0] at h'; simpa [FS.get] using h'
  · rw [if_neg h0]
    by_cases h1 : l = l'
    · rw [h1, h'] at h; cases h
    · rw [if_neg h1]; exact h'

theorem walkWith_nil (next : Loc → List Str → Except Errno Res) (fs : FS) (follow : Bool)
    (cur : Loc) : walkWith next fs follow cur [] = Except.ok (Res.found cur Node.dir) := by
  rw [walkWith]

theorem walkWith_skip (next : Loc → List Str → Except Errno Res) (fs : FS) (follow : Bool)
    (cur : Loc) (c : Str) (rest : List Str) (h : c = [] ∨ c = ['.']) :
    walkWith next fs follow cur (c :: rest) = walkWith next fs follow cur rest := by
  rw [walkWith, if_pos h]

theorem walkWith_up (next : Loc → List Str → Except Errno Res) (fs : FS) (follow : Bool)
    (cur : Loc) (rest : List Str) :
    walkWith next fs follow cur (['.', '.'] :: rest) =
      walkWith next fs follow cur.dropLast rest := by
  rw [walkWith, if_neg (by simp), if_pos rfl]

theorem walkWith_name (next : Loc → List Str → Except Errno Res) (fs : FS) (follow : Bool)
    (cur : Loc) (c : Str) (rest : List Str) (h1 : ¬ (c = [] ∨ c = ['.'])) (h2 : c ≠ ['.', '.']) :
    walkWith next fs follow cur (c :: rest) =
      match fs.get (cur ++ [c]) with
      | none =>
        if rest.all (fun r => decide (r = [])) then
          Except.ok (Res.missing cur c (decide (rest ≠ [])))
        else Except.error Errno.ENOENT
      | some Node.dir => walkWith next fs follow (cur ++ [c]) rest
      | some Node.file =>
        if rest = [] then Except.ok (Res.found (cur ++ [c]) Node.file)
        else Except.error Errno.ENOTDIR
      | some (Node.link t) =>
        if rest = [] ∧ follow = false then Except.ok (Res.found (cur ++ [c]) (Node.link t))
        else next (if rooted t then [] else cur) (splitSlash t ++ rest) := by
  rw [walkWith, if_neg h1, if_neg h2]

/-- Nodes that are added do not change a lookup that found its node or failed
on what it found. -/
theorem walkWith_mono {a b : FS} (hab : a.le b) (follow : Bool)
    (next next' : Loc → List Str → Except Errno Res)
    (hnext : ∀ cur comps, stable (next cur comps) → next' cur comps = next cur comps) :
    ∀ comps cur, stable (walkWith next a follow cur comps) →
      walkWith next' b follow cur comps = walkWith next a follow cur comps := by
  intro comps
  induction comps with
  | nil => intro cur _; rw [walkWith_nil, walkWith_nil]
  | cons c rest ih =>
    intro cur hs
    by_cases h1 : c = [] ∨ c = ['.']
    · rw [walkWith_skip _ _ _ _ _ _ h1] at hs
      rw [walkWith_skip next' b _ _ _ _ h1, walkWith_skip next a _ _ _ _ h1]
      exact ih cur hs
    by_cases h2 : c = ['.', '.']
    · subst h2
      rw [walkWith_up] at hs
      rw [walkWith_up next' b, walkWith_up next a]
      exact ih _ hs
    rw [walkWith_name _ _ _ _ _ _ h1 h2] at hs
    rw [walkWith_name next' b _ _ _ _ h1 h2, walkWith_name next a _ _ _ _ h1 h2]
    cases hg : a.get (cur ++ [c]) with
    | none =>
      rw [hg] at hs
      exfalso
      split_ifs at hs <;> simp [stable] at hs
    | some nd =>
      rw [hg] at hs
      rw [hab.2 _ _ hg]
      cases nd with
      | file => rfl
      | dir => exact ih _ hs
      | link t =>
        simp only at hs ⊢
        by_cases h3 : rest = [] ∧ follow = false
        · rw [if_pos h3, if_pos h3]
        · rw [if_neg h3] at hs
          rw [if_neg h3, if_neg h3]
          exact hnext _ _ hs

theorem walk_mono {a b : FS} (hab : a.le b) (follow : Bool) :
    ∀ n comps cur, stable (walk a follow n cur comps) →
      walk b follow n cur comps = walk a follow n cur comps := by
  intro n
  induction n with
  | zero =>
    intro comps cur hs
    exact walkWith_mono hab follow _ _ (fun _ _ _ => rfl) comps cur hs
  | succ n ih =>
    intro comps cur hs
    exact walkWith_mono hab follow _ _ (fun cur comps h => ih comps cur h) comps cur hs

theorem resolve_mono {a b : FS} (hab : a.le b) (follow : Bool) (path : Str)
    (hs : stable (resolve a follow path)) : resolve b follow path = resolve a follow path := by
  unfold resolve at hs ⊢
  by_cases hp : path = []
  · simp [hp]
  · rw [if_neg hp] at hs
    rw [if_neg hp, if_neg hp, ← hab.1]
    exact walk_mono hab follow _ _ _ hs

theorem walkWith_allEmpty (next : Loc → List Str → Except Errno Res) (fs : FS) (follow : Bool)
    (cur : Loc) : ∀ rest : List Str, rest.all (fun r => decide (r = [])) = true →
      walkWith next fs follow cur rest = Except.ok (Res.found cur Node.dir) := by
  intro rest
  induction rest with
  | nil => intro _; rw [walkWith_nil]
  | cons c rest ih =>
    intro h
    simp only [List.all_cons, Bool.and_eq_true, decide_eq_true_eq] at h
    rw [walkWith_skip _ _ _ _ _ _ (Or.inl h.1)]
    exact ih h.2

/-- A lookup that ends on a missing last element found nothing there. -/
theorem walkWith_missing_get {a : FS} (follow : Bool) (p : Loc) (c : Str) (nd : Bool)
    (next : Loc → List Str → Except Errno Res)
    (hnext : ∀ cur comps, next cur comps = Except.ok (Res.missing p c nd) →
      a.get (p ++ [c]) = none) :
    ∀ comps cur, walkWith next a follow cur comps = Except.ok (Res.missing p c nd) →
      a.get (p ++ [c]) = none := by
  intro comps
  induction comps with
  | nil => intro cur h; rw [walkWith_nil] at h; cases h
  | cons d rest ih =>
    intro cur h
    by_cases h1 : d = [] ∨ d = ['.']
    · rw [walkWith_skip _ _ _ _ _ _ h1] at h
      exact ih cur h
    by_cases h2 : d = ['.', '.']
    · subst h2
      rw [walkWith_up] at h
      exact ih _ h
    rw [walkWith_name _ _ _ _ _ _ h1 h2] at h
    cases hg : a.get (cur ++ [d]) with
    | none =>
      rw [hg] at h
      simp only at h
      split_ifs at h
      simp only [Except.ok.injEq, Res.missing.injEq] at h
      rw [← h.1, ← h.2.1]
      exact hg
    | some node =>
      rw [hg] at h
      cases node with
      | file => simp only at h; (split_ifs at h; cases h)
      | dir => exact ih _ h
      | link t =>
        simp only at h
        by_cases h3 : rest = [] ∧ follow = false
        · rw [if_pos h3] at h; cases h
        · rw [if_neg h3] at h
          exact hnext _ _ h

theorem walk_missing_get {a : FS} (follow : Bool) (p : Loc) (c : Str) (nd : Bool) :
    ∀ n comps cur, walk a follow n cur comps = Except.ok (Res.missing p c nd) →
      a.get (p ++ [c]) = none := by
  intro n
  induction n with
  | zero =>
    intro comps cur h
    exact walkWith_missing_get follow p c nd _ (fun _ _ h => by cases h) comps cur h
  | succ n ih =>
    intro comps cur h
    exact walkWith_missing_get follow p c nd _ (fun cur comps h => ih comps cur h) comps cur h

/-- After the missing last element has been created, the lookup finds it. -/
theorem walkWith_add {a : FS} (follow : Bool) (p : Loc) (c : Str) (nd : Bool) (node : Node)
    (hdir : nd = true → node = Node.dir) (hlink : ∀ t, node = Node.link t → follow = false)
    (hget : a.get (p ++ [c]) = none)
    (next next' : Loc → List Str → Except Errno Res)
    (hnext : ∀ cur comps, next cur comps = Except.ok (Res.missing p c nd) →
      next' cur comps = Except.ok (Res.found (p ++ [c]) node)) :
    ∀ comps cur, walkWith next a follow cur comps = Except.ok (Res.missing p c nd) →
      walkWith next' (a.add (p ++ [c]) node) follow cur comps =
        Except.ok (Res.found (p ++ [c]) node) := by
  have hab := FS.le_add a (p ++ [c]) node hget
  intro comps
  induction comps with
  | nil => intro cur h; rw [walkWith_nil] at h; cases h
  | cons d rest ih =>
    intro cur h
    by_cases h1 : d = [] ∨ d = ['.']
    · rw [walkWith_skip _ _ _ _ _ _ h1] at h ⊢
      exact ih cur h
    by_cases h2 : d = ['.', '.']
    · subst h2
      rw [walkWith_up] at h ⊢
      exact ih _ h
    rw [walkWith_name _ _ _ _ _ _ h1 h2] at h ⊢
    cases hg : a.get (cur ++ [d]) with
    | none =>
      rw [hg] at h
      simp only at h
      split_ifs at h with hall
      simp only [Except.ok.injEq, Res.missing.injEq] at h
      obtain ⟨hp, hc, hnd⟩ := h
      subst hp hc
      have hb : (a.add (cur ++ [d]) node).get (cur ++ [d]) = some node := by
        rw [FS.get_add]; simp
      rw [hb]
      cases node with
      | dir => exact walkWith_allEmpty _ _ _ _ rest hall
      | file =>
        have hr : rest = [] := by
          by_contra hne
          have : nd = true := by rw [← hnd]; simpa using hne
          cases hdir this
        simp [hr]
      | link t =>
        have hr : rest = [] := by
          by_contra hne
          have : nd = true := by rw [← hnd]; simpa using hne
          cases hdir this
        have hf := hlink t rfl
        simp [hr, hf]
    | some node2 =>
      rw [hg] at h
      rw [hab.2 _ _ hg]
      cases node2 with
      | file => simp only at h; (split_ifs at h; cases h)
      | dir => exact ih _ h
      | link t =>
        simp only at h ⊢
        by_cases h3 : rest = [] ∧ follow = false
        · rw [if_pos h3] at h; cases h
        · rw [if_neg h3] at h
          rw [if_neg h3]
          exact hnext _ _ h

theorem walk_add {a : FS} (follow : Bool) (p : Loc) (c : Str) (nd : Bool) (node : Node)
    (hdir : nd = true → node = Node.dir) (hlink : ∀ t, node = Node.link t → follow = false) :
    ∀ n comps cur, walk a follow n cur comps = Except.ok (Res.missing p c nd) →
      walk (a.add (p ++ [c]) node) follow n cur comps =
        Except.ok (Res.found (p ++ [c]) node) := by
  intro n
  induction n with
  | zero =>
    intro comps cur h
    exact walkWith_add follow p c nd node hdir hlink (walk_missing_get follow p c nd 0 comps cur h)
      _ _ (fun _ _ h => by cases h) comps cur h
  | succ n ih =>
    intro comps cur h
    exact walkWith_add follow p c nd node hdir hlink
      (walk_missing_get follow p c nd (n + 1) comps cur h)
      _ _ (fun cur comps h => ih comps cur h) comps cur h

theorem resolve_missing_get {a : FS} (follow : Bool) (path : Str) (p : Loc) (c : Str) (nd : Bool)
    (h : resolve a follow path = Except.ok (Res.missing p c nd)) : a.get (p ++ [c]) = none := by
  unfold resolve at h
  by_cases hp : path = []
  · rw [if_pos hp] at h; cases h
  · rw [if_neg hp] at h
    exact walk_missing_get follow p c nd _ _ _ h

theorem resolve_add {a : FS} (follow : Bool) (path : Str) (p : Loc) (c : Str) (nd : Bool)
    (node : Node) (hdir : nd = true → node = Node.dir)
    (hlink : ∀ t, node = Node.link t → follow = false)
    (h : resolve a follow path = Except.ok (Res.missing p c nd)) :
    resolve (a.add (p ++ [c]) node) follow path = Except.ok (Res.found (p ++ [c]) node) := by
  unfold resolve at h ⊢
  by_cases hp : path = []
  · rw [if_pos hp] at h; cases h
  · rw [if_neg hp] at h
    rw [if_neg hp]
    exact walk_add follow p c nd node hdir hlink _ _ _ h

theorem World.ext_refl (good : Event → Prop) (w : World) : World.ext good w w :=
  ⟨FS.le_refl _, [], by simp, by simp⟩

theorem World.ext_trans {good : Event → Prop} {a b c : World} (h1 : World.ext good a b)
    (h2 : World.ext good b c) : World.ext good a c := by
  obtain ⟨l1, e1, t1, g1⟩ := h1
  obtain ⟨l2, e2, t2, g2⟩ := h2
  refine ⟨FS.le_trans l1 l2, e1 ++ e2, by rw [t2, t1, List.append_assoc], ?_⟩
  intro e he
  rcases List.mem_append.1 he with h | h
  · exact g1 e h
  · exact g2 e h

theorem sys_cases {α : Type} (env : Env) (w : World) (c : Call)
    (run : FS → Except Errno (α × FS)) :
    (∃ f, env.fault w.tick = some f ∧ sys env w c run =
      (Except.error f.toErrno,
        { fs := w.fs, tick := w.tick + 1, trace := w.trace ++ [Event.mk c false] })) ∨
    (env.fault w.tick = none ∧ ∃ a fs1, run w.fs = Except.ok (a, fs1) ∧ sys env w c run =
      (Except.ok a, { fs := fs1, tick := w.tick + 1, trace := w.trace ++ [Event.mk c true] })) ∨
    (env.fault w.tick = none ∧ ∃ e, run w.fs = Except.error e ∧ sys env w c run =
      (Except.error e,
        { fs := w.fs, tick := w.tick + 1, trace := w.trace ++ [Event.mk c false] })) := by
  unfold sys
  cases hf : env.fault w.tick with
  | some f => exact Or.inl ⟨f, rfl, rfl⟩
  | none =>
    right
    cases hr : run w.fs with
    | error e => exact Or.inr ⟨rfl, e, rfl, rfl⟩
    | ok p =>
      obtain ⟨a, fs1⟩ := p
      exact Or.inl ⟨rfl, a, fs1, rfl, rfl⟩

/-- A system call that only creates nodes extends the world. -/
theorem sys_ext {α : Type} (good : Event → Prop) (env : Env) (w : World) (c : Call)
    (run : FS → Except Errno (α × FS))
    (hrun : ∀ fs a fs1, run fs = Except.ok (a, fs1) → fs.le fs1)
    (hgood : ∀ b, good (Event.mk c b)) : World.ext good w (sys env w c run).2 := by
  rcases sys_cases env w c run with ⟨f, _, h⟩ | ⟨_, a, fs1, hr, h⟩ | ⟨_, e, _, h⟩
  · rw [h]
    exact ⟨FS.le_refl _, _, rfl, by simpa using hgood false⟩
  · rw [h]
    exact ⟨hrun _ _ _ hr, _, rfl, by simpa using hgood true⟩
  · rw [h]
    exact ⟨FS.le_refl _, _, rfl, by simpa using hgood false⟩

theorem fsStat_ok (path : Str) (fs : FS) (n : Node) (fs1 : FS)
    (h : fsStat path fs = Except.ok (n, fs1)) :
    fs1 = fs ∧ ∃ loc, resolve fs true path = Except.ok (Res.found loc n) := by
  unfold fsStat at h
  split at h
  · rename_i loc n1 hr
    simp only [Except.ok.injEq, Prod.mk.injEq] at h
    exact ⟨h.2.symm, loc, by rw [hr, h.1]⟩
  · cases h
  · cases h

theorem fsLstat_ok (path : Str) (fs : FS) (n : Node) (fs1 : FS)
    (h : fsLstat path fs = Except.ok (n, fs1)) :
    fs1 = fs ∧ ∃ loc, resolve fs false path = Except.ok (Res.found loc n) := by
  unfold fsLstat at h
  split at h
  · rename_i loc n1 hr
    simp only [Except.ok.injEq, Prod.mk.injEq] at h
    exact ⟨h.2.symm, loc, by rw [hr, h.1]⟩
  · cases h
  · cases h

theorem fsMkdir_ok (path : Str) (fs : FS) (fs1 : FS)
    (h : fsMkdir path fs = Except.ok ((), fs1)) :
    fs.le fs1 ∧ ∃ loc, resolve fs1 false path = Except.ok (Res.found loc Node.dir) := by
  unfold fsMkdir at h
  split at h
  · cases h
  · rename_i p c nd hr
    simp only [Except.ok.injEq, Prod.mk.injEq, true_and] at h
    subst h
    exact ⟨FS.le_add _ _ _ (resolve_missing_get _ _ _ _ _ hr), _,
      resolve_add false path p c nd Node.dir (fun _ => rfl) (fun t ht => by cases ht) hr⟩
  · cases h

theorem fsCreate_ok (path : Str) (fs : FS) (fs1 : FS)
    (h : fsCreate path fs = Except.ok ((), fs1)) :
    fs.le fs1 ∧ ∃ loc, resolve fs1 true path = Except.ok (Res.found loc Node.file) := by
  unfold fsCreate at h
  split at h
  · rename_i loc hr
    simp only [Except.ok.injEq, Prod.mk.injEq, true_and] at h
    subst h
    exact ⟨FS.le_refl _, loc, hr⟩
  · cases h
  · cases h
  · rename_i p c nd hr
    by_cases hnd : nd = true
    · rw [if_pos hnd] at h; cases h
    · rw [if_neg hnd] at h
      simp only [Except.ok.injEq, Prod.mk.injEq, true_and] at h
      subst h
      exact ⟨FS.le_add _ _ _ (resolve_missing_get _ _ _ _ _ hr), _,
        resolve_add true path p c nd Node.file (fun h => absurd h hnd) (fun t ht => by cases ht) hr⟩
  · cases h

theorem pathExists_mono {a b : FS} (hab : a.le b) (path : Str) (h : pathExists a path = true) :
    pathExists b path = true := by
  unfold pathExists at h ⊢
  cases hr : resolve a true path with
  | error e => rw [hr] at h; cases h
  | ok r =>
    cases r with
    | missing p c nd => rw [hr] at h; cases h
    | found loc n =>
      have := resolve_mono hab true path (by rw [hr]; trivial)
      rw [this, hr]

theorem entryAt_mono {a b : FS} (hab : a.le b) (path : Str) (n : Node)
    (h : entryAt a path = some n) : entryAt b path = some n := by
  unfold entryAt at h ⊢
  cases hr : resolve a false path with
  | error e => rw [hr] at h; cases h
  | ok r =>
    cases r with
    | missing p c nd => rw [hr] at h; cases h
    | found loc n1 =>
      have := resolve_mono hab false path (by rw [hr]; trivial)
      rw [this]
      rw [hr] at h ⊢
      exact h

theorem Stat_fs (env : Env) (w : World) (path : Str) : (Stat env w path).2.fs = w.fs := by
  unfold Stat
  rcases sys_cases env w (Call.stat path) (fsStat path) with
    ⟨f, _, h⟩ | ⟨_, a, fs1, hr, h⟩ | ⟨_, e, _, h⟩
  · rw [h]
  · rw [h]; exact (fsStat_ok _ _ _ _ hr).1
  · rw [h]

theorem Stat_trace (env : Env) (w : World) (path : Str) :
    ∃ b, (Stat env w path).2.trace = w.trace ++ [Event.mk (Call.stat path) b] := by
  unfold Stat
  rcases sys_cases env w (Call.stat path) (fsStat path) with
    ⟨f, _, h⟩ | ⟨_, a, fs1, hr, h⟩ | ⟨_, e, _, h⟩
  · rw [h]; exact ⟨_, rfl⟩
  · rw [h]; exact ⟨_, rfl⟩
  · rw [h]; exact ⟨_, rfl⟩

theorem Stat_ok_exists (env : Env) (w : World) (path : Str) (n : Node)
    (h : (Stat env w path).1 = Except.ok n) : pathExists w.fs path = true := by
  unfold Stat at h
  rcases sys_cases env w (Call.stat path) (fsStat path) with
    ⟨f, _, h1⟩ | ⟨_, a, fs1, hr, h1⟩ | ⟨_, e, _, h1⟩
  · rw [h1] at h; cases h
  · obtain ⟨_, loc, hl⟩ := fsStat_ok _ _ _ _ hr
    unfold pathExists
    rw [hl]
  · rw [h1] at h; cases h

theorem Stat_exists_ok (env : Env) (w : World) (path : Str)
    (h : pathExists w.fs path = true) : ∀ e, (Stat env w path).1 = Except.error e →
      e ≠ Errno.ENOENT := by
  intro e he
  unfold Stat at he
  rcases sys_cases env w (Call.stat path) (fsStat path) with
    ⟨f, _, h1⟩ | ⟨_, a, fs1, hr, h1⟩ | ⟨_, e1, hr, h1⟩
  · rw [h1] at he
    simp only [Except.error.injEq] at he
    rw [← he]
    cases f <;> simp [Fault.toErrno]
  · rw [h1] at he; cases he
  · exfalso
    unfold pathExists at h
    unfold fsStat at hr
    cases hres : resolve w.fs true path with
    | error e2 => rw [hres] at h; cases h
    | ok r =>
      cases r with
      | missing p c nd => rw [hres] at h; cases h
      | found loc n => rw [hres] at hr; cases hr

theorem Stat_ext (good : Event → Prop) (hb : benign good) (env : Env) (w : World) (path : Str) :
    World.ext good w (Stat env w path).2 :=
  sys_ext good env w _ _ (fun _ _ _ h => by rw [(fsStat_ok _ _ _ _ h).1]; exact FS.le_refl _)
    (fun b => hb _ b rfl rfl)

theorem Lstat_ext (good : Event → Prop) (hb : benign good) (env : Env) (w : World) (path : Str) :
    World.ext good w (Lstat env w path).2 :=
  sys_ext good env w _ _ (fun _ _ _ h => by rw [(fsLstat_ok _ _ _ _ h).1]; exact FS.le_refl _)
    (fun b => hb _ b rfl rfl)

theorem Mkdir_ext (good : Event → Prop) (hb : benign good) (env : Env) (w : World) (path : Str) :
    World.ext good w (Mkdir env w path).2 :=
  sys_ext good env w _ _ (fun _ _ _ h => (fsMkdir_ok _ _ _ h).1) (fun b => hb _ b rfl rfl)

theorem Copy_ext (good : Event → Prop) (hb : benign good) (env : Env) (w : World)
    (path body : Str) : World.ext good w (Copy env w path body).2 :=
  sys_ext good env w _ _
    (fun fs _ fs1 h => by
      unfold fsWrite at h
      simp only [Except.ok.injEq, Prod.mk.injEq, true_and] at h
      rw [← h]; exact FS.le_refl _)
    (fun b => hb _ b rfl rfl)

theorem Create_ext (good : Event → Prop) (env : Env) (w : World) (path : Str)
    (hg : ∀ b, good (Event.mk (Call.create path) b)) :
    World.ext good w (Create env w path).2 :=
  sys_ext good env w _ _ (fun _ _ _ h => (fsCreate_ok _ _ _ h).1) hg

theorem Create_ok_exists (env : Env) (w : World) (path : Str)
    (h : (Create env w path).1 = Except.ok ()) :
    pathExists (Create env w path).2.fs path = true := by
  unfold Create at h ⊢
  rcases sys_cases env w (Call.create path) (fsCreate path) with
    ⟨f, _, h1⟩ | ⟨_, a, fs1, hr, h1⟩ | ⟨_, e, _, h1⟩
  · rw [h1] at h; cases h
  · rw [h1]
    obtain ⟨_, loc, hl⟩ := fsCreate_ok _ _ _ hr
    unfold pathExists
    rw [hl]
  · rw [h1] at h; cases h

theorem Get_ext (good : Event → Prop) (env : Env) (w : World) (url : Str)
    (hg : ∀ b, good (Event.mk (Call.get url) b)) : World.ext good w (Get env w url).2 :=
  ⟨FS.le_refl _, _, rfl, by simpa [Get] using hg _⟩

theorem Head_ext (good : Event → Prop) (env : Env) (w : World) (url : Str)
    (hg : ∀ b, good (Event.mk (Call.head url) b)) : World.ext good w (Head env w url).2 :=
  ⟨FS.le_refl _, _, rfl, by simpa [Head] using hg _⟩

theorem MkdirAll_ext (good : Event → Prop) (hb : benign good) (env : Env) :
    ∀ (fuel : Nat) (w : World) (path : Str), World.ext good w (MkdirAll env fuel w path).2 := by
  intro fuel
  induction fuel with
  | zero => intro w path; exact World.ext_refl _ _
  | succ fuel ih =>
    intro w path
    unfold MkdirAll
    have h1 := Stat_ext good hb env w path
    cases hs : Stat env w path with
    | mk r w1 =>
      rw [hs] at h1
      cases r with
      | ok n =>
        simp only
        split_ifs <;> exact h1
      | error e =>
        simp only
        have h2 : World.ext good w
            (if (parentPrefix path).length > 0 then MkdirAll env fuel w1 (parentPrefix path)
              else (none, w1)).2 := by
          split_ifs
          · exact World.ext_trans h1 (ih w1 _)
          · exact h1
        cases hp : (if (parentPrefix path).length > 0 then
            MkdirAll env fuel w1 (parentPrefix path) else (none, w1)) with
        | mk pe w2 =>
          rw [hp] at h2
          cases pe with
          | some e2 => exact h2
          | none =>
            simp only
            have h3 := World.ext_trans h2 (Mkdir_ext good hb env w2 path)
            cases hm : Mkdir env w2 path with
            | mk mr w3 =>
              rw [hm] at h3
              cases mr with
              | ok u => exact h3
              | error e3 =>
                simp only
                have h4 := World.ext_trans h3 (Lstat_ext good hb env w3 path)
                cases hl : Lstat env w3 path with
                | mk lr w4 =>
                  rw [hl] at h4
                  cases lr with
                  | error e4 => exact h4
                  | ok nd => cases nd <;> exact h4

theorem mkdirTempLoop_ext (good : Event → Prop) (hb : benign good) (env : Env) (dir pre : Str) :
    ∀ (tries : Nat) (w : World), World.ext good w (mkdirTempLoop env dir pre tries w).2 := by
  intro tries
  induction tries with
  | zero => intro w; exact World.ext_refl _ _
  | succ tries ih =>
    intro w
    unfold mkdirTempLoop
    simp only
    have h1 := Mkdir_ext good hb env w
      (pre ++ (Nat.repr (env.rand w.tick % 2 ^ 32)).toList)
    cases hm : Mkdir env w (pre ++ (Nat.repr (env.rand w.tick % 2 ^ 32)).toList) with
    | mk r w1 =>
      rw [hm] at h1
      cases r with
      | ok u => exact h1
      | error e =>
        simp only
        split_ifs
        · exact World.ext_trans h1 (ih w1)
        · exact World.ext_trans h1 (Stat_ext good hb env w1 dir)
        · exact h1

theorem GetDataDir_ext (good : Event → Prop) (hb : benign good) (env : Env) (w : World) :
    World.ext good w (GetDataDir env w).2 := by
  unfold GetDataDir
  cases UserHomeDir env with
  | some h => exact World.ext_refl _ _
  | none => exact mkdirTempLoop_ext good hb env _ _ _ w

theorem GetDataDir_home (env : Env) (w : World) (h : env.HOME ≠ []) :
    GetDataDir env w = (some (Join [env.HOME, ".mmdb".toList]), w) := by
  unfold GetDataDir UserHomeDir
  rw [if_neg h]

theorem GetLatest_world (env : Env) (w : World) :
    (GetLatest env w).2 = { w with trace := w.trace ++
      [Event.mk (Call.head (RepoURL ++ "/releases/latest".toList))
        (clientResponse env).isSome] } := by
  unfold GetLatest Head
  cases clientResponse env with
  | none => rfl
  | some resp =>
    simp only
    split_ifs <;> rfl

theorem GetLatest_ext (good : Event → Prop) (env : Env) (w : World)
    (hg : ∀ u b, good (Event.mk (Call.head u) b)) : World.ext good w (GetLatest env w).2 := by
  rw [GetLatest_world]
  exact ⟨FS.le_refl _, _, rfl, by simpa using hg _ _⟩

theorem IsTagDownloaded_world (env : Env) (w : World) (dataDir tag : Str) :
    (IsTagDownloaded env w dataDir tag).2 = (Stat env w (Join [dataDir, tag, ".ok".toList])).2 := by
  simp only [IsTagDownloaded]
  cases hs : Stat env w (Join [dataDir, tag, ".ok".toList]) with
  | mk r w1 => cases r <;> rfl

theorem IsTagDownloaded_ext (good : Event → Prop) (hb : benign good) (env : Env) (w : World)
    (dataDir tag : Str) : World.ext good w (IsTagDownloaded env w dataDir tag).2 := by
  rw [IsTagDownloaded_world]
  exact Stat_ext good hb env w _

theorem IsTagDownloaded_of_exists (env : Env) (w : World) (dataDir tag : Str)
    (h : pathExists w.fs (Join [dataDir, tag, ".ok".toList]) = true) :
    (IsTagDownloaded env w dataDir tag).1 = true := by
  simp only [IsTagDownloaded]
  have h1 := Stat_exists_ok env w _ h
  cases hs : Stat env w (Join [dataDir, tag, ".ok".toList]) with
  | mk r w1 =>
    rw [hs] at h1
    cases r with
    | ok n => rfl
    | error e => simpa using h1 e rfl

/-- The loop over the files only creates nodes, and when it completes every
file of the list is there. -/
theorem downloadFiles_spec (good : Event → Prop) (hb : benign good) (env : Env) (dir tag : Str) :
    ∀ (files : List Str) (w : World),
      (∀ f ∈ files, ∀ b, good (Event.mk (Call.get (downloadURL tag f)) b)) →
      (∀ f ∈ files, ∀ b, good (Event.mk (Call.create (Join [dir, f])) b)) →
      World.ext good w (downloadFiles env dir tag files w).2 ∧
      ((downloadFiles env dir tag files w).1 = none →
        ∀ f ∈ files, pathExists (downloadFiles env dir tag files w).2.fs (Join [dir, f]) = true) := by
  intro files
  induction files with
  | nil => intro w _ _; exact ⟨World.ext_refl _ _, by simp⟩
  | cons file rest ih =>
    intro w hn hg
    have hnrest : ∀ f ∈ rest, ∀ b, good (Event.mk (Call.get (downloadURL tag f)) b) :=
      fun f hf => hn f (List.mem_cons_of_mem _ hf)
    have hgrest : ∀ f ∈ rest, ∀ b, good (Event.mk (Call.create (Join [dir, f])) b) :=
      fun f hf => hg f (List.mem_cons_of_mem _ hf)
    unfold downloadFiles
    simp only
    have h1 := Stat_ext good hb env w (Join [dir, file])
    have hex := Stat_ok_exists env w (Join [dir, file])
    have hfs := Stat_fs env w (Join [dir, file])
    cases hs : Stat env w (Join [dir, file]) with
    | mk r w1 =>
      rw [hs] at h1 hex hfs
      simp only at hex hfs
      cases r with
      | ok n =>
        simp only
        obtain ⟨i1, i2⟩ := ih w1 hnrest hgrest
        refine ⟨World.ext_trans h1 i1, fun hn f hf => ?_⟩
        rcases List.mem_cons.1 hf with e | e
        · rw [e]
          apply pathExists_mono i1.1
          rw [hfs]
          exact hex n rfl
        · exact i2 hn f e
      | error e =>
        simp only
        have h2 := World.ext_trans h1 (Get_ext good env w1 (downloadURL tag file)
          (hn file (List.mem_cons_self _ _)))
        cases hgt : Get env w1 (downloadURL tag file) with
        | mk gr w2 =>
          rw [hgt] at h2
          cases gr with
          | none => exact ⟨h2, fun hn => by cases hn⟩
          | some body =>
            simp only
            have h3 := Create_ext good env w2 (Join [dir, file]) (hg file (List.mem_cons_self _ _))
            have hce := Create_ok_exists env w2 (Join [dir, file])
            cases hc : Create env w2 (Join [dir, file]) with
            | mk cr w3 =>
              rw [hc] at h3 hce
              simp only at hce
              cases cr with
              | error e2 => exact ⟨World.ext_trans h2 h3, fun hn => by cases hn⟩
              | ok u =>
                simp only
                have h4 := Copy_ext good hb env w3 (Join [dir, file]) body
                cases hw : Copy env w3 (Join [dir, file]) body with
                | mk wr w4 =>
                  rw [hw] at h4
                  cases wr with
                  | error e3 =>
                    exact ⟨World.ext_trans h2 (World.ext_trans h3 h4), fun hn => by cases hn⟩
                  | ok u2 =>
                    simp only
                    obtain ⟨i1, i2⟩ := ih w4 hnrest hgrest
                    refine ⟨World.ext_trans h2 (World.ext_trans h3 (World.ext_trans h4 i1)),
                      fun hn f hf => ?_⟩
                    rcases List.mem_cons.1 hf with e4 | e4
                    · rw [e4]
                      exact pathExists_mono (FS.le_trans h4.1 i1.1) _ (hce rfl)
                    · exact i2 hn f e4

theorem parentPrefix_length (path : Str) (h : path ≠ []) :
    (parentPrefix path).length < path.length := by
  unfold parentPrefix
  rw [List.length_reverse]
  have hr : path.reverse ≠ [] := by simpa using h
  have hlen : path.length = path.reverse.length := by simp
  rw [hlen]
  cases hrev : path.reverse with
  | nil => exact absurd hrev hr
  | cons a r =>
    have h1 : ∀ (p : Char → Bool) (l : List Char), (l.dropWhile p).length ≤ l.length :=
      fun p l => (List.dropWhile_sublist p).length_le
    by_cases ha : a = '/'
    · rw [List.dropWhile_cons_of_pos (by simpa using ha)]
      calc ((r.dropWhile _).dropWhile _).length ≤ (r.dropWhile _).length := h1 _ _
        _ ≤ r.length := h1 _ _
        _ < (a :: r).length := by simp
    · rw [List.dropWhile_cons_of_neg (by simpa using ha),
        List.dropWhile_cons_of_pos (by simpa using ha)]
      calc (r.dropWhile _).length ≤ r.length := h1 _ _
        _ < (a :: r).length := by simp

/-- The recursion bound of `MkdirAll` is never reached when it exceeds the length
of the path: any two such bounds give the same result. -/
theorem MkdirAll_fuel (env : Env) :
    ∀ (n : Nat) (w : World) (path : Str) (m : Nat), path.length < n → path.length < m →
      MkdirAll env n w path = MkdirAll env m w path := by
  intro n
  induction n with
  | zero => intro w path m h; exact absurd h (Nat.not_lt_zero _)
  | succ n ih =>
    intro w path m hn hm
    cases m with
    | zero => exact absurd hm (Nat.not_lt_zero _)
    | succ m =>
      unfold MkdirAll
      cases hs : Stat env w path with
      | mk r w1 =>
        cases r with
        | ok nd => rfl
        | error e =>
          simp only
          by_cases hp : (parentPrefix path).length > 0
          · have hne : path ≠ [] := by
              intro e0
              rw [e0] at hp
              simp [parentPrefix] at hp
            have hlt := parentPrefix_length path hne
            rw [if_pos hp, if_pos hp, ih w1 (parentPrefix path) m (by omega) (by omega)]
          · rw [if_neg hp, if_neg hp]

theorem Create_error (env : Env) (w : World) (path : Str) (e : Errno)
    (h : (Create env w path).1 = Except.error e) :
    (Create env w path).2 =
      { fs := w.fs, tick := w.tick + 1, trace := w.trace ++ [Event.mk (Call.create path) false] } := by
  unfold Create at h ⊢
  rcases sys_cases env w (Call.create path) (fsCreate path) with
    ⟨f, _, h1⟩ | ⟨_, a, fs1, hr, h1⟩ | ⟨_, e1, _, h1⟩
  · rw [h1]
  · rw [h1] at h; cases h
  · rw [h1]

/-- The ways a call of `DownloadTag` can go. -/
theorem DownloadTag_cases (env : Env) (w : World) (dataDir tag : Str) :
    ((IsTagDownloaded env w dataDir tag).1 = true ∧
      DownloadTag env w dataDir tag = (none, (IsTagDownloaded env w dataDir tag).2)) ∨
    ((IsTagDownloaded env w dataDir tag).1 = false ∧
      ∃ e, (dirStep env w dataDir tag).1 = some e ∧
        DownloadTag env w dataDir tag = (some (DownloadErr.mkdir e), (dirStep env w dataDir tag).2)) ∨
    ((IsTagDownloaded env w dataDir tag).1 = false ∧ (dirStep env w dataDir tag).1 = none ∧
      ∃ e, (filesStep env w dataDir tag).1 = some e ∧
        DownloadTag env w dataDir tag = (some e, (filesStep env w dataDir tag).2)) ∨
    ((IsTagDownloaded env w dataDir tag).1 = false ∧ (dirStep env w dataDir tag).1 = none ∧
      (filesStep env w dataDir tag).1 = none ∧
      ∃ e, (markerStep env w dataDir tag).1 = Except.error e ∧
        DownloadTag env w dataDir tag =
          (some (DownloadErr.createOk e), (markerStep env w dataDir tag).2)) ∨
    ((IsTagDownloaded env w dataDir tag).1 = false ∧ (dirStep env w dataDir tag).1 = none ∧
      (filesStep env w dataDir tag).1 = none ∧
      (markerStep env w dataDir tag).1 = Except.ok () ∧
        DownloadTag env w dataDir tag = (none, (markerStep env w dataDir tag).2)) := by
  simp only [DownloadTag, markerStep, filesStep, dirStep]
  cases hi : IsTagDownloaded env w dataDir tag with
  | mk b w1 =>
    cases b with
    | true => simp
    | false =>
      right
      simp only
      cases hm : MkdirAll env ((Join [dataDir, tag]).length + 1) w1 (Join [dataDir, tag]) with
      | mk me w2 =>
        cases me with
        | some e => simp
        | none =>
          right
          simp only
          cases hd : downloadFiles env (Join [dataDir, tag]) tag Files w2 with
          | mk de w3 =>
            cases de with
            | some e => simp
            | none =>
              right
              simp only
              cases hc : Create env w3 (Join [Join [dataDir, tag], ".ok".toList]) with
              | mk ce w4 =>
                cases ce with
                | error e => simp
                | ok u => simp

theorem dirStep_ext (good : Event → Prop) (hb : benign good) (env : Env) (w : World)
    (dataDir tag : Str) : World.ext good w (dirStep env w dataDir tag).2 :=
  World.ext_trans (IsTagDownloaded_ext good hb env w dataDir tag) (MkdirAll_ext good hb env _ _ _)

theorem filesStep_ext (good : Event → Prop) (hb : benign good) (env : Env) (w : World)
    (dataDir tag : Str)
    (hn : ∀ f ∈ Files, ∀ b, good (Event.mk (Call.get (downloadURL tag f)) b))
    (hg : ∀ f ∈ Files, ∀ b, good (Event.mk (Call.create (Join [Join [dataDir, tag], f])) b)) :
    World.ext good w (filesStep env w dataDir tag).2 :=
  World.ext_trans (dirStep_ext good hb env w dataDir tag)
    (downloadFiles_spec good hb env _ tag Files _ hn hg).1

/-- `DownloadTag` only creates nodes. -/
theorem DownloadTag_ext (good : Event → Prop) (hb : benign good) (env : Env) (w : World)
    (dataDir tag : Str) (hn : ∀ u b, good (Event.mk (Call.get u) b))
    (hg : ∀ p b, good (Event.mk (Call.create p) b)) :
    World.ext good w (DownloadTag env w dataDir tag).2 := by
  have hf := filesStep_ext good hb env w dataDir tag (fun f _ b => hn _ b) (fun f _ b => hg _ b)
  have hm : World.ext good w (markerStep env w dataDir tag).2 :=
    World.ext_trans hf (Create_ext good env _ _ (hg _))
  rcases DownloadTag_cases env w dataDir tag with
    ⟨_, h⟩ | ⟨_, e, _, h⟩ | ⟨_, _, e, _, h⟩ | ⟨_, _, _, e, _, h⟩ | ⟨_, _, _, _, h⟩
  · rw [h]; exact IsTagDownloaded_ext good hb env w dataDir tag
  · rw [h]; exact dirStep_ext good hb env w dataDir tag
  · rw [h]; exact hf
  · rw [h]; exact hm
  · rw [h]; exact hm

theorem plain_ok : Plain ".ok".toList := by
  refine ⟨by decide, by decide, by decide, by decide⟩

theorem plain_latest : Plain "latest".toList := by
  refine ⟨by decide, by decide, by decide, by decide⟩

theorem plain_Files : ∀ f ∈ Files, Plain f ∧ f ≠ ".ok".toList := by
  intro f hf
  simp only [Files, List.mem_cons, List.mem_singleton, List.not_mem_nil, or_false] at hf
  rcases hf with h | h | h <;> subst h <;>
    exact ⟨⟨by decide, by decide, by decide, by decide⟩, by decide⟩

/-- The ways a call of `EnsureLatestDBFiles` can go. -/
theorem EnsureLatestDBFiles_cases (env : Env) (w : World) :
    ((GetDataDir env w).1 = none ∧
      EnsureLatestDBFiles env w = (Outcome.panic, (GetDataDir env w).2)) ∨
    (∃ dataDir, (GetDataDir env w).1 = some dataDir ∧
      ((∃ e, (resolveStep env w).1 = Except.error e ∧
          EnsureLatestDBFiles env w =
            (Outcome.error (EnsureErr.getLatest e), (resolveStep env w).2)) ∨
       (∃ tag, (resolveStep env w).1 = Except.ok tag ∧
          (((checkStep env w dataDir tag).1 = true ∧
              EnsureLatestDBFiles env w =
                activate env (checkStep env w dataDir tag).2 dataDir tag) ∨
           ((checkStep env w dataDir tag).1 = false ∧
              ∃ e, (downloadStep env w dataDir tag).1 = some e ∧
                EnsureLatestDBFiles env w =
                  (Outcome.error (EnsureErr.download e), (downloadStep env w dataDir tag).2)) ∨
           ((checkStep env w dataDir tag).1 = false ∧
              (downloadStep env w dataDir tag).1 = none ∧
                EnsureLatestDBFiles env w =
                  activate env (downloadStep env w dataDir tag).2 dataDir tag))))) := by
  simp only [EnsureLatestDBFiles, downloadStep, checkStep, resolveStep]
  cases hd : GetDataDir env w with
  | mk d w0 =>
    cases d with
    | none => simp
    | some dataDir =>
      right
      refine ⟨dataDir, rfl, ?_⟩
      simp only
      cases hl : GetLatest env w0 with
      | mk r w1 =>
        cases r with
        | error e => simp
        | ok tag =>
          right
          refine ⟨tag, rfl, ?_⟩
          simp only
          cases hc : IsTagDownloaded env w1 dataDir tag with
          | mk b w2 =>
            cases b with
            | true => simp
            | false =>
              right
              simp only
              cases hdl : DownloadTag env w2 dataDir tag with
              | mk de w3 =>
                cases de with
                | some e => simp
                | none => simp

theorem getRequests_append (a b : List Event) :
    getRequests (a ++ b) = getRequests a ++ getRequests b := by
  simp [getRequests]

theorem networkRequests_append (a b : List Event) :
    networkRequests (a ++ b) = networkRequests a ++ networkRequests b := by
  simp [networkRequests]

theorem sys_trace {α : Type} (env : Env) (w : World) (c : Call)
    (run : FS → Except Errno (α × FS)) :
    ∃ b, (sys env w c run).2.trace = w.trace ++ [Event.mk c b] := by
  rcases sys_cases env w c run with ⟨f, _, h⟩ | ⟨_, a, fs1, hr, h⟩ | ⟨_, e, _, h⟩
  · rw [h]; exact ⟨_, rfl⟩
  · rw [h]; exact ⟨_, rfl⟩
  · rw [h]; exact ⟨_, rfl⟩

/-- What activation does when it succeeds, and what it issues in any case. -/
theorem activate_spec (env : Env) (w : World) (dataDir tag : Str) :
    (∃ b1 b2, (activate env w dataDir tag).2.trace = w.trace ++
      [Event.mk (Call.remove (Join [dataDir, "latest".toList])) b1,
       Event.mk (Call.symlink (Join [dataDir, tag]) (Join [dataDir, "latest".toList])) b2]) ∧
    ((∃ e, (activate env w dataDir tag).1 = Outcome.error (EnsureErr.symlink e)) ∨
     ((activate env w dataDir tag).1 =
        Outcome.paths (Files.map (fun file => Join [Join [dataDir, "latest".toList], file])) ∧
      entryAt (activate env w dataDir tag).2.fs (Join [dataDir, "latest".toList]) =
        some (Node.link (Join [dataDir, tag])))) := by
  simp only [activate]
  obtain ⟨b1, hb1⟩ := sys_trace env w (Call.remove (Join [dataDir, "latest".toList]))
    (fsRemove (Join [dataDir, "latest".toList]))
  have hsy := sys_cases env (Remove env w (Join [dataDir, "latest".toList])).2
    (Call.symlink (Join [dataDir, tag]) (Join [dataDir, "latest".toList]))
    (fsSymlink (Join [dataDir, tag]) (Join [dataDir, "latest".toList]))
  unfold Symlink
  rcases hsy with ⟨f, _, h⟩ | ⟨_, a, fs1, hr, h⟩ | ⟨_, e, _, h⟩
  · rw [h]
    refine ⟨⟨b1, false, ?_⟩, Or.inl ⟨_, rfl⟩⟩
    simp only [Remove]
    rw [hb1]; simp
  · rw [h]
    refine ⟨⟨b1, true, ?_⟩, Or.inr ⟨rfl, ?_⟩⟩
    · simp only [Remove]
      rw [hb1]; simp
    · simp only
      unfold fsSymlink at hr
      by_cases ht : Join [dataDir, tag] = []
      · rw [if_pos ht] at hr; cases hr
      · rw [if_neg ht] at hr
        split at hr
        · cases hr
        · rename_i p c nd hres
          by_cases hnd : nd = true
          · rw [if_pos hnd] at hr; cases hr
          · rw [if_neg hnd] at hr
            simp only [Except.ok.injEq, Prod.mk.injEq, true_and] at hr
            rw [← hr]
            unfold entryAt
            rw [resolve_add false _ p c nd _ (fun h => absurd h hnd) (fun _ _ => rfl) hres]
        · cases hr
  · rw [h]
    refine ⟨⟨b1, false, ?_⟩, Or.inl ⟨_, rfl⟩⟩
    simp only [Remove]
    rw [hb1]; simp

theorem downloadURL_inj (tag f g : Str) (h : downloadURL tag f = downloadURL tag g) : f = g :=
  List.append_cancel_left h

theorem Create_ok_trace (env : Env) (w : World) (path : Str)
    (h : (Create env w path).1 = Except.ok ()) :
    (Create env w path).2.trace = w.trace ++ [Event.mk (Call.create path) true] := by
  unfold Create at h ⊢
  rcases sys_cases env w (Call.create path) (fsCreate path) with
    ⟨f, _, h1⟩ | ⟨_, a, fs1, hr, h1⟩ | ⟨_, e1, _, h1⟩
  · rw [h1] at h; cases h
  · rw [h1]
  · rw [h1] at h; cases h

theorem Stat_ok_trace (env : Env) (w : World) (path : Str) (n : Node)
    (h : (Stat env w path).1 = Except.ok n) :
    (Stat env w path).2.trace = w.trace ++ [Event.mk (Call.stat path) true] := by
  unfold Stat at h ⊢
  rcases sys_cases env w (Call.stat path) (fsStat path) with
    ⟨f, _, h1⟩ | ⟨_, a, fs1, hr, h1⟩ | ⟨_, e1, _, h1⟩
  · rw [h1] at h; cases h
  · rw [h1]
  · rw [h1] at h; cases h

theorem Get_ok_trace (env : Env) (w : World) (url body : Str)
    (h : (Get env w url).1 = some body) :
    (Get env w url).2.trace = w.trace ++ [Event.mk (Call.get url) true] := by
  unfold Get at h ⊢
  simp only at h ⊢
  rw [h]
  rfl

/-- The requests of a completed loop over the files: every GET is for a file of
the list, and each file was either found by `os.Stat` and never requested, or
fetched by a GET that succeeded and created by an `os.Create` that succeeded. -/
theorem downloadFiles_trace (env : Env) (dir tag : Str) :
    ∀ (files : List Str) (w : World), files.Nodup →
      (downloadFiles env dir tag files w).1 = none →
      ∃ evs, (downloadFiles env dir tag files w).2.trace = w.trace ++ evs ∧
        (∀ u b, Event.mk (Call.get u) b ∈ evs → ∃ g ∈ files, u = downloadURL tag g) ∧
        ∀ f ∈ files,
          (Event.mk (Call.stat (Join [dir, f])) true ∈ evs ∧
            ∀ b, Event.mk (Call.get (downloadURL tag f)) b ∉ evs) ∨
          (Event.mk (Call.get (downloadURL tag f)) true ∈ evs ∧
            Event.mk (Call.create (Join [dir, f])) true ∈ evs) := by
  intro files
  induction files with
  | nil => intro w _ _; exact ⟨[], by simp [downloadFiles], by simp, by simp⟩
  | cons file rest ih =>
    intro w hnd
    have hnot : file ∉ rest := (List.nodup_cons.1 hnd).1
    have hndr : rest.Nodup := (List.nodup_cons.1 hnd).2
    unfold downloadFiles
    simp only
    have hst := Stat_ok_trace env w (Join [dir, file])
    obtain ⟨b0, hst0⟩ := Stat_trace env w (Join [dir, file])
    cases hs : Stat env w (Join [dir, file]) with
    | mk r w1 =>
      rw [hs] at hst hst0
      simp only at hst hst0
      cases r with
      | ok n =>
        simp only
        intro hn
        obtain ⟨evs, he, hg, hf⟩ := ih w1 hndr hn
        refine ⟨Event.mk (Call.stat (Join [dir, file])) true :: evs, ?_, ?_, ?_⟩
        · rw [he, hst n rfl, List.append_assoc]; rfl
        · intro u b hm
          rcases List.mem_cons.1 hm with e | e
          · cases e
          · obtain ⟨g, hg1, hg2⟩ := hg u b e
            exact ⟨g, List.mem_cons_of_mem _ hg1, hg2⟩
        · intro f hfm
          rcases List.mem_cons.1 hfm with e | e
          · rw [e]
            refine Or.inl ⟨List.mem_cons_self _ _, fun b hm => ?_⟩
            rcases List.mem_cons.1 hm with e1 | e1
            · cases e1
            · obtain ⟨g, hg1, hg2⟩ := hg _ b e1
              rw [downloadURL_inj _ _ _ hg2] at hnot
              exact hnot hg1
          · rcases hf f e with ⟨h1, h2⟩ | ⟨h1, h2⟩
            · refine Or.inl ⟨List.mem_cons_of_mem _ h1, fun b hm => ?_⟩
              rcases List.mem_cons.1 hm with e1 | e1
              · cases e1
              · exact h2 b e1
            · exact Or.inr ⟨List.mem_cons_of_mem _ h1, List.mem_cons_of_mem _ h2⟩
      | error e =>
        simp only
        have hgt0 := Get_ok_trace env w1 (downloadURL tag file)
        cases hgt : Get env w1 (downloadURL tag file) with
        | mk gr w2 =>
          rw [hgt] at hgt0
          simp only at hgt0
          cases gr with
          | none => intro hn; cases hn
          | some body =>
            simp only
            have hct := Create_ok_trace env w2 (Join [dir, file])
            cases hc : Create env w2 (Join [dir, file]) with
            | mk cr w3 =>
              rw [hc] at hct
              simp only at hct
              cases cr with
              | error e2 => intro hn; cases hn
              | ok u =>
                simp only
                obtain ⟨b1, hwt⟩ := sys_trace env w3 (Call.write (Join [dir, file])) fsWrite
                cases hw : Copy env w3 (Join [dir, file]) body with
                | mk wr w4 =>
                  have hwt1 : w4.trace =
                      w3.trace ++ [Event.mk (Call.write (Join [dir, file])) b1] := by
                    have h5 : (Copy env w3 (Join [dir, file]) body).2.trace =
                        w3.trace ++ [Event.mk (Call.write (Join [dir, file])) b1] := hwt
                    rw [hw] at h5
                    exact h5
                  cases wr with
                  | error e3 => intro hn; cases hn
                  | ok u2 =>
                    simp only
                    intro hn
                    obtain ⟨evs, he, hg, hf⟩ := ih w4 hndr hn
                    refine ⟨[Event.mk (Call.stat (Join [dir, file])) b0,
                      Event.mk (Call.get (downloadURL tag file)) true,
                      Event.mk (Call.create (Join [dir, file])) true,
                      Event.mk (Call.write (Join [dir, file])) b1] ++ evs, ?_, ?_, ?_⟩
                    · rw [he, hwt1, hct rfl, hgt0 body rfl, hst0]
                      simp only [List.append_assoc, List.cons_append, List.nil_append]
                    · intro u b hm
                      rcases List.mem_append.1 hm with e1 | e1
                      · simp only [List.mem_cons, Event.mk.injEq, Call.get.injEq,
                          List.mem_singleton, reduceCtorEq, false_and, false_or, or_false,
                          List.not_mem_nil] at e1
                        exact ⟨file, List.mem_cons_self _ _, e1.1⟩
                      · obtain ⟨g, hg1, hg2⟩ := hg u b e1
                        exact ⟨g, List.mem_cons_of_mem _ hg1, hg2⟩
                    · intro f hfm
                      rcases List.mem_cons.1 hfm with e1 | e1
                      · rw [e1]
                        exact Or.inr ⟨by simp, by simp⟩
                      · rcases hf f e1 with ⟨h1, h2⟩ | ⟨h1, h2⟩
                        · refine Or.inl ⟨List.mem_append_right _ h1, fun b hm => ?_⟩
                          rcases List.mem_append.1 hm with e2 | e2
                          · simp only [List.mem_cons, Event.mk.injEq, Call.get.injEq,
                              List.mem_singleton, reduceCtorEq, false_and, false_or, or_false,
                              List.not_mem_nil] at e2
                            rw [← downloadURL_inj _ _ _ e2.1] at hnot
                            exact hnot e1
                          · exact h2 b e2
                        · exact Or.inr ⟨List.mem_append_right _ h1,
                            List.mem_append_right _ h2⟩

theorem DownloadTag_success_files (env : Env) (w : World) (dataDir tag : Str)
    (hc : (IsTagDownloaded env w dataDir tag).1 = false)
    (hs : (DownloadTag env w dataDir tag).1 = none) :
    (downloadFiles env (Join [dataDir, tag]) tag Files (dirStep env w dataDir tag).2).1 = none := by
  rcases DownloadTag_cases env w dataDir tag with
    ⟨h1, _⟩ | ⟨_, e, _, hd⟩ | ⟨_, _, e, _, hd⟩ | ⟨_, _, _, e, _, hd⟩ | ⟨_, _, hf, hm, hd⟩
  · rw [hc] at h1; cases h1
  · rw [hd] at hs; cases hs
  · rw [hd] at hs; cases hs
  · rw [hd] at hs; cases hs
  · exact hf

theorem isDirectory_mono {a b : FS} (hab : a.le b) (path : Str) (h : isDirectory a path = true) :
    isDirectory b path = true := by
  unfold isDirectory at h ⊢
  cases hr : resolve a true path with
  | error e => rw [hr] at h; cases h
  | ok r =>
    cases r with
    | missing p c nd => rw [hr] at h; cases h
    | found loc n =>
      have := resolve_mono hab true path (by rw [hr]; trivial)
      rw [this]
      rw [hr] at h ⊢
      exact h

theorem benign_not_activation : benign (fun ev => ev.call.isActivation = false) := by
  intro c b h _
  cases c <;> first | rfl | cases h

theorem benign_ne_create (path : Str) :
    benign (fun ev => ev ≠ Event.mk (Call.create path) true) := by
  intro c b h _ e
  simp only [Event.mk.injEq] at e
  rw [e.1] at h
  cases h

/-- Everything `EnsureLatestDBFiles` does before the activation step only
creates nodes and issues neither a remove nor a symlink call. -/
theorem before_activation_ext (env : Env) (w : World) (dataDir tag : Str) :
    World.ext (fun ev => ev.call.isActivation = false) w (resolveStep env w).2 ∧
    World.ext (fun ev => ev.call.isActivation = false) w (checkStep env w dataDir tag).2 ∧
    World.ext (fun ev => ev.call.isActivation = false) w (downloadStep env w dataDir tag).2 := by
  have hb := benign_not_activation
  have h1 : World.ext (fun ev => ev.call.isActivation = false) w (resolveStep env w).2 :=
    World.ext_trans (GetDataDir_ext _ hb env w) (GetLatest_ext _ env _ (fun _ _ => rfl))
  have h2 : World.ext (fun ev => ev.call.isActivation = false) w (checkStep env w dataDir tag).2 :=
    World.ext_trans h1 (IsTagDownloaded_ext _ hb env _ dataDir tag)
  exact ⟨h1, h2, World.ext_trans h2
    (DownloadTag_ext _ hb env _ dataDir tag (fun _ _ => rfl) (fun _ _ => rfl))⟩

/-- What a successful call of `EnsureLatestDBFiles` went through. -/
theorem EnsureLatestDBFiles_paths (env : Env) (w w1 : World) (ps : List Str)
    (h : EnsureLatestDBFiles env w = (Outcome.paths ps, w1)) :
    ∃ dataDir tag, (GetDataDir env w).1 = some dataDir ∧
      (resolveStep env w).1 = Except.ok tag ∧
      ps = Files.map (fun file => Join [Join [dataDir, "latest".toList], file]) ∧
      entryAt w1.fs (Join [dataDir, "latest".toList]) = some (Node.link (Join [dataDir, tag])) ∧
      (((checkStep env w dataDir tag).1 = true ∧
          (Outcome.paths ps, w1) = activate env (checkStep env w dataDir tag).2 dataDir tag) ∨
       ((checkStep env w dataDir tag).1 = false ∧ (downloadStep env w dataDir tag).1 = none ∧
          (Outcome.paths ps, w1) = activate env (downloadStep env w dataDir tag).2 dataDir tag)) := by
  have key : ∀ (w2 : World) (dataDir tag : Str),
      (Outcome.paths ps, w1) = activate env w2 dataDir tag →
      ps = Files.map (fun file => Join [Join [dataDir, "latest".toList], file]) ∧
      entryAt w1.fs (Join [dataDir, "latest".toList]) = some (Node.link (Join [dataDir, tag])) := by
    intro w2 dataDir tag ha
    rcases (activate_spec env w2 dataDir tag).2 with ⟨e, he⟩ | ⟨hp, hl⟩
    · rw [← ha] at he; cases he
    · rw [← ha] at hp hl
      simp only [Outcome.paths.injEq] at hp
      exact ⟨hp, hl⟩
  rcases EnsureLatestDBFiles_cases env w with ⟨_, hp⟩ | ⟨dataDir, hd, hrest⟩
  · rw [h] at hp; cases hp
  · rcases hrest with ⟨e, _, he⟩ | ⟨tag, ht, hrest2⟩
    · rw [h] at he; cases he
    · rcases hrest2 with ⟨hc, ha⟩ | ⟨_, e, _, he⟩ | ⟨hc, hdl, ha⟩
      · rw [h] at ha
        obtain ⟨k1, k2⟩ := key _ _ _ ha
        exact ⟨dataDir, tag, hd, ht, k1, k2, Or.inl ⟨hc, ha⟩⟩
      · rw [h] at he; cases he
      · rw [h] at ha
        obtain ⟨k1, k2⟩ := key _ _ _ ha
        exact ⟨dataDir, tag, hd, ht, k1, k2, Or.inr ⟨hc, hdl, ha⟩⟩

/-- A successful `DownloadTag` that did not find the marker leaves the marker
and every required file in place. -/
theorem DownloadTag_success (env : Env) (w : World) (dataDir tag : Str)
    (hc : (IsTagDownloaded env w dataDir tag).1 = false)
    (hs : (DownloadTag env w dataDir tag).1 = none) :
    pathExists (DownloadTag env w dataDir tag).2.fs (Join [dataDir, tag, ".ok".toList]) = true ∧
    (∀ f ∈ Files, pathExists (DownloadTag env w dataDir tag).2.fs (Join [dataDir, tag, f]) = true) ∧
    (DownloadTag env w dataDir tag).2 = (markerStep env w dataDir tag).2 ∧
    (markerStep env w dataDir tag).1 = Except.ok () := by
  rcases DownloadTag_cases env w dataDir tag with
    ⟨h1, _⟩ | ⟨_, e, _, hd⟩ | ⟨_, _, e, _, hd⟩ | ⟨_, _, _, e, _, hd⟩ | ⟨_, _, hf, hm, hd⟩
  · rw [hc] at h1; cases h1
  · rw [hd] at hs; cases hs
  · rw [hd] at hs; cases hs
  · rw [hd] at hs; cases hs
  · rw [hd]
    refine ⟨?_, ?_, rfl, hm⟩
    · rw [← Join_assoc]
      exact Create_ok_exists env _ _ hm
    · intro f hfm
      rw [← Join_assoc]
      have h1 := (downloadFiles_spec (fun _ => True) (fun _ _ _ _ => trivial) env
        (Join [dataDir, tag]) tag Files (dirStep env w dataDir tag).2
        (fun _ _ _ => trivial) (fun _ _ _ => trivial)).2 hf f hfm
      exact pathExists_mono
        (Create_ext (fun _ => True) env _ _ (fun _ => trivial)).1 _ h1

theorem walk_zero (fs : FS) (follow : Bool) :
    walk fs follow 0 = walkWith (fun _ _ => Except.error Errno.ELOOP) fs follow := rfl

theorem walk_succ (fs : FS) (follow : Bool) (n : Nat) :
    walk fs follow (n + 1) = walkWith (walk fs follow n) fs follow := rfl

theorem pathExists_of_resolve (fs : FS) (path : Str) (loc : Loc) (nd : Node)
    (h : resolve fs true path = Except.ok (Res.found loc nd)) : pathExists fs path = true := by
  unfold pathExists; rw [h]

theorem lookupLoc_filter (nodes : List (Loc × Node)) (r l : Loc) :
    lookupLoc (nodes.filter (fun kn => decide (kn.1 ≠ r))) l =
      if l = r then none else lookupLoc nodes l := by
  induction nodes with
  | nil => simp [lookupLoc]
  | cons kn rest ih =>
    obtain ⟨k, n⟩ := kn
    by_cases hk : k = r
    · subst hk
      rw [List.filter_cons_of_neg (by simp), ih]
      by_cases hl : l = k
      · simp [hl]
      · have : ¬ k = l := fun e => hl e.symm
        simp [lookupLoc, hl, this]
    · rw [List.filter_cons_of_pos (by simpa using hk)]
      by_cases hl : l = r
      · subst hl
        simp only [lookupLoc, if_neg hk, ih, if_true]
      · simp only [lookupLoc, ih, if_neg hl]

theorem FS.get_del (fs : FS) (r l : Loc) (h : l ≠ r) : (fs.del r).get l = fs.get l := by
  unfold FS.get FS.del
  by_cases h0 : l = []
  · simp [h0]
  · simp only [if_neg h0]
    rw [lookupLoc_filter, if_neg h]

theorem FS.del_le (fs : FS) (r : Loc) : (fs.del r).le fs := by
  refine ⟨rfl, fun l n h => ?_⟩
  by_cases hl : l = r
  · unfold FS.get FS.del at h
    by_cases h0 : l = []
    · rw [if_pos h0] at h
      rw [← h]
      simp [FS.get, h0]
    · rw [if_neg h0] at h
      simp only at h
      rw [lookupLoc_filter, if_pos hl] at h
      cases h
  · rw [← FS.get_del fs r l hl]; exact h

theorem lookupLoc_mem (nodes : List (Loc × Node)) (l : Loc) (n : Node)
    (h : lookupLoc nodes l = some n) : (l, n) ∈ nodes := by
  induction nodes with
  | nil => cases h
  | cons kn rest ih =>
    obtain ⟨k, m⟩ := kn
    unfold lookupLoc at h
    by_cases hk : k = l
    · rw [if_pos hk] at h
      cases h
      rw [hk]
      exact List.mem_cons_self _ _
    · rw [if_neg hk] at h
      exact List.mem_cons_of_mem _ (ih h)

theorem fsRemove_ok (path : Str) (fs fs1 : FS) (h : fsRemove path fs = Except.ok ((), fs1)) :
    ∃ r nd, resolve fs false path = Except.ok (Res.found r nd) ∧ fs1 = fs.del r := by
  unfold fsRemove at h
  split at h
  · rename_i loc hr
    split_ifs at h
    simp only [Except.ok.injEq, Prod.mk.injEq, true_and] at h
    exact ⟨loc, _, hr, h.symm⟩
  · rename_i loc nd _ hr
    simp only [Except.ok.injEq, Prod.mk.injEq, true_and] at h
    exact ⟨loc, nd, hr, h.symm⟩
  · cases h
  · cases h

theorem fsSymlink_ok (target path : Str) (fs fs1 : FS)
    (h : fsSymlink target path fs = Except.ok ((), fs1)) :
    ∃ p c, resolve fs false path = Except.ok (Res.missing p c false) ∧
      fs1 = fs.add (p ++ [c]) (Node.link target) := by
  unfold fsSymlink at h
  by_cases ht : target = []
  · rw [if_pos ht] at h; cases h
  · rw [if_neg ht] at h
    split at h
    · cases h
    · rename_i p c nd hr
      by_cases hnd : nd = true
      · rw [if_pos hnd] at h; cases h
      · rw [if_neg hnd] at h
        simp only [Except.ok.injEq, Prod.mk.injEq, true_and] at h
        have : nd = false := by simpa using hnd
        rw [this] at hr
        exact ⟨p, c, hr, h.symm⟩
    · cases h

/-- What a successful activation does to the file system: the old entry
`dataDir/latest` is removed if it can be, then the link is added. -/
theorem activate_fs (env : Env) (w w1 : World) (dataDir tag : Str) (ps : List Str)
    (h : activate env w dataDir tag = (Outcome.paths ps, w1)) :
    ∃ fs4 p c,
      (fs4 = w.fs ∨ ∃ r nd, resolve w.fs false (Join [dataDir, "latest".toList]) =
          Except.ok (Res.found r nd) ∧ fs4 = w.fs.del r) ∧
      resolve fs4 false (Join [dataDir, "latest".toList]) = Except.ok (Res.missing p c false) ∧
      w1.fs = fs4.add (p ++ [c]) (Node.link (Join [dataDir, tag])) := by
  simp only [activate] at h
  have hrem : (Remove env w (Join [dataDir, "latest".toList])).2.fs = w.fs ∨
      ∃ r nd, resolve w.fs false (Join [dataDir, "latest".toList]) =
          Except.ok (Res.found r nd) ∧
        (Remove env w (Join [dataDir, "latest".toList])).2.fs = w.fs.del r := by
    unfold Remove
    rcases sys_cases env w (Call.remove (Join [dataDir, "latest".toList]))
      (fsRemove (Join [dataDir, "latest".toList])) with
      ⟨f, _, h1⟩ | ⟨_, a, fs1, hr, h1⟩ | ⟨_, e, _, h1⟩
    · rw [h1]; exact Or.inl rfl
    · rw [h1]
      obtain ⟨r, nd, h2, h3⟩ := fsRemove_ok _ _ _ hr
      exact Or.inr ⟨r, nd, h2, h3⟩
    · rw [h1]; exact Or.inl rfl
  unfold Symlink at h
  rcases sys_cases env (Remove env w (Join [dataDir, "latest".toList])).2
      (Call.symlink (Join [dataDir, tag]) (Join [dataDir, "latest".toList]))
      (fsSymlink (Join [dataDir, tag]) (Join [dataDir, "latest".toList])) with
    ⟨f, _, h1⟩ | ⟨_, a, fs1, hr, h1⟩ | ⟨_, e, _, h1⟩
  · rw [h1] at h; cases h
  · rw [h1] at h
    simp only [Prod.mk.injEq] at h
    obtain ⟨p, c, h2, h3⟩ := fsSymlink_ok _ _ _ _ hr
    refine ⟨_, p, c, hrem, h2, ?_⟩
    rw [← h.2]
    exact h3
  · rw [h1] at h; cases h

theorem grows_refl (paths : List Str) (a : FS) : grows paths a a :=
  ⟨FS.le_refl a, fun _ h => absurd rfl h⟩

theorem grows_trans {paths : List Str} {a b c : FS} (h1 : grows paths a b)
    (h2 : grows paths b c) : grows paths a c := by
  refine ⟨FS.le_trans h1.1 h2.1, fun loc hne => ?_⟩
  by_cases hbc : c.get loc = b.get loc
  · rw [hbc] at hne ⊢
    rcases h1.2 loc hne with hd | ⟨hf, q, hq, hr⟩
    · exact Or.inl hd
    · refine Or.inr ⟨hf, q, hq, ?_⟩
      rw [resolve_mono h2.1 true q (by rw [hr]; trivial)]
      exact hr
  · exact h2.2 loc hbc

theorem grows_add_dir (paths : List Str) (a : FS) (l : Loc) (h : a.get l = none) :
    grows paths a (a.add l Node.dir) := by
  refine ⟨FS.le_add a l _ h, fun loc hne => ?_⟩
  rw [FS.get_add] at hne ⊢
  by_cases h0 : loc = []
  · rw [if_pos h0] at hne
    exact absurd (by rw [h0]; rfl) hne
  · rw [if_neg h0] at hne ⊢
    by_cases h1 : l = loc
    · rw [if_pos h1]; exact Or.inl rfl
    · rw [if_neg h1] at hne
      exact absurd rfl hne

theorem grows_add_file (paths : List Str) (a : FS) (l : Loc) (q : Str) (h : a.get l = none)
    (hq : q ∈ paths)
    (hr : resolve (a.add l Node.file) true q = Except.ok (Res.found l Node.file)) :
    grows paths a (a.add l Node.file) := by
  refine ⟨FS.le_add a l _ h, fun loc hne => ?_⟩
  have hg := FS.get_add a l Node.file loc
  by_cases h0 : loc = []
  · rw [if_pos h0] at hg
    rw [hg] at hne
    exact absurd (by rw [h0]; rfl) hne
  · rw [if_neg h0] at hg
    by_cases h1 : l = loc
    · rw [if_pos h1] at hg
      subst h1
      exact Or.inr ⟨hg, q, hq, hr⟩
    · rw [if_neg h1] at hg
      exact absurd hg hne

theorem Lstat_fs (env : Env) (w : World) (path : Str) : (Lstat env w path).2.fs = w.fs := by
  unfold Lstat
  rcases sys_cases env w (Call.lstat path) (fsLstat path) with
    ⟨f, _, h⟩ | ⟨_, a, fs1, hr, h⟩ | ⟨_, e, _, h⟩
  · rw [h]
  · rw [h]; exact (fsLstat_ok _ _ _ _ hr).1
  · rw [h]

theorem Copy_fs (env : Env) (w : World) (path body : Str) :
    (Copy env w path body).2.fs = w.fs := by
  unfold Copy
  rcases sys_cases env w (Call.write path) fsWrite with
    ⟨f, _, h⟩ | ⟨_, a, fs1, hr, h⟩ | ⟨_, e, _, h⟩
  · rw [h]
  · rw [h]
    unfold fsWrite at hr
    simp only [Except.ok.injEq, Prod.mk.injEq, true_and] at hr
    exact hr.symm
  · rw [h]

theorem Get_fs (env : Env) (w : World) (url : Str) : (Get env w url).2.fs = w.fs := rfl

theorem Mkdir_grows (paths : List Str) (env : Env) (w : World) (path : Str) :
    grows paths w.fs (Mkdir env w path).2.fs := by
  unfold Mkdir
  rcases sys_cases env w (Call.mkdir path) (fsMkdir path) with
    ⟨f, _, h⟩ | ⟨_, a, fs1, hr, h⟩ | ⟨_, e, _, h⟩
  · rw [h]; exact grows_refl _ _
  · rw [h]
    unfold fsMkdir at hr
    cases hres : resolve w.fs false path with
    | error e2 => rw [hres] at hr; cases hr
    | ok r =>
      rw [hres] at hr
      cases r with
      | found loc n => cases hr
      | missing p c nd =>
        simp only [Except.ok.injEq, Prod.mk.injEq, true_and] at hr
        rw [← hr]
        exact grows_add_dir paths _ _ (resolve_missing_get false path p c nd hres)
  · rw [h]; exact grows_refl _ _

theorem Create_grows (paths : List Str) (env : Env) (w : World) (path : Str)
    (hp : path ∈ paths) : grows paths w.fs (Create env w path).2.fs := by
  unfold Create
  rcases sys_cases env w (Call.create path) (fsCreate path) with
    ⟨f, _, h⟩ | ⟨_, a, fs1, hr, h⟩ | ⟨_, e, _, h⟩
  · rw [h]; exact grows_refl _ _
  · rw [h]
    unfold fsCreate at hr
    cases hres : resolve w.fs true path with
    | error e2 => rw [hres] at hr; cases hr
    | ok r =>
      rw [hres] at hr
      cases r with
      | found loc n =>
        cases n with
        | file =>
          simp only [Except.ok.injEq, Prod.mk.injEq, true_and] at hr
          rw [← hr]
          exact grows_refl _ _
        | dir => cases hr
        | link t => cases hr
      | missing p c nd =>
        simp only at hr
        by_cases hnd : nd = true
        · rw [if_pos hnd] at hr; cases hr
        · rw [if_neg hnd] at hr
          simp only [Except.ok.injEq, Prod.mk.injEq, true_and] at hr
          rw [← hr]
          exact grows_add_file paths _ _ path (resolve_missing_get true path p c nd hres) hp
            (resolve_add true path p c nd Node.file (fun e => absurd e hnd)
              (fun _ e => by cases e) hres)
  · rw [h]; exact grows_refl _ _

theorem MkdirAll_grows (paths : List Str) (env : Env) :
    ∀ (fuel : Nat) (w : World) (path : Str), grows paths w.fs (MkdirAll env fuel w path).2.fs := by
  intro fuel
  induction fuel with
  | zero => intro w path; exact grows_refl _ _
  | succ fuel ih =>
    intro w path
    unfold MkdirAll
    have h1 : grows paths w.fs (Stat env w path).2.fs := by
      rw [Stat_fs]; exact grows_refl _ _
    cases hs : Stat env w path with
    | mk r w1 =>
      rw [hs] at h1
      cases r with
      | ok n =>
        simp only
        split_ifs <;> exact h1
      | error e =>
        simp only
        have h2 : grows paths w.fs
            (if (parentPrefix path).length > 0 then MkdirAll env fuel w1 (parentPrefix path)
              else (none, w1)).2.fs := by
          split_ifs
          · exact grows_trans h1 (ih w1 _)
          · exact h1
        cases hp : (if (parentPrefix path).length > 0 then
            MkdirAll env fuel w1 (parentPrefix path) else (none, w1)) with
        | mk pe w2 =>
          rw [hp] at h2
          cases pe with
          | some e2 => exact h2
          | none =>
            simp only
            have h3 := grows_trans h2 (Mkdir_grows paths env w2 path)
            cases hm : Mkdir env w2 path with
            | mk mr w3 =>
              rw [hm] at h3
              cases mr with
              | ok u => exact h3
              | error e3 =>
                simp only
                have h4 : grows paths w.fs (Lstat env w3 path).2.fs := by
                  rw [Lstat_fs]; exact h3
                cases hl : Lstat env w3 path with
                | mk lr w4 =>
                  rw [hl] at h4
                  cases lr with
                  | error e4 => exact h4
                  | ok nd => cases nd <;> exact h4

theorem downloadFiles_grows (paths : List Str) (env : Env) (dir tag : Str) :
    ∀ (files : List Str) (w : World), (∀ f ∈ files, Join [dir, f] ∈ paths) →
      grows paths w.fs (downloadFiles env dir tag files w).2.fs := by
  intro files
  induction files with
  | nil => intro w _; exact grows_refl _ _
  | cons file rest ih =>
    intro w hp
    have hprest : ∀ f ∈ rest, Join [dir, f] ∈ paths :=
      fun f hf => hp f (List.mem_cons_of_mem _ hf)
    unfold downloadFiles
    simp only
    have hfs := Stat_fs env w (Join [dir, file])
    cases hs : Stat env w (Join [dir, file]) with
    | mk r w1 =>
      rw [hs] at hfs
      simp only at hfs
      cases r with
      | ok n =>
        simp only
        have := ih w1 hprest
        rw [hfs] at this
        exact this
      | error e =>
        simp only
        have hg : (Get env w1 (downloadURL tag file)).2.fs = w.fs := by rw [Get_fs, hfs]
        cases hgt : Get env w1 (downloadURL tag file) with
        | mk gr w2 =>
          rw [hgt] at hg
          simp only at hg
          cases gr with
          | none => simp only; rw [hg]; exact grows_refl _ _
          | some body =>
            simp only
            have h3 := Create_grows paths env w2 (Join [dir, file]) (hp file (List.mem_cons_self _ _))
            rw [hg] at h3
            cases hc : Create env w2 (Join [dir, file]) with
            | mk cr w3 =>
              rw [hc] at h3
              cases cr with
              | error e2 => exact h3
              | ok u =>
                simp only
                have h4 : grows paths w.fs (Copy env w3 (Join [dir, file]) body).2.fs := by
                  rw [Copy_fs]; exact h3
                cases hw : Copy env w3 (Join [dir, file]) body with
                | mk wr w4 =>
                  rw [hw] at h4
                  cases wr with
                  | error e3 => exact h4
                  | ok u2 => exact grows_trans h4 (ih w4 hprest)

theorem visitsWith_nil (next : Loc → List Str → List Loc) (fs : FS) (follow : Bool)
    (cur : Loc) : visitsWith next fs follow cur [] = [] := by
  rw [visitsWith]

theorem visitsWith_skip (next : Loc → List Str → List Loc) (fs : FS) (follow : Bool)
    (cur : Loc) (c : Str) (rest : List Str) (h : c = [] ∨ c = ['.']) :
    visitsWith next fs follow cur (c :: rest) = visitsWith next fs follow cur rest := by
  rw [visitsWith, if_pos h]

theorem visitsWith_up (next : Loc → List Str → List Loc) (fs : FS) (follow : Bool)
    (cur : Loc) (rest : List Str) :
    visitsWith next fs follow cur (['.', '.'] :: rest) =
      visitsWith next fs follow cur.dropLast rest := by
  rw [visitsWith, if_neg (by simp), if_pos rfl]

theorem visitsWith_name (next : Loc → List Str → List Loc) (fs : FS) (follow : Bool)
    (cur : Loc) (c : Str) (rest : List Str) (h1 : ¬ (c = [] ∨ c = ['.'])) (h2 : c ≠ ['.', '.']) :
    visitsWith next fs follow cur (c :: rest) =
      (cur ++ [c]) ::
        match fs.get (cur ++ [c]) with
        | none => []
        | some Node.dir => visitsWith next fs follow (cur ++ [c]) rest
        | some Node.file => []
        | some (Node.link t) =>
          if rest = [] ∧ follow = false then []
          else next (if rooted t then [] else cur) (splitSlash t ++ rest) := by
  rw [visitsWith, if_neg h1, if_neg h2]

/-- A walk gives the same result in every state that has the same entries at
the places it looks at. -/
theorem walkWith_frame {a b : FS} (follow : Bool)
    (next next' : Loc → List Str → Except Errno Res) (nextV : Loc → List Str → List Loc)
    (hnext : ∀ cur es, (∀ l ∈ nextV cur es, b.get l = a.get l) → next' cur es = next cur es) :
    ∀ es cur, (∀ l ∈ visitsWith nextV a follow cur es, b.get l = a.get l) →
      walkWith next' b follow cur es = walkWith next a follow cur es := by
  intro es
  induction es with
  | nil => intro cur _; rw [walkWith_nil, walkWith_nil]
  | cons c rest ih =>
    intro cur hv
    by_cases h1 : c = [] ∨ c = ['.']
    · rw [visitsWith_skip _ _ _ _ _ _ h1] at hv
      rw [walkWith_skip next' b _ _ _ _ h1, walkWith_skip next a _ _ _ _ h1]
      exact ih cur hv
    by_cases h2 : c = ['.', '.']
    · subst h2
      rw [visitsWith_up] at hv
      rw [walkWith_up next' b, walkWith_up next a]
      exact ih _ hv
    rw [visitsWith_name _ _ _ _ _ _ h1 h2] at hv
    rw [walkWith_name next' b _ _ _ _ h1 h2, walkWith_name next a _ _ _ _ h1 h2]
    rw [hv _ (List.mem_cons_self _ _)]
    cases hg : a.get (cur ++ [c]) with
    | none => rfl
    | some nd =>
      rw [hg] at hv
      cases nd with
      | file => rfl
      | dir => exact ih _ (fun l hl => hv l (List.mem_cons_of_mem _ hl))
      | link t =>
        simp only at hv ⊢
        by_cases h3 : rest = [] ∧ follow = false
        · rw [if_pos h3, if_pos h3]
        · rw [if_neg h3] at hv
          rw [if_neg h3, if_neg h3]
          exact hnext _ _ (fun l hl => hv l (List.mem_cons_of_mem _ hl))

theorem walk_frame {a b : FS} (follow : Bool) :
    ∀ n es cur, (∀ l ∈ visits a follow n cur es, b.get l = a.get l) →
      walk b follow n cur es = walk a follow n cur es := by
  intro n
  induction n with
  | zero =>
    intro es cur hv
    exact walkWith_frame follow _ _ (fun _ _ => []) (fun _ _ _ => rfl) es cur hv
  | succ n ih =>
    intro es cur hv
    exact walkWith_frame follow _ _ (visits a follow n) (fun cur es h => ih es cur h) es cur hv

/-- Resolution that does not look at the entry `l` is the same in every state
that differs at `l` only. -/
theorem resolveWithin_frame {a b : FS} (n : Nat) (follow : Bool) (l : Loc) (path : Str)
    (hcwd : b.cwd = a.cwd) (hget : ∀ k, k ≠ l → b.get k = a.get k)
    (hv : l ∉ visitedWithin n a follow path) :
    resolveWithin n b follow path = resolveWithin n a follow path := by
  unfold resolveWithin
  unfold visitedWithin at hv
  by_cases hp : path = []
  · rw [if_pos hp, if_pos hp]
  · rw [if_neg hp] at hv
    rw [if_neg hp, if_neg hp, hcwd]
    exact walk_frame follow n _ _ (fun k hk => hget k (fun e => hv (e ▸ hk)))

theorem resolveWithin_max (fs : FS) (follow : Bool) (path : Str) :
    resolveWithin maxSymlinks fs follow path = resolve fs follow path := rfl

/-- A walk that gives a result gives it with every larger budget. -/
theorem walkWith_ok_congr (fs : FS) (follow : Bool)
    (next next' : Loc → List Str → Except Errno Res)
    (hnext : ∀ cur es r, next cur es = Except.ok r → next' cur es = Except.ok r) :
    ∀ es cur r, walkWith next fs follow cur es = Except.ok r →
      walkWith next' fs follow cur es = Except.ok r := by
  intro es
  induction es with
  | nil => intro cur r h; rw [walkWith_nil] at h ⊢; exact h
  | cons c rest ih =>
    intro cur r h
    by_cases h1 : c = [] ∨ c = ['.']
    · rw [walkWith_skip _ _ _ _ _ _ h1] at h ⊢
      exact ih cur r h
    by_cases h2 : c = ['.', '.']
    · subst h2
      rw [walkWith_up] at h ⊢
      exact ih _ r h
    rw [walkWith_name _ _ _ _ _ _ h1 h2] at h ⊢
    cases hg : fs.get (cur ++ [c]) with
    | none => rw [hg] at h; exact h
    | some nd =>
      rw [hg] at h
      cases nd with
      | file => exact h
      | dir => exact ih _ r h
      | link t =>
        simp only at h ⊢
        by_cases h3 : rest = [] ∧ follow = false
        · rw [if_pos h3] at h ⊢; exact h
        · rw [if_neg h3] at h ⊢
          exact hnext _ _ r h

theorem walk_budget (fs : FS) (follow : Bool) :
    ∀ n k es cur r, walk fs follow n cur es = Except.ok r →
      walk fs follow (n + k) cur es = Except.ok r := by
  intro n
  induction n with
  | zero =>
    intro k es cur r h
    rw [Nat.zero_add]
    cases k with
    | zero => exact h
    | succ k =>
      exact walkWith_ok_congr fs follow _ _ (fun _ _ _ h => by cases h) es cur r h
  | succ n ih =>
    intro k es cur r h
    have e : n + 1 + k = (n + k) + 1 := by omega
    rw [e]
    exact walkWith_ok_congr fs follow _ _ (fun cur es r h => ih k es cur r h) es cur r h

theorem walk_budget_le (fs : FS) (follow : Bool) (n m : Nat) (hnm : n ≤ m) (es : List Str)
    (cur : Loc) (r : Res) (h : walk fs follow n cur es = Except.ok r) :
    walk fs follow m cur es = Except.ok r := by
  obtain ⟨k, rfl⟩ := Nat.exists_eq_add_of_le hnm
  exact walk_budget fs follow n k es cur r h

/-- A walk over a prefix that ends in a directory, followed by a walk from that
directory, is a walk over the whole path. -/
theorem walkWith_compose (fs : FS) (follow : Bool) (B : List Str) (hB : B ≠ []) (r : Res)
    (loc : Loc) (nextA nextAB : Loc → List Str → Except Errno Res)
    (hnext : ∀ cur A, nextA cur A = Except.ok (Res.found loc Node.dir) →
      nextAB cur (A ++ B) = Except.ok r)
    (hfinal : walkWith nextAB fs follow loc B = Except.ok r) :
    ∀ A cur, walkWith nextA fs true cur A = Except.ok (Res.found loc Node.dir) →
      walkWith nextAB fs follow cur (A ++ B) = Except.ok r := by
  intro A
  induction A with
  | nil =>
    intro cur h
    rw [walkWith_nil] at h
    simp only [Except.ok.injEq, Res.found.injEq, and_true] at h
    rw [h]
    exact hfinal
  | cons c rest ih =>
    intro cur h
    rw [List.cons_append]
    by_cases h1 : c = [] ∨ c = ['.']
    · rw [walkWith_skip _ _ _ _ _ _ h1] at h ⊢
      exact ih cur h
    by_cases h2 : c = ['.', '.']
    · subst h2
      rw [walkWith_up] at h ⊢
      exact ih _ h
    rw [walkWith_name _ _ _ _ _ _ h1 h2] at h ⊢
    cases hg : fs.get (cur ++ [c]) with
    | none =>
      rw [hg] at h
      exfalso
      split_ifs at h <;> cases h
    | some nd =>
      rw [hg] at h
      cases nd with
      | file =>
        exfalso
        simp only at h
        split_ifs at h
        cases h
      | dir => exact ih _ h
      | link t =>
        simp only at h ⊢
        have h3 : ¬ (rest = [] ∧ true = false) := fun e => by cases e.2
        rw [if_neg h3] at h
        have h4 : ¬ (rest ++ B = [] ∧ follow = false) := fun e =>
          hB (List.append_eq_nil.1 e.1).2
        rw [if_neg h4, ← List.append_assoc]
        exact hnext _ _ h

theorem walk_compose (fs : FS) (follow : Bool) (B : List Str) (hB : B ≠ []) (r : Res)
    (loc : Loc) :
    ∀ n m A cur, walk fs true n cur A = Except.ok (Res.found loc Node.dir) →
      walk fs follow m loc B = Except.ok r →
      walk fs follow (n + m) cur (A ++ B) = Except.ok r := by
  intro n
  induction n with
  | zero =>
    intro m A cur hA hBw
    rw [Nat.zero_add]
    cases m with
    | zero =>
      exact walkWith_compose fs follow B hB r loc _ _ (fun _ _ h => by cases h) hBw A cur hA
    | succ m =>
      exact walkWith_compose fs follow B hB r loc _ _ (fun _ _ h => by cases h) hBw A cur hA
  | succ n ih =>
    intro m A cur hA hBw
    have e : n + 1 + m = (n + m) + 1 := by omega
    rw [e]
    refine walkWith_compose fs follow B hB r loc (walk fs true n) (walk fs follow (n + m))
      (fun cur A h => ih m A cur h hBw) ?_ A cur hA
    have h5 := walk_budget_le fs follow m (n + m + 1) (by omega) B loc r hBw
    exact h5

/-- A walk over a path that has a result went through a directory at every
proper prefix of the path. -/
theorem walkWith_split (fs : FS) (follow : Bool) (c : Str) (B : List Str) (hc : c ≠ [])
    (r : Res) (F : Loc → Prop) (nextAB nextA : Loc → List Str → Except Errno Res)
    (h0 : ∀ loc, walkWith nextAB fs follow loc (c :: B) = Except.ok r → F loc)
    (hnext : ∀ cur A, nextAB cur (A ++ c :: B) = Except.ok r →
      ∃ loc, nextA cur A = Except.ok (Res.found loc Node.dir) ∧ F loc) :
    ∀ A cur, walkWith nextAB fs follow cur (A ++ c :: B) = Except.ok r →
      ∃ loc, walkWith nextA fs true cur A = Except.ok (Res.found loc Node.dir) ∧ F loc := by
  intro A
  induction A with
  | nil =>
    intro cur h
    exact ⟨cur, walkWith_nil _ _ _ _, h0 cur h⟩
  | cons a rest ih =>
    intro cur h
    rw [List.cons_append] at h
    by_cases h1 : a = [] ∨ a = ['.']
    · rw [walkWith_skip _ _ _ _ _ _ h1] at h
      rw [walkWith_skip _ _ _ _ _ _ h1]
      exact ih cur h
    by_cases h2 : a = ['.', '.']
    · subst h2
      rw [walkWith_up] at h
      rw [walkWith_up]
      exact ih _ h
    rw [walkWith_name _ _ _ _ _ _ h1 h2] at h
    rw [walkWith_name _ _ _ _ _ _ h1 h2]
    have hne : rest ++ c :: B ≠ [] := by simp
    have hall : (rest ++ c :: B).all (fun r => decide (r = [])) = false := by
      simp [hc]
    cases hg : fs.get (cur ++ [a]) with
    | none =>
      rw [hg] at h
      simp only [hall] at h
      cases h
    | some nd =>
      rw [hg] at h
      cases nd with
      | file =>
        simp only [if_neg hne] at h
        cases h
      | dir => exact ih _ h
      | link t =>
        simp only at h ⊢
        have h3 : ¬ (rest = [] ∧ true = false) := fun e => by cases e.2
        have h4 : ¬ (rest ++ c :: B = [] ∧ follow = false) := fun e => hne e.1
        rw [if_neg h4, ← List.append_assoc] at h
        rw [if_neg h3]
        exact hnext _ _ h

theorem walk_split (fs : FS) (follow : Bool) (c : Str) (B : List Str) (hc : c ≠ [])
    (r : Res) :
    ∀ n A cur, walk fs follow n cur (A ++ c :: B) = Except.ok r →
      ∃ loc, walk fs true n cur A = Except.ok (Res.found loc Node.dir) ∧
        walk fs follow n loc (c :: B) = Except.ok r := by
  intro n
  induction n with
  | zero =>
    intro A cur h
    exact walkWith_split fs follow c B hc r
      (fun loc => walk fs follow 0 loc (c :: B) = Except.ok r) _ _
      (fun loc h => h) (fun _ _ h => by cases h) A cur h
  | succ n ih =>
    intro A cur h
    refine walkWith_split fs follow c B hc r
      (fun loc => walk fs follow (n + 1) loc (c :: B) = Except.ok r)
      (walk fs follow n) (walk fs true n) (fun loc h => h) ?_ A cur h
    intro cur A h1
    obtain ⟨loc, h2, h3⟩ := ih A cur h1
    exact ⟨loc, h2, walk_budget fs follow n 1 _ _ r h3⟩

theorem walk_skip (fs : FS) (follow : Bool) (n : Nat) (cur : Loc) (rest : List Str) :
    walk fs follow n cur ([] :: rest) = walk fs follow n cur rest := by
  cases n <;> exact walkWith_skip _ _ _ _ _ _ (Or.inl rfl)

theorem visits_skip (fs : FS) (follow : Bool) (n : Nat) (cur : Loc) (rest : List Str) :
    visits fs follow n cur ([] :: rest) = visits fs follow n cur rest := by
  cases n <;> exact visitsWith_skip _ _ _ _ _ _ (Or.inl rfl)

theorem walk_skip_dot (fs : FS) (follow : Bool) (n : Nat) (cur : Loc) (rest : List Str) :
    walk fs follow n cur (['.'] :: rest) = walk fs follow n cur rest := by
  cases n <;> exact walkWith_skip _ _ _ _ _ _ (Or.inr rfl)

theorem visits_skip_dot (fs : FS) (follow : Bool) (n : Nat) (cur : Loc) (rest : List Str) :
    visits fs follow n cur (['.'] :: rest) = visits fs follow n cur rest := by
  cases n <;> exact visitsWith_skip _ _ _ _ _ _ (Or.inr rfl)

/-- The walk over one real element. -/
theorem walk_one (fs : FS) (follow : Bool) (n : Nat) (loc : Loc) (g : Str) (hg : Plain g) :
    walk fs follow n loc [g] =
      match fs.get (loc ++ [g]) with
      | none => Except.ok (Res.missing loc g false)
      | some Node.dir => Except.ok (Res.found (loc ++ [g]) Node.dir)
      | some Node.file => Except.ok (Res.found (loc ++ [g]) Node.file)
      | some (Node.link t) =>
        if follow = false then Except.ok (Res.found (loc ++ [g]) (Node.link t))
        else
          match n with
          | 0 => Except.error Errno.ELOOP
          | k + 1 => walk fs follow k (if rooted t then [] else loc) (splitSlash t ++ []) := by
  have h1 : ¬ (g = [] ∨ g = ['.']) := fun e => e.elim hg.1 hg.2.2.1
  have h2 : g ≠ ['.', '.'] := hg.2.2.2
  cases n with
  | zero =>
    rw [walk_zero, walkWith_name _ _ _ _ _ _ h1 h2]
    cases fs.get (loc ++ [g]) with
    | none => simp
    | some nd =>
      cases nd with
      | file => simp
      | dir => simp [walkWith_nil]
      | link t => cases follow <;> simp
  | succ k =>
    rw [walk_succ, walkWith_name _ _ _ _ _ _ h1 h2]
    cases fs.get (loc ++ [g]) with
    | none => simp
    | some nd =>
      cases nd with
      | file => simp
      | dir => simp [walkWith_nil]
      | link t => cases follow <;> simp

theorem dirPrefix_cases (d : Str) :
    dirPrefix d = [] ∨ ∃ X, dirPrefix d = X ++ ['/'] := by
  unfold dirPrefix
  split_ifs
  · exact Or.inl rfl
  · exact Or.inr ⟨[], rfl⟩
  · exact Or.inl rfl
  · exact Or.inr ⟨_, rfl⟩

/-- The elements of a path joined with a real last element. -/
theorem splitSlash_Join_plain (d g : Str) (hg : Plain g) :
    splitSlash (Join [d, g]) = stemElems d ++ [g] := by
  rw [Join_plain d g hg]
  unfold stemElems
  rcases dirPrefix_cases d with h | ⟨X, h⟩
  · rw [h, if_pos rfl]
    exact splitSlash_of_no_slash g hg.2.1
  · rw [h, if_neg (by simp)]
    have e : X ++ ['/'] ++ g = X ++ '/' :: g := by simp
    rw [e, splitSlash_append, splitSlash_of_no_slash g hg.2.1]
    simp

theorem Join_plain_ne_nil (d g : Str) (hg : Plain g) : Join [d, g] ≠ [] :=
  Join_pair_ne_nil d g (Or.inr hg.1)

/-- The cleaned path and the stem of a join are walked in the same way and
from the same place. -/
theorem stemElems_spec (d g : Str) (hd : d ≠ []) (hg : Plain g) :
    Join [d] ≠ [] ∧ rooted (Join [d, g]) = rooted (Join [d]) ∧
    (∀ (fs : FS) (follow : Bool) (n : Nat) (cur : Loc) (rest : List Str),
      walk fs follow n cur (splitSlash (Join [d]) ++ rest) =
        walk fs follow n cur (stemElems d ++ rest)) ∧
    (∀ (fs : FS) (follow : Bool) (n : Nat) (cur : Loc) (rest : List Str),
      visits fs follow n cur (splitSlash (Join [d]) ++ rest) =
        visits fs follow n cur (stemElems d ++ rest)) := by
  have hj : Join [d] = Clean d := by rw [Join_single, if_neg hd]
  have hc : Clean d = render (rooted d) ((splitSlash d).foldl (cleanStep (rooted d)) []) :=
    Clean_eq_render d hd
  have hn := cleanStack_norm (rooted d) d
  have hr : rooted (Clean d) = rooted d := by rw [hc]; exact rooted_render _ _ hn
  have hjg : Join [d, g] = dirPrefix d ++ g := Join_plain d g hg
  refine ⟨by rw [hj]; exact Clean_ne_nil d, ?_, ?_⟩
  · rw [hj, hr, hjg]
    unfold dirPrefix
    rw [if_neg hd]
    by_cases hs : (splitSlash d).foldl (cleanStep (rooted d)) [] = []
    · rw [if_pos hs]
      cases hrd : rooted d with
      | true => rfl
      | false =>
        simp only [Bool.false_eq_true, if_false, List.nil_append]
        exact Plain_not_rooted g hg
    · rw [if_neg hs, List.append_assoc, rooted_append _ _ (render_ne_nil _ _ hn)]
      exact rooted_render _ _ hn
  · unfold stemElems dirPrefix
    rw [if_neg hd, hj, hc]
    by_cases hs : (splitSlash d).foldl (cleanStep (rooted d)) [] = []
    · rw [if_pos hs, hs]
      cases hrd : rooted d with
      | true =>
        have e1 : render true [] = ['/'] := rfl
        have e2 : splitSlash ['/'] = [[], []] := by decide
        have e3 : splitSlash ([] : Str) = [[]] := rfl
        simp only [if_true, e1, e2, List.cons_ne_nil, if_false, List.dropLast_single, e3,
          List.cons_append, List.nil_append, not_false_eq_true]
        exact ⟨fun fs follow n cur rest => walk_skip fs follow n cur _,
          fun fs follow n cur rest => visits_skip fs follow n cur _⟩
      | false =>
        have e1 : render false [] = ['.'] := rfl
        have e2 : splitSlash ['.'] = [['.']] := by decide
        simp only [Bool.false_eq_true, if_false, if_true, e1, e2, List.cons_append,
          List.nil_append]
        exact ⟨fun fs follow n cur rest => walk_skip_dot fs follow n cur _,
          fun fs follow n cur rest => visits_skip_dot fs follow n cur _⟩
    · rw [if_neg hs]
      have e : (render (rooted d) ((splitSlash d).foldl (cleanStep (rooted d)) []) ++
          ['/']).dropLast = render (rooted d) ((splitSlash d).foldl (cleanStep (rooted d)) []) := by
        simp
      rw [if_neg (by simp), e]
      exact ⟨fun _ _ _ _ _ => rfl, fun _ _ _ _ _ => rfl⟩

/-- Cleaning a joined path again changes nothing. -/
theorem Join_Join_single (a b : Str) : Join [Join [a, b]] = Join [a, b] := by
  by_cases h : Join [a, b] = []
  · rw [h]; rfl
  · rw [Join_single, if_neg h]
    by_cases ha : a = []
    · subst ha
      rw [Join_nil_cons] at h ⊢
      rw [Join_single] at h ⊢
      by_cases hb : b = []
      · rw [if_pos hb] at h; exact absurd rfl h
      · rw [if_neg hb]
        rw [Clean_eq_render b hb]
        have hn := cleanStack_norm (rooted b) b
        rw [Clean_eq_render _ (render_ne_nil _ _ hn), rooted_render _ _ hn, foldl_render _ _ hn]
    · rw [Join_pair a b ha]
      have hx : a ++ '/' :: b ≠ [] := by simp [ha]
      rw [Clean_eq_render _ hx]
      have hn := cleanStack_norm (rooted (a ++ '/' :: b)) (a ++ '/' :: b)
      rw [Clean_eq_render _ (render_ne_nil _ _ hn), rooted_render _ _ hn, foldl_render _ _ hn]

/-- Resolution of a joined path, as a walk over its stem and its last element. -/
theorem resolveWithin_Join (n : Nat) (fs : FS) (follow : Bool) (d g : Str) (hg : Plain g) :
    resolveWithin n fs follow (Join [d, g]) =
      walk fs follow n (if rooted (Join [d, g]) then [] else fs.cwd) (stemElems d ++ [g]) := by
  unfold resolveWithin
  rw [if_neg (Join_plain_ne_nil d g hg), splitSlash_Join_plain d g hg]

theorem visitedWithin_Join (n : Nat) (fs : FS) (follow : Bool) (d g : Str) (hg : Plain g) :
    visitedWithin n fs follow (Join [d, g]) =
      visits fs follow n (if rooted (Join [d, g]) then [] else fs.cwd) (stemElems d ++ [g]) := by
  unfold visitedWithin
  rw [if_neg (Join_plain_ne_nil d g hg), splitSlash_Join_plain d g hg]

/-- Resolution of a cleaned path, as a walk over the stem of its joins. -/
theorem resolveWithin_stem (n : Nat) (fs : FS) (follow : Bool) (d g : Str) (hd : d ≠ [])
    (hg : Plain g) :
    resolveWithin n fs follow (Join [d]) =
      walk fs follow n (if rooted (Join [d, g]) then [] else fs.cwd) (stemElems d) := by
  obtain ⟨h1, h2, h3, _⟩ := stemElems_spec d g hd hg
  unfold resolveWithin
  rw [if_neg h1, h2]
  have h4 := h3 fs follow n (if rooted (Join [d]) then [] else fs.cwd) []
  rw [List.append_nil, List.append_nil] at h4
  exact h4

theorem visitedWithin_stem (n : Nat) (fs : FS) (follow : Bool) (d g : Str) (hd : d ≠ [])
    (hg : Plain g) :
    visitedWithin n fs follow (Join [d]) =
      visits fs follow n (if rooted (Join [d, g]) then [] else fs.cwd) (stemElems d) := by
  obtain ⟨h1, h2, _, h3⟩ := stemElems_spec d g hd hg
  unfold visitedWithin
  rw [if_neg h1, h2]
  have h4 := h3 fs follow n (if rooted (Join [d]) then [] else fs.cwd) []
  rw [List.append_nil, List.append_nil] at h4
  exact h4

/-- What a successful activation does, by location: the link is the entry
`latest` of the directory the stem of `dataDir/latest` leads to, and no other
entry changes. -/
theorem activate_frame (env : Env) (w w1 : World) (dataDir tag : Str) (ps : List Str)
    (h : activate env w dataDir tag = (Outcome.paths ps, w1)) :
    ∃ p : Loc,
      walk w.fs true maxSymlinks
        (if rooted (Join [dataDir, "latest".toList]) then [] else w.fs.cwd)
        (stemElems dataDir) = Except.ok (Res.found p Node.dir) ∧
      (∀ l, l ≠ p ++ ["latest".toList] → w1.fs.get l = w.fs.get l) ∧
      w1.fs.get (p ++ ["latest".toList]) = some (Node.link (Join [dataDir, tag])) ∧
      w1.fs.cwd = w.fs.cwd ∧
      resolve w1.fs false (Join [dataDir, "latest".toList]) =
        Except.ok (Res.found (p ++ ["latest".toList]) (Node.link (Join [dataDir, tag]))) := by
  obtain ⟨fs4, p, c, h34, h4, h5⟩ := activate_fs env w w1 dataDir tag ps h
  have hcwd4 : fs4.cwd = w.fs.cwd := by
    rcases h34 with e | ⟨r, nd, _, e⟩
    · rw [e]
    · rw [e]; rfl
  have hle : fs4.le w.fs := by
    rcases h34 with e | ⟨r, nd, _, e⟩
    · rw [e]; exact FS.le_refl _
    · rw [e]; exact FS.del_le _ _
  -- where the link is made
  have h4w := h4
  rw [← resolveWithin_max, resolveWithin_Join _ _ _ _ _ plain_latest] at h4w
  obtain ⟨loc, hl1, hl2⟩ := walk_split fs4 false "latest".toList [] (by decide) _ _ _ _ h4w
  rw [walk_one fs4 false _ loc _ plain_latest] at hl2
  have hpc : p = loc ∧ c = "latest".toList ∧ fs4.get (loc ++ ["latest".toList]) = none := by
    cases hg : fs4.get (loc ++ ["latest".toList]) with
    | none =>
      rw [hg] at hl2
      simp only [Except.ok.injEq, Res.missing.injEq, and_true] at hl2
      exact ⟨hl2.1.symm, hl2.2.symm, rfl⟩
    | some nd =>
      rw [hg] at hl2
      cases nd <;> simp at hl2
  obtain ⟨hp, hcl, hnone⟩ := hpc
  subst hp
  subst hcl
  -- the stem is walked in the same way before the removal
  have hstem : walk w.fs true maxSymlinks
      (if rooted (Join [dataDir, "latest".toList]) then [] else w.fs.cwd)
      (stemElems dataDir) = Except.ok (Res.found p Node.dir) := by
    have h6 := walk_mono hle true maxSymlinks (stemElems dataDir)
      (if rooted (Join [dataDir, "latest".toList]) then [] else fs4.cwd)
      (by rw [hl1]; trivial)
    rw [hl1, hcwd4] at h6
    exact h6
  have hget4 : ∀ l, l ≠ p ++ ["latest".toList] → fs4.get l = w.fs.get l := by
    intro l hl
    rcases h34 with e | ⟨r, nd, hr, e⟩
    · rw [e]
    · have hrw := hr
      rw [← resolveWithin_max, resolveWithin_Join _ _ _ _ _ plain_latest] at hrw
      obtain ⟨loc2, hm1, hm2⟩ := walk_split w.fs false "latest".toList [] (by decide) _ _ _ _ hrw
      rw [hstem] at hm1
      simp only [Except.ok.injEq, Res.found.injEq, and_true] at hm1
      subst hm1
      rw [walk_one w.fs false _ p _ plain_latest] at hm2
      have hrL : r = p ++ ["latest".toList] := by
        cases hg : w.fs.get (p ++ ["latest".toList]) with
        | none => rw [hg] at hm2; simp at hm2
        | some n2 =>
          rw [hg] at hm2
          cases n2 with
          | file => simp at hm2; exact hm2.1.symm
          | dir => simp at hm2; exact hm2.1.symm
          | link t => simp at hm2; exact hm2.1.symm
      rw [e, hrL]
      exact FS.get_del _ _ _ hl
  have hL : p ++ ["latest".toList] ≠ [] := by simp
  refine ⟨p, hstem, ?_, ?_, ?_, ?_⟩
  · intro l hl
    rw [h5, FS.get_add]
    by_cases h0 : l = []
    · rw [if_pos h0, h0]; rfl
    · rw [if_neg h0, if_neg (fun e => hl e.symm)]
      exact hget4 l hl
  · rw [h5, FS.get_add, if_neg hL, if_pos rfl]
  · rw [h5]; exact hcwd4
  · rw [h5]
    exact resolve_add false _ p _ false _ (fun e => by cases e) (fun _ _ => rfl) h4

theorem rooted_Clean (x : Str) (hx : x ≠ []) : rooted (Clean x) = rooted x := by
  rw [Clean_eq_render x hx]
  exact rooted_render _ _ (cleanStack_norm _ _)

theorem rooted_Join_pair (d g : Str) (hd : d ≠ []) : rooted (Join [d, g]) = rooted d := by
  rw [Join_pair d g hd, rooted_Clean _ (by simp [hd]), rooted_append d _ hd]

theorem rooted_ne_nil (d : Str) (h : rooted d = true) : d ≠ [] := by
  intro e
  rw [e] at h
  cases h

/-- What is resolved without looking at an entry is resolved in the same way in
every state that differs from this one at that entry only. -/
theorem activation_keeps (a b : FS) (n : Nat) (l : Loc) (path : Str) (r : Res)
    (hn : n ≤ maxSymlinks) (hcwd : b.cwd = a.cwd) (hget : ∀ k, k ≠ l → b.get k = a.get k)
    (hav : avoids a n l path = true) (hr : resolve a true path = Except.ok r) :
    resolveWithin n b true path = Except.ok r ∧ resolve b true path = Except.ok r := by
  unfold avoids at hav
  obtain ⟨h1, h2⟩ := of_decide_eq_true hav
  have h3 := resolveWithin_frame n true l path hcwd hget h2
  rw [h1, hr] at h3
  refine ⟨h3, ?_⟩
  unfold resolveWithin at h3
  unfold resolve
  by_cases hp : path = []
  · rw [if_pos hp] at h3; cases h3
  · rw [if_neg hp] at h3 ⊢
    exact walk_budget_le b true n maxSymlinks hn _ _ r h3

/-- After the activation, a path through `dataDir/latest` leads where the path
through `dataDir/<tag>` led before it, when the data directory is absolute and
the walks have the link budget for the detour. -/
theorem latest_leads_to_tag (a b : FS) (dataDir tag f : Str) (p : Loc) (n0 n1 : Nat) (r : Res)
    (hroot : rooted dataDir = true) (hf : Plain f) (hn : n0 + n1 < maxSymlinks)
    (hstem : walk a true maxSymlinks
      (if rooted (Join [dataDir, "latest".toList]) then [] else a.cwd)
      (stemElems dataDir) = Except.ok (Res.found p Node.dir))
    (hcwd : b.cwd = a.cwd)
    (hget : ∀ k, k ≠ p ++ ["latest".toList] → b.get k = a.get k)
    (hL : b.get (p ++ ["latest".toList]) = some (Node.link (Join [dataDir, tag])))
    (hd : avoids a n0 (p ++ ["latest".toList]) (Join [dataDir]) = true)
    (hfile : avoids a n1 (p ++ ["latest".toList]) (Join [dataDir, tag, f]) = true)
    (hres : resolve a true (Join [dataDir, tag, f]) = Except.ok r) :
    resolve b true (Join [Join [dataDir, "latest".toList], f]) = Except.ok r := by
  have hdne : dataDir ≠ [] := rooted_ne_nil _ hroot
  have hrl : rooted (Join [dataDir, "latest".toList]) = true := by
    rw [rooted_Join_pair _ _ hdne]; exact hroot
  have hrt : rooted (Join [dataDir, tag]) = true := by
    rw [rooted_Join_pair _ _ hdne]; exact hroot
  have hlne : Join [dataDir, "latest".toList] ≠ [] := Join_plain_ne_nil _ _ plain_latest
  have htne : Join [dataDir, tag] ≠ [] := rooted_ne_nil _ hrt
  rw [hrl, if_pos rfl] at hstem
  -- the data directory, after the activation
  have hA : walk b true n0 [] (stemElems dataDir) = Except.ok (Res.found p Node.dir) := by
    have h1 : resolve a true (Join [dataDir]) = Except.ok (Res.found p Node.dir) := by
      rw [← resolveWithin_max, resolveWithin_stem _ _ _ dataDir _ hdne plain_latest, hrl,
        if_pos rfl]
      exact hstem
    have h2 := (activation_keeps a b n0 _ _ _ (by omega) hcwd hget hd h1).1
    rw [resolveWithin_stem _ _ _ dataDir _ hdne plain_latest, hrl, if_pos rfl] at h2
    exact h2
  -- the directory of the tag, through the link
  have hB : walk b true (n1 + 1) p ["latest".toList, f] = Except.ok r := by
    have h1 := (activation_keeps a b n1 _ _ _ (by omega) hcwd hget hfile hres).1
    rw [← Join_assoc, resolveWithin_Join _ _ _ _ _ hf, rooted_Join_pair _ _ htne, hrt,
      if_pos rfl] at h1
    have h2 := (stemElems_spec (Join [dataDir, tag]) f htne hf).2.2.1 b true n1 [] [f]
    rw [Join_Join_single] at h2
    rw [walk_succ, walkWith_name _ _ _ _ _ _
      (fun e => e.elim plain_latest.1 plain_latest.2.2.1) plain_latest.2.2.2, hL]
    simp only [List.cons_ne_nil, false_and, if_false, hrt, if_true]
    rw [h2]
    exact h1
  have hC := walk_compose b true ["latest".toList, f] (by simp) r p n0 (n1 + 1)
    (stemElems dataDir) [] hA hB
  have hD := walk_budget_le b true _ maxSymlinks (by omega) _ _ r hC
  -- the path through the link, as a walk
  rw [← resolveWithin_max, resolveWithin_Join _ _ _ _ _ hf, rooted_Join_pair _ _ hlne, hrl,
    if_pos rfl]
  have h3 := (stemElems_spec (Join [dataDir, "latest".toList]) f hlne hf).2.2.1 b true
    maxSymlinks [] [f]
  rw [Join_Join_single, splitSlash_Join_plain _ _ plain_latest, List.append_assoc] at h3
  rw [← h3]
  exact hD

theorem pathExists_iff (fs : FS) (path : Str) :
    pathExists fs path = true ↔ ∃ loc nd, resolve fs true path = Except.ok (Res.found loc nd) := by
  unfold pathExists
  constructor
  · intro h
    split at h
    · rename_i loc nd hr
      exact ⟨loc, nd, hr⟩
    · cases h
  · rintro ⟨loc, nd, hr⟩
    rw [hr]

theorem isDirectory_iff (fs : FS) (path : Str) :
    isDirectory fs path = true ↔ ∃ loc, resolve fs true path = Except.ok (Res.found loc Node.dir) := by
  unfold isDirectory
  constructor
  · intro h
    split at h
    · rename_i loc hr
      exact ⟨loc, hr⟩
    · cases h
  · rintro ⟨loc, hr⟩
    rw [hr]

/-- A path with an entry below it leads to a directory. -/
theorem isDirectory_of_child (fs : FS) (d g : Str) (hd : d ≠ []) (hg : Plain g) (r : Res)
    (h : resolve fs true (Join [d, g]) = Except.ok r) : isDirectory fs (Join [d]) = true := by
  rw [← resolveWithin_max, resolveWithin_Join _ _ _ _ _ hg] at h
  obtain ⟨loc, h1, _⟩ := walk_split fs true g [] hg.1 r _ _ _ h
  rw [isDirectory_iff]
  refine ⟨loc, ?_⟩
  rw [← resolveWithin_max, resolveWithin_stem _ _ _ d g hd hg]
  exact h1

/-- A successful activation has a link target that is not the empty path. -/
theorem activate_target_ne_nil (env : Env) (w w1 : World) (dataDir tag : Str) (ps : List Str)
    (h : activate env w dataDir tag = (Outcome.paths ps, w1)) : Join [dataDir, tag] ≠ [] := by
  intro e
  unfold activate at h
  simp only at h
  rw [e] at h
  unfold Symlink at h
  rcases sys_cases env (Remove env w (Join [dataDir, "latest".toList])).2
      (Call.symlink [] (Join [dataDir, "latest".toList]))
      (fsSymlink [] (Join [dataDir, "latest".toList])) with
    ⟨f, _, h1⟩ | ⟨_, a, fs1, hr, h1⟩ | ⟨_, e1, _, h1⟩
  · rw [h1] at h; cases h
  · unfold fsSymlink at hr
    rw [if_pos rfl] at hr
    cases hr
  · rw [h1] at h; cases h

/-- What a successful activation keeps: the link is made at a location `l`, and
what was resolved without looking at `l` is resolved as before; with an absolute
data directory, what `dataDir/<tag>/f` named is then also named by
`dataDir/latest/f`, when the link budget allows the detour. -/
theorem activation_frame (env : Env) (pre w1 : World) (dataDir tag : Str) (ps : List Str)
    (hact : activate env pre dataDir tag = (Outcome.paths ps, w1)) :
    ∃ l : Loc,
      resolve w1.fs false (Join [dataDir, "latest".toList]) =
        Except.ok (Res.found l (Node.link (Join [dataDir, tag]))) ∧
      (∀ path, avoids pre.fs maxSymlinks l path = true →
        resolve w1.fs true path = resolve pre.fs true path) ∧
      (∀ (n0 n1 : Nat) (f : Str), rooted dataDir = true → Plain f → n0 + n1 < maxSymlinks →
        avoids pre.fs n0 l (Join [dataDir]) = true →
        avoids pre.fs n1 l (Join [dataDir, tag, f]) = true →
        pathExists pre.fs (Join [dataDir, tag, f]) = true →
        pathExists w1.fs (Join [Join [dataDir, "latest".toList], f]) = true) := by
  obtain ⟨p, hstem, hget, hL, hcwd, hres⟩ := activate_frame env pre w1 dataDir tag ps hact
  refine ⟨p ++ ["latest".toList], hres, ?_, ?_⟩
  · intro path hav
    unfold avoids at hav
    obtain ⟨_, h2⟩ := of_decide_eq_true hav
    have h3 := resolveWithin_frame maxSymlinks true _ path hcwd hget h2
    rw [resolveWithin_max, resolveWithin_max] at h3
    exact h3
  · intro n0 n1 f hroot hf hn hd hfile hex
    obtain ⟨loc, nd, hr⟩ := (pathExists_iff _ _).1 hex
    rw [pathExists_iff]
    exact ⟨loc, nd, latest_leads_to_tag pre.fs w1.fs dataDir tag f p n0 n1 _ hroot hf hn hstem
      hcwd hget hL hd hfile hr⟩

/-- The last name of every entry a walk looks at is an element of the path or of
the target of a symbolic link. -/
theorem visitsWith_names (fs : FS) (follow : Bool) (c : Str) (hl : linkFree c fs)
    (next : Loc → List Str → List Loc)
    (hnext : ∀ cur es, c ∉ es → ∀ loc ∈ next cur es, loc.getLast? ≠ some c) :
    ∀ es cur, c ∉ es → ∀ loc ∈ visitsWith next fs follow cur es, loc.getLast? ≠ some c := by
  intro es
  induction es with
  | nil => intro cur _ loc h; rw [visitsWith_nil] at h; cases h
  | cons a rest ih =>
    intro cur hc loc h
    have hca : c ≠ a := fun e => hc (e ▸ List.mem_cons_self _ _)
    have hcr : c ∉ rest := fun e => hc (List.mem_cons_of_mem _ e)
    by_cases h1 : a = [] ∨ a = ['.']
    · rw [visitsWith_skip _ _ _ _ _ _ h1] at h
      exact ih cur hcr loc h
    by_cases h2 : a = ['.', '.']
    · subst h2
      rw [visitsWith_up] at h
      exact ih _ hcr loc h
    rw [visitsWith_name _ _ _ _ _ _ h1 h2] at h
    rcases List.mem_cons.1 h with e | h
    · rw [e]
      intro e2
      rw [List.getLast?_append, List.getLast?_singleton] at e2
      simp only [Option.or, Option.some.injEq] at e2
      exact hca e2.symm
    · cases hg : fs.get (cur ++ [a]) with
      | none => rw [hg] at h; cases h
      | some nd =>
        rw [hg] at h
        cases nd with
        | file => cases h
        | dir => exact ih _ hcr loc h
        | link t =>
          simp only at h
          by_cases h3 : rest = [] ∧ follow = false
          · rw [if_pos h3] at h; cases h
          · rw [if_neg h3] at h
            refine hnext _ _ ?_ loc h
            intro hm
            rcases List.mem_append.1 hm with h4 | h4
            · exact hl _ _ hg h4
            · exact hcr h4

theorem visits_names (fs : FS) (follow : Bool) (c : Str) (hl : linkFree c fs) :
    ∀ n es cur, c ∉ es → ∀ loc ∈ visits fs follow n cur es, loc.getLast? ≠ some c := by
  intro n
  induction n with
  | zero =>
    intro es cur hc loc h
    exact visitsWith_names fs follow c hl _ (fun _ _ _ _ h => by cases h) es cur hc loc h
  | succ n ih =>
    intro es cur hc loc h
    exact visitsWith_names fs follow c hl _ (fun cur es hc loc h => ih es cur hc loc h)
      es cur hc loc h

/-- A path none of whose elements is `c`, in a file system none of whose links
has a target with the element `c`, is resolved without looking at any entry
named `c`. -/
theorem avoids_of_names (fs : FS) (c : Str) (l : Loc) (path : Str) (hl : linkFree c fs)
    (hp : c ∉ splitSlash path) (hlast : l.getLast? = some c) :
    avoids fs maxSymlinks l path = true := by
  unfold avoids
  rw [decide_eq_true_eq]
  refine ⟨rfl, fun hv => ?_⟩
  unfold visitedWithin at hv
  by_cases hne : path = []
  · rw [if_pos hne] at hv; cases hv
  · rw [if_neg hne] at hv
    exact visits_names fs true c hl _ _ _ hp _ hv hlast

/-- Symbolic links are not made by steps that add directories and files. -/
theorem grows_linkFree (paths : List Str) (c : Str) (a b : FS) (h : grows paths a b)
    (hl : linkFree c a) : linkFree c b := by
  intro loc t hg
  by_cases he : b.get loc = a.get loc
  · rw [he] at hg
    exact hl loc t hg
  · rcases h.2 loc he with h1 | ⟨h1, _⟩
    · rw [h1] at hg; cases hg
    · rw [h1] at hg; cases hg

theorem grows_mono_paths {paths paths' : List Str} (hsub : ∀ q ∈ paths, q ∈ paths') {a b : FS}
    (h : grows paths a b) : grows paths' a b := by
  refine ⟨h.1, fun loc hne => ?_⟩
  rcases h.2 loc hne with h1 | ⟨h1, q, hq, hr⟩
  · exact Or.inl h1
  · exact Or.inr ⟨h1, q, hsub q hq, hr⟩

/-! ## The claims -/

/-- C1: whenever `IsTagDownloaded` reports the tag as downloaded, `DownloadTag`
returns nil, leaves the file system as it found it and issues no network
request; the only request it makes is the inspection of the marker. -/
theorem DownloadTag_downloaded_is_noop (env : Env) (w : World) (dataDir tag : Str)
    (h : (IsTagDownloaded env w dataDir tag).1 = true) :
    (DownloadTag env w dataDir tag).1 = none ∧
    (DownloadTag env w dataDir tag).2.fs = w.fs ∧
    networkRequests (DownloadTag env w dataDir tag).2.trace = networkRequests w.trace ∧
    ∃ b, (DownloadTag env w dataDir tag).2.trace =
      w.trace ++ [Event.mk (Call.stat (Join [dataDir, tag, ".ok".toList])) b] := by
  rcases DownloadTag_cases env w dataDir tag with
    ⟨_, hd⟩ | ⟨h1, _⟩ | ⟨h1, _⟩ | ⟨h1, _⟩ | ⟨h1, _⟩
  · obtain ⟨b, hb⟩ := Stat_trace env w (Join [dataDir, tag, ".ok".toList])
    rw [hd, IsTagDownloaded_world]
    refine ⟨rfl, Stat_fs env w _, ?_, b, hb⟩
    rw [hb, networkRequests_append]
    simp [networkRequests]
  all_goals rw [h] at h1; cases h1

/-- Witness of C1: release `v1` is complete in `installedFS`. -/
theorem DownloadTag_downloaded_is_noop_witness :
    (IsTagDownloaded (goodEnv "/home/u".toList "v1".toList) (startWorld installedFS) exDataDir
      "v1".toList).1 = true ∧
    (DownloadTag (goodEnv "/home/u".toList "v1".toList) (startWorld installedFS) exDataDir
      "v1".toList).2.fs = installedFS :=
  ⟨by decide!,
    (DownloadTag_downloaded_is_noop (goodEnv "/home/u".toList "v1".toList)
      (startWorld installedFS) exDataDir "v1".toList (by decide!)).2.1⟩

/-- C2, amended: `GetLatest` fails when `client.Head` fails, which it does when
the request cannot be completed and when the response is a redirect whose
non-empty `Location` does not parse, and it fails when the response has no or
an empty `Location` header; otherwise it succeeds with `path.Base` of the header
value, which is its final path segment (or `/` when the value consists of
slashes only); a value ending in `/releases/tag/v1.2.3` then gives `v1.2.3`,
and the tag contains no `/` unless it is `/` itself. -/
theorem GetLatest_returns_final_segment (env : Env) (w : World) :
    (env.head = none → (GetLatest env w).1 = Except.error GetLatestErr.headFailed) ∧
    (∀ resp loc, env.head = some resp → resp.redirect = true → resp.location = some loc →
      loc ≠ [] → env.urlParses loc = false →
      (GetLatest env w).1 = Except.error GetLatestErr.headFailed) ∧
    (∀ resp, env.head = some resp → resp.location.getD [] = [] →
      (GetLatest env w).1 = Except.error GetLatestErr.locationMissing) ∧
    (∀ resp loc, env.head = some resp → resp.location = some loc → loc ≠ [] →
      (resp.redirect = false ∨ env.urlParses loc = true) →
      (GetLatest env w).1 = Except.ok (Base loc) ∧
      ((Base loc = ['/'] ∧ ∃ k, loc = List.replicate k '/') ∨ IsFinalSegment loc (Base loc)) ∧
      ('/' ∈ Base loc → Base loc = ['/'])) ∧
    (∀ resp pre, env.head = some resp →
      resp.location = some (pre ++ "/releases/tag/v1.2.3".toList) →
      (resp.redirect = false ∨ env.urlParses (pre ++ "/releases/tag/v1.2.3".toList) = true) →
      (GetLatest env w).1 = Except.ok "v1.2.3".toList) ∧
    (∀ tag, (GetLatest env w).1 = Except.ok tag → '/' ∈ tag → tag = ['/']) := by
  have key : ∀ resp loc, env.head = some resp → resp.location = some loc → loc ≠ [] →
      (resp.redirect = false ∨ env.urlParses loc = true) →
      (GetLatest env w).1 = Except.ok (Base loc) := by
    intro resp loc h hloc hl hacc
    have hc : clientResponse env = some resp := by
      unfold clientResponse
      rw [h]
      simp only [hloc, Option.getD_some]
      rw [if_neg]
      rintro ⟨h1, _, h3⟩
      rcases hacc with h4 | h4
      · rw [h4] at h1; cases h1
      · rw [h4] at h3; cases h3
    simp only [GetLatest, Head, hc, hloc, Option.getD_some, if_neg hl]
  refine ⟨?_, ?_, ?_, ?_, ?_, ?_⟩
  · intro h
    simp [GetLatest, Head, clientResponse, h]
  · intro resp loc h hr hloc hl hp
    have hc : clientResponse env = none := by
      unfold clientResponse
      rw [h]
      simp only [hloc, Option.getD_some]
      rw [if_pos ⟨hr, hl, hp⟩]
    simp only [GetLatest, Head, hc]
  · intro resp h hr
    cases hc : clientResponse env with
    | none =>
      unfold clientResponse at hc
      rw [h] at hc
      simp only [hr, ne_eq, not_true_eq_false, false_and, and_false, if_false] at hc
      cases hc
    | some r =>
      have hrr : r = resp := by
        unfold clientResponse at hc
        rw [h] at hc
        simp only [hr, ne_eq, not_true_eq_false, false_and, and_false, if_false] at hc
        exact (Option.some.inj hc).symm
      subst hrr
      simp only [GetLatest, Head, hc, hr, if_true]
  · intro resp loc h hloc hl hacc
    exact ⟨key resp loc h hloc hl hacc, Base_final_segment loc hl, Base_no_slash loc⟩
  · intro resp pre h hloc hacc
    have e : pre ++ "/releases/tag/v1.2.3".toList
        = (pre ++ "/releases/tag".toList) ++ '/' :: "v1.2.3".toList := by
      simp
    have hb : Base (pre ++ "/releases/tag/v1.2.3".toList) = "v1.2.3".toList := by
      rw [e]
      exact Base_suffix _ _ (by decide) (by decide)
    have hne : pre ++ "/releases/tag/v1.2.3".toList ≠ [] := by simp
    rw [key resp _ h hloc hne hacc, hb]
  · intro tag ht hs
    unfold GetLatest Head at ht
    cases hc : clientResponse env with
    | none => rw [hc] at ht; cases ht
    | some r =>
      rw [hc] at ht
      simp only at ht
      by_cases h1 : r.location.getD [] = []
      · rw [if_pos h1] at ht; cases ht
      · rw [if_neg h1] at ht
        have h2 : Base (r.location.getD []) = tag := Except.ok.inj ht
        rw [← h2] at hs ⊢
        exact Base_no_slash _ hs

/-- Witness of C2 (amended): the redirect to the page of a release. -/
theorem GetLatest_returns_final_segment_witness :
    (GetLatest (goodEnv [] "v1.2.3".toList) (startWorld freshFS)).1 = Except.ok "v1.2.3".toList :=
  (GetLatest_returns_final_segment (goodEnv [] "v1.2.3".toList) (startWorld freshFS)).2.2.2.2.1
    { redirect := true
      location := some ("https://github.com/P3TERX/GeoLite.mmdb/releases/tag/".toList ++
        "v1.2.3".toList) }
    "https://github.com/P3TERX/GeoLite.mmdb".toList rfl (by decide) (Or.inr (by decide))

/-- Counterexample to C2: a redirect whose `Location` is
`%zz/releases/tag/v1.2.3`. The value ends in `/releases/tag/v1.2.3`, but
`%zz` is not a percent escape, the client cannot parse the header, `client.Head`
returns an error and so does `GetLatest`. -/
theorem unparsable_redirect_is_an_error :
    (redirectEnv "%zz/releases/tag/v1.2.3".toList).head =
      some { redirect := true, location := some ("%zz".toList ++ "/releases/tag/v1.2.3".toList) } ∧
    (redirectEnv "%zz/releases/tag/v1.2.3".toList).urlParses
      "%zz/releases/tag/v1.2.3".toList = false ∧
    (GetLatest (redirectEnv "%zz/releases/tag/v1.2.3".toList) (startWorld freshFS)).1 =
      Except.error GetLatestErr.headFailed := by
  decide

/-- C4: in a run where `dataDir/latest` refers to the directory of tag `A`, the
resolved tag is `B`, and `DownloadTag` returns an error, `EnsureLatestDBFiles`
returns that error, `dataDir/latest` is still the same symbolic link to the
directory of `A`, and neither `os.Remove` nor `os.Symlink` has been called. -/
theorem download_failure_keeps_latest (env : Env) (w w0 w1 w2 w3 : World)
    (dataDir A B : Str) (e : DownloadErr)
    (hdir : GetDataDir env w = (some dataDir, w0))
    (htag : GetLatest env w0 = (Except.ok B, w1))
    (hchk : IsTagDownloaded env w1 dataDir B = (false, w2))
    (hdl : DownloadTag env w2 dataDir B = (some e, w3))
    (hlatest : entryAt w.fs (Join [dataDir, "latest".toList]) =
      some (Node.link (Join [dataDir, A])))
    (hA : isDirectory w.fs (Join [dataDir, A]) = true) :
    EnsureLatestDBFiles env w = (Outcome.error (EnsureErr.download e), w3) ∧
    entryAt w3.fs (Join [dataDir, "latest".toList]) = some (Node.link (Join [dataDir, A])) ∧
    isDirectory w3.fs (Join [dataDir, A]) = true ∧
    ∃ evs, w3.trace = w.trace ++ evs ∧ ∀ ev ∈ evs, ev.call.isActivation = false := by
  have hx := (before_activation_ext env w dataDir B).2.2
  have hw3 : (downloadStep env w dataDir B).2 = w3 := by
    simp only [downloadStep, checkStep, resolveStep, hdir, htag, hchk, hdl]
  rw [hw3] at hx
  refine ⟨?_, entryAt_mono hx.1 _ _ hlatest, isDirectory_mono hx.1 _ hA, hx.2⟩
  simp only [EnsureLatestDBFiles, hdir, htag, hchk, hdl]

/-- Witness of C4: `v1` is active, `v2` is the latest release and no file can
be downloaded. -/
theorem download_failure_keeps_latest_witness :
    (EnsureLatestDBFiles (noDownloadEnv "/home/u".toList "v2".toList) (startWorld installedFS)).1 =
      Outcome.error (EnsureErr.download (DownloadErr.download "GeoLite2-ASN.mmdb".toList)) ∧
    entryAt (EnsureLatestDBFiles (noDownloadEnv "/home/u".toList "v2".toList)
      (startWorld installedFS)).2.fs (Join [exDataDir, "latest".toList]) =
      some (Node.link (Join [exDataDir, "v1".toList])) := by
  have h := download_failure_keeps_latest (noDownloadEnv "/home/u".toList "v2".toList)
    (startWorld installedFS)
    (GetDataDir (noDownloadEnv "/home/u".toList "v2".toList) (startWorld installedFS)).2
    (resolveStep (noDownloadEnv "/home/u".toList "v2".toList) (startWorld installedFS)).2
    (checkStep (noDownloadEnv "/home/u".toList "v2".toList) (startWorld installedFS)
      exDataDir "v2".toList).2
    (downloadStep (noDownloadEnv "/home/u".toList "v2".toList) (startWorld installedFS)
      exDataDir "v2".toList).2
    exDataDir "v1".toList "v2".toList (DownloadErr.download "GeoLite2-ASN.mmdb".toList)
    (by decide!) (by decide!) (by decide!) (by decide!) (by decide!) (by decide!)
  exact ⟨by rw [h.1], by rw [h.1]; exact h.2.1⟩

/-- C5: when `EnsureLatestDBFiles` succeeds, the returned slice has the length
of `Files` and its i-th element is `path.Join(dataDir, "latest", Files[i])`,
which is `dataDir/latest` followed by `/` and the file name; the slice is the
same for every run with the same data directory, whatever tag it resolved. -/
theorem paths_follow_Files (env : Env) (w w1 : World) (ps : List Str)
    (h : EnsureLatestDBFiles env w = (Outcome.paths ps, w1)) :
    ∃ dataDir, (GetDataDir env w).1 = some dataDir ∧
      ps.length = Files.length ∧
      (∀ i : Nat, ps[i]? = (Files[i]?).map (fun file => Join [dataDir, "latest".toList, file])) ∧
      (∀ i : Nat, ps[i]? =
        (Files[i]?).map (fun file => Join [dataDir, "latest".toList] ++ '/' :: file)) ∧
      (∀ (env2 : Env) (v v1 : World) (qs : List Str),
        EnsureLatestDBFiles env2 v = (Outcome.paths qs, v1) →
        (GetDataDir env2 v).1 = some dataDir → qs = ps) := by
  obtain ⟨dataDir, tag, hd, _, hps, _, _⟩ := EnsureLatestDBFiles_paths env w w1 ps h
  refine ⟨dataDir, hd, by rw [hps, List.length_map], ?_, ?_, ?_⟩
  · intro i
    rw [hps, List.getElem?_map]
    cases Files[i]? with
    | none => rfl
    | some f => simp only [Option.map_some', Join_assoc]
  · intro i
    rw [hps, List.getElem?_map]
    cases hf : Files[i]? with
    | none => rfl
    | some f =>
      have hm : f ∈ Files := List.getElem?_mem hf
      simp only [Option.map_some', Join_Join_plain _ _ _ plain_latest (plain_Files f hm).1]
  · intro env2 v v1 qs h2 hd2
    obtain ⟨d2, _, hd3, _, hqs, _, _⟩ := EnsureLatestDBFiles_paths env2 v v1 qs h2
    rw [hd2] at hd3
    cases hd3
    rw [hps, hqs]

/-- Witness of C5: a first installation of release `v2`; the first returned path
is `dataDir/latest/GeoLite2-ASN.mmdb`. -/
theorem paths_follow_Files_witness :
    ∃ dataDir, (GetDataDir (goodEnv "/home/u".toList "v2".toList) (startWorld freshFS)).1 =
        some dataDir ∧
      (Files.map (fun file => Join [exDataDir, "latest".toList, file]))[0]? =
        (Files[0]?).map (fun file => Join [dataDir, "latest".toList] ++ '/' :: file) := by
  obtain ⟨dataDir, hd, _, _, h4, _⟩ := paths_follow_Files
    (goodEnv "/home/u".toList "v2".toList) (startWorld freshFS)
    (EnsureLatestDBFiles (goodEnv "/home/u".toList "v2".toList) (startWorld freshFS)).2
    (Files.map (fun file => Join [exDataDir, "latest".toList, file])) (by decide!)
  exact ⟨dataDir, hd, h4 0⟩

/-- C7, amended: when `os.UserHomeDir` succeeds and tag resolution fails,
`EnsureLatestDBFiles` returns the resolution error and the file system is what
it was before the call; the only request made is the HEAD request. -/
theorem resolution_failure_changes_nothing (env : Env) (w : World) (e : GetLatestErr)
    (hhome : env.HOME ≠ []) (hfail : (GetLatest env w).1 = Except.error e) :
    (EnsureLatestDBFiles env w).1 = Outcome.error (EnsureErr.getLatest e) ∧
    (EnsureLatestDBFiles env w).2.fs = w.fs ∧
    ∃ b, (EnsureLatestDBFiles env w).2.trace =
      w.trace ++ [Event.mk (Call.head (RepoURL ++ "/releases/latest".toList)) b] := by
  have hw := GetLatest_world env w
  simp only [EnsureLatestDBFiles, GetDataDir_home env w hhome]
  cases hl : GetLatest env w with
  | mk r w1 =>
    rw [hl] at hfail hw
    simp only at hfail hw
    subst hfail
    simp only
    rw [hw]
    exact ⟨trivial, rfl, _, rfl⟩

/-- Witness of C7 (amended): the remote host cannot be reached. -/
theorem resolution_failure_changes_nothing_witness :
    (EnsureLatestDBFiles (offlineEnv "/home/u".toList) (startWorld installedFS)).2.fs =
      installedFS :=
  (resolution_failure_changes_nothing (offlineEnv "/home/u".toList) (startWorld installedFS)
    GetLatestErr.headFailed (by decide) (by decide!)).2.1

/-- Counterexample to C7: with `$HOME` unset, `GetDataDir` creates a temporary
directory before the tag is resolved, so a failed resolution leaves the new
directory `/tmp/mmdb0` behind. -/
theorem resolution_failure_leaves_temp_dir :
    (EnsureLatestDBFiles (offlineEnv []) (startWorld freshFS)).1 =
      Outcome.error (EnsureErr.getLatest GetLatestErr.headFailed) ∧
    (EnsureLatestDBFiles (offlineEnv []) (startWorld freshFS)).2.fs ≠ freshFS ∧
    pathExists freshFS "/tmp/mmdb0".toList = false ∧
    pathExists (EnsureLatestDBFiles (offlineEnv []) (startWorld freshFS)).2.fs
      "/tmp/mmdb0".toList = true := by
  decide!

/-- C8, amended: when `EnsureLatestDBFiles` returns an error of the resolution
step or of the download step, an entry `dataDir/latest` that was there before
the call is still there, unchanged, and neither `os.Remove` nor `os.Symlink`
has been called. -/
theorem failure_before_activation_keeps_latest (env : Env) (w w1 : World) (e : EnsureErr)
    (dataDir : Str) (n : Node)
    (h : EnsureLatestDBFiles env w = (Outcome.error e, w1))
    (hstep : ∀ en, e ≠ EnsureErr.symlink en)
    (hd : (GetDataDir env w).1 = some dataDir)
    (hn : entryAt w.fs (Join [dataDir, "latest".toList]) = some n) :
    entryAt w1.fs (Join [dataDir, "latest".toList]) = some n ∧
    ∃ evs, w1.trace = w.trace ++ evs ∧ ∀ ev ∈ evs, ev.call.isActivation = false := by
  have hact : ∀ (w2 : World) (d t : Str), (Outcome.error e, w1) ≠ activate env w2 d t := by
    intro w2 d t ha
    rcases (activate_spec env w2 d t).2 with ⟨en, he⟩ | ⟨hp, _⟩
    · rw [← ha] at he
      simp only [Outcome.error.injEq] at he
      exact hstep en he
    · rw [← ha] at hp; cases hp
  rcases EnsureLatestDBFiles_cases env w with ⟨_, hp⟩ | ⟨d, hd1, hrest⟩
  · rw [h] at hp; cases hp
  · rw [hd] at hd1
    cases hd1
    rcases hrest with ⟨e1, _, he⟩ | ⟨tag, ht, hrest2⟩
    · rw [h] at he
      have hx := (before_activation_ext env w dataDir []).1
      rw [← (Prod.mk.inj he).2] at hx
      exact ⟨entryAt_mono hx.1 _ _ hn, hx.2⟩
    · rcases hrest2 with ⟨_, ha⟩ | ⟨_, e1, _, he⟩ | ⟨_, _, ha⟩
      · rw [h] at ha; exact absurd ha (hact _ _ _)
      · rw [h] at he
        have hx := (before_activation_ext env w dataDir tag).2.2
        rw [← (Prod.mk.inj he).2] at hx
        exact ⟨entryAt_mono hx.1 _ _ hn, hx.2⟩
      · rw [h] at ha; exact absurd ha (hact _ _ _)

/-- Witness of C8 (amended): `v1` is active and the download of `v2` fails. -/
theorem failure_before_activation_keeps_latest_witness :
    entryAt (EnsureLatestDBFiles (noDownloadEnv "/home/u".toList "v2".toList)
      (startWorld installedFS)).2.fs (Join [exDataDir, "latest".toList]) =
      some (Node.link "/home/u/.mmdb/v1".toList) :=
  (failure_before_activation_keeps_latest (noDownloadEnv "/home/u".toList "v2".toList)
    (startWorld installedFS)
    (EnsureLatestDBFiles (noDownloadEnv "/home/u".toList "v2".toList)
      (startWorld installedFS)).2
    (EnsureErr.download (DownloadErr.download "GeoLite2-ASN.mmdb".toList))
    exDataDir (Node.link "/home/u/.mmdb/v1".toList)
    (by decide!) (by intro en h; cases h) (by decide!) (by decide!)).1

/-- Counterexample to C8: `v1` is complete and active, `os.Remove` removes
`dataDir/latest`, then `os.Symlink` fails with an I/O error: the call returns
an error of the activation step and `dataDir/latest` is gone. -/
theorem activation_failure_loses_latest :
    entryAt installedFS (Join [exDataDir, "latest".toList]) =
      some (Node.link "/home/u/.mmdb/v1".toList) ∧
    (EnsureLatestDBFiles (faultyEnv "/home/u".toList "v1".toList 2) (startWorld installedFS)).1 =
      Outcome.error (EnsureErr.symlink Errno.EIO) ∧
    entryAt (EnsureLatestDBFiles (faultyEnv "/home/u".toList "v1".toList 2)
      (startWorld installedFS)).2.fs (Join [exDataDir, "latest".toList]) = none := by
  decide!

/-- The absent case of C8: the release is named `latest`, `dataDir/latest` does
not exist, and the first download fails; the call returns an error of the
download step and `dataDir/latest` is now the directory `os.MkdirAll` made. -/
theorem tag_named_latest_creates_latest :
    entryAt freshFS (Join [exDataDir, "latest".toList]) = none ∧
    (EnsureLatestDBFiles (noDownloadEnv "/home/u".toList "latest".toList) (startWorld freshFS)).1 =
      Outcome.error (EnsureErr.download (DownloadErr.download "GeoLite2-ASN.mmdb".toList)) ∧
    entryAt (EnsureLatestDBFiles (noDownloadEnv "/home/u".toList "latest".toList)
      (startWorld freshFS)).2.fs (Join [exDataDir, "latest".toList]) = some Node.dir := by
  decide!

/-- C9: evaluation at the failing input. Where the directory of the tag would
be there is a regular file: `os.Stat` on the marker path fails with `ENOTDIR`,
the marker does not exist, and `IsTagDownloaded` returns true. -/
theorem IsTagDownloaded_true_without_marker :
    (Stat (goodEnv "/home/u".toList "v2".toList) (startWorld blockedFS)
      (Join [exDataDir, "v2".toList, ".ok".toList])).1 = Except.error Errno.ENOTDIR ∧
    pathExists blockedFS (Join [exDataDir, "v2".toList, ".ok".toList]) = false ∧
    (IsTagDownloaded (goodEnv "/home/u".toList "v2".toList) (startWorld blockedFS) exDataDir
      "v2".toList).1 = true := by
  decide!

/-- What `IsTagDownloaded` computes: it is false exactly when `os.Stat` on the
marker path fails with `ENOENT`. -/
theorem IsTagDownloaded_false_iff (env : Env) (w : World) (dataDir tag : Str) :
    (IsTagDownloaded env w dataDir tag).1 = false ↔
      (Stat env w (Join [dataDir, tag, ".ok".toList])).1 = Except.error Errno.ENOENT := by
  simp only [IsTagDownloaded]
  cases hs : Stat env w (Join [dataDir, tag, ".ok".toList]) with
  | mk r w1 =>
    cases r with
    | ok n => simp
    | error e => simp

/-- The failing input of C9 seen from `EnsureLatestDBFiles`: the call succeeds
without a download, and `dataDir/latest` refers to a regular file. -/
theorem blocked_tag_is_activated :
    (EnsureLatestDBFiles (goodEnv "/home/u".toList "v2".toList) (startWorld blockedFS)).1 =
      Outcome.paths (Files.map (fun file => Join [exDataDir, "latest".toList, file])) ∧
    pathExists (EnsureLatestDBFiles (goodEnv "/home/u".toList "v2".toList)
      (startWorld blockedFS)).2.fs (Join [exDataDir, "v2".toList, ".ok".toList]) = false ∧
    isDirectory (EnsureLatestDBFiles (goodEnv "/home/u".toList "v2".toList)
      (startWorld blockedFS)).2.fs (Join [exDataDir, "v2".toList]) = false ∧
    getRequests (EnsureLatestDBFiles (goodEnv "/home/u".toList "v2".toList)
      (startWorld blockedFS)).2.trace = [] := by
  decide!

theorem filesStep_no_marker (env : Env) (w : World) (dataDir tag : Str) :
    World.ext (fun ev => ev ≠ Event.mk (Call.create (Join [dataDir, tag, ".ok".toList])) true) w
      (filesStep env w dataDir tag).2 := by
  apply filesStep_ext _ (benign_ne_create _)
  · intro f hf b e
    cases e
  intro f hf b e
  simp only [Event.mk.injEq, Call.create.injEq] at e
  rw [← Join_assoc] at e
  exact (plain_Files f hf).2 (Join_plain_inj _ _ _ (plain_Files f hf).1 plain_ok e.1)

/-- The requests of the directory step and of the file loop create nothing but
required files. -/
theorem filesStep_creates_files (env : Env) (w : World) (dataDir tag : Str) :
    World.ext (fun ev => ∀ p, ev = Event.mk (Call.create p) true →
        ∃ f ∈ Files, p = Join [dataDir, tag, f]) w (filesStep env w dataDir tag).2 := by
  apply filesStep_ext
  · intro c b h _ p e
    simp only [Event.mk.injEq] at e
    rw [e.1] at h
    cases h
  · intro f hf b p e
    cases e
  · intro f hf b p e
    simp only [Event.mk.injEq, Call.create.injEq] at e
    exact ⟨f, hf, by rw [← e.1, Join_assoc]⟩

theorem dirStep_grows (paths : List Str) (env : Env) (w : World) (dataDir tag : Str) :
    grows paths w.fs (dirStep env w dataDir tag).2.fs := by
  unfold dirStep
  have h := MkdirAll_grows paths env ((Join [dataDir, tag]).length + 1)
    (IsTagDownloaded env w dataDir tag).2 (Join [dataDir, tag])
  rw [IsTagDownloaded_world, Stat_fs] at h
  rw [IsTagDownloaded_world]
  exact h

/-- The directory step and the file loop add directories and required files
only. -/
theorem filesStep_grows (env : Env) (w : World) (dataDir tag : Str) :
    grows (Files.map (fun f => Join [dataDir, tag, f])) w.fs
      (filesStep env w dataDir tag).2.fs := by
  unfold filesStep
  refine grows_trans (dirStep_grows _ env w dataDir tag)
    (downloadFiles_grows _ env _ tag Files _ (fun f hf => ?_))
  rw [Join_assoc]
  exact List.mem_map.2 ⟨f, hf, rfl⟩

/-- C10, amended: when `IsTagDownloaded` is false, a `DownloadTag` that returns
nil leaves the marker and every required file in place, creating the marker is
the last thing it does, and before that each required file was either found by
`os.Stat` and never requested, or fetched by a GET and created by this call; a
`DownloadTag` that returns an error has made no successful `os.Create` of the
marker path: what it has created with `os.Create` are required files only, and
whatever is in the file system after the call and was not before is a directory
or the regular file that a required file path names. -/
theorem DownloadTag_marker_after_files (env : Env) (w : World) (dataDir tag : Str)
    (hc : (IsTagDownloaded env w dataDir tag).1 = false) :
    ((DownloadTag env w dataDir tag).1 = none →
      pathExists (DownloadTag env w dataDir tag).2.fs (Join [dataDir, tag, ".ok".toList]) = true ∧
      (∀ f ∈ Files,
        pathExists (DownloadTag env w dataDir tag).2.fs (Join [dataDir, tag, f]) = true) ∧
      ∃ evs, (DownloadTag env w dataDir tag).2.trace = w.trace ++ evs ++
          [Event.mk (Call.create (Join [dataDir, tag, ".ok".toList])) true] ∧
        Event.mk (Call.create (Join [dataDir, tag, ".ok".toList])) true ∉ evs ∧
        ∀ f ∈ Files,
          (Event.mk (Call.stat (Join [dataDir, tag, f])) true ∈ evs ∧
            ∀ b, Event.mk (Call.get (downloadURL tag f)) b ∉ evs) ∨
          (Event.mk (Call.get (downloadURL tag f)) true ∈ evs ∧
            Event.mk (Call.create (Join [dataDir, tag, f])) true ∈ evs)) ∧
    (∀ e, (DownloadTag env w dataDir tag).1 = some e →
      (∃ evs, (DownloadTag env w dataDir tag).2.trace = w.trace ++ evs ∧
        Event.mk (Call.create (Join [dataDir, tag, ".ok".toList])) true ∉ evs ∧
        ∀ p, Event.mk (Call.create p) true ∈ evs → ∃ f ∈ Files, p = Join [dataDir, tag, f]) ∧
      ∀ loc, (DownloadTag env w dataDir tag).2.fs.get loc ≠ w.fs.get loc →
        (DownloadTag env w dataDir tag).2.fs.get loc = some Node.dir ∨
        ((DownloadTag env w dataDir tag).2.fs.get loc = some Node.file ∧
          ∃ f ∈ Files, resolve (DownloadTag env w dataDir tag).2.fs true
            (Join [dataDir, tag, f]) = Except.ok (Res.found loc Node.file))) := by
  have hb := benign_ne_create (Join [dataDir, tag, ".ok".toList])
  obtain ⟨_, evs, hevs, hgood⟩ := filesStep_no_marker env w dataDir tag
  have hnot : Event.mk (Call.create (Join [dataDir, tag, ".ok".toList])) true ∉ evs :=
    fun hm => hgood _ hm rfl
  constructor
  · intro hs
    obtain ⟨h1, h2, h3, h4⟩ := DownloadTag_success env w dataDir tag hc hs
    refine ⟨h1, h2, evs, ?_, hnot, ?_⟩
    · rw [h3]
      unfold markerStep at h4 ⊢
      rw [Create_ok_trace _ _ _ h4, hevs, Join_assoc]
    · obtain ⟨_, evsA, heA, hgA⟩ := dirStep_ext (fun ev => ev.call.isNetwork = false)
        (fun _ _ _ h => h) env w dataDir tag
      obtain ⟨evsB, heB, _, hfB⟩ := downloadFiles_trace env (Join [dataDir, tag]) tag Files
        (dirStep env w dataDir tag).2 (by decide) (DownloadTag_success_files env w dataDir tag hc hs)
      have hsplit : evs = evsA ++ evsB := by
        have h5 : w.trace ++ evs = w.trace ++ (evsA ++ evsB) := by
          rw [← hevs, ← List.append_assoc, ← heA]
          exact heB
        exact List.append_cancel_left h5
      rw [hsplit]
      intro f hf
      rcases hfB f hf with ⟨h5, h6⟩ | ⟨h5, h6⟩
      · rw [Join_assoc] at h5
        refine Or.inl ⟨List.mem_append_right _ h5, fun b hm => ?_⟩
        rcases List.mem_append.1 hm with h7 | h7
        · cases hgA _ h7
        · exact h6 b h7
      · rw [Join_assoc] at h6
        exact Or.inr ⟨List.mem_append_right _ h5, List.mem_append_right _ h6⟩
  · intro e he
    obtain ⟨_, evs2, hevs2, hgood2⟩ := filesStep_creates_files env w dataDir tag
    have hsame : evs2 = evs := by
      have h5 : w.trace ++ evs2 = w.trace ++ evs := by rw [← hevs2, ← hevs]
      exact List.append_cancel_left h5
    rw [hsame] at hgood2
    have hnew : ∀ fs : FS,
        grows (Files.map (fun f => Join [dataDir, tag, f])) w.fs fs →
        ∀ loc, fs.get loc ≠ w.fs.get loc →
          fs.get loc = some Node.dir ∨
          (fs.get loc = some Node.file ∧
            ∃ f ∈ Files, resolve fs true (Join [dataDir, tag, f]) =
              Except.ok (Res.found loc Node.file)) := by
      intro fs hg loc hne
      rcases hg.2 loc hne with h5 | ⟨h5, q, hq, hr⟩
      · exact Or.inl h5
      · obtain ⟨f, hf, rfl⟩ := List.mem_map.1 hq
        exact Or.inr ⟨h5, f, hf, hr⟩
    rcases DownloadTag_cases env w dataDir tag with
      ⟨h1, _⟩ | ⟨_, e1, _, hd⟩ | ⟨_, _, e1, _, hd⟩ | ⟨_, _, _, e1, hm, hd⟩ | ⟨_, _, _, _, hd⟩
    · rw [hc] at h1; cases h1
    · rw [hd]
      obtain ⟨_, evs1, he1, hg1⟩ := dirStep_ext
        (fun ev => ∀ p, ev ≠ Event.mk (Call.create p) true)
        (fun c b h _ p e => by
          simp only [Event.mk.injEq] at e
          rw [e.1] at h
          cases h) env w dataDir tag
      exact ⟨⟨evs1, he1, fun hm => hg1 _ hm _ rfl, fun p hm => absurd rfl (hg1 _ hm p)⟩,
        hnew _ (dirStep_grows _ env w dataDir tag)⟩
    · rw [hd]
      exact ⟨⟨evs, hevs, hnot, fun p hm => hgood2 _ hm p rfl⟩,
        hnew _ (filesStep_grows env w dataDir tag)⟩
    · rw [hd]
      unfold markerStep at hm ⊢
      rw [Create_error _ _ _ _ hm]
      refine ⟨⟨evs ++ [Event.mk (Call.create (Join [Join [dataDir, tag], ".ok".toList])) false],
        by simp only; rw [hevs, List.append_assoc], ?_, ?_⟩,
        hnew _ (filesStep_grows env w dataDir tag)⟩
      · intro hmem
        rcases List.mem_append.1 hmem with h5 | h5
        · exact hnot h5
        · simp at h5
      · intro p hmem
        rcases List.mem_append.1 hmem with h5 | h5
        · exact hgood2 _ h5 p rfl
        · simp at h5
    · rw [hd] at he; cases he

/-- Witness of C10 (amended): the download of `v2` next to a complete `v1`. -/
theorem DownloadTag_marker_after_files_witness :
    (IsTagDownloaded (goodEnv "/home/u".toList "v2".toList) (startWorld installedFS) exDataDir
      "v2".toList).1 = false ∧
    pathExists (DownloadTag (goodEnv "/home/u".toList "v2".toList) (startWorld installedFS)
      exDataDir "v2".toList).2.fs (Join [exDataDir, "v2".toList, ".ok".toList]) = true :=
  ⟨by decide!,
    ((DownloadTag_marker_after_files (goodEnv "/home/u".toList "v2".toList)
      (startWorld installedFS) exDataDir "v2".toList (by decide!)).1 (by decide!)).1⟩

/-- Counterexample to C10: in the directory of `v2` the first required file is
a symbolic link to `.ok`, which does not exist, and the GET request for the
second file fails. `IsTagDownloaded` is false and the marker does not exist;
`os.Create` of the first file follows the link and creates its target, the
download of the second file fails, `DownloadTag` returns the error, and the
marker exists. -/
theorem file_link_creates_marker :
    (IsTagDownloaded (oneDownloadFailsEnv "/home/u".toList "v2".toList "GeoLite2-City.mmdb".toList)
      (startWorld danglingFS) exDataDir "v2".toList).1 = false ∧
    pathExists danglingFS (Join [exDataDir, "v2".toList, ".ok".toList]) = false ∧
    (DownloadTag (oneDownloadFailsEnv "/home/u".toList "v2".toList "GeoLite2-City.mmdb".toList)
      (startWorld danglingFS) exDataDir "v2".toList).1 =
      some (DownloadErr.download "GeoLite2-City.mmdb".toList) ∧
    pathExists (DownloadTag (oneDownloadFailsEnv "/home/u".toList "v2".toList
      "GeoLite2-City.mmdb".toList) (startWorld danglingFS) exDataDir "v2".toList).2.fs
      (Join [exDataDir, "v2".toList, ".ok".toList]) = true := by
  decide!

theorem IsTagDownloaded_of_stat_ok (env : Env) (w : World) (dataDir tag : Str) (n : Node)
    (h : (Stat env w (Join [dataDir, tag, ".ok".toList])).1 = Except.ok n) :
    (IsTagDownloaded env w dataDir tag).1 = true := by
  simp only [IsTagDownloaded]
  cases hs : Stat env w (Join [dataDir, tag, ".ok".toList]) with
  | mk r w1 =>
    rw [hs] at h
    simp only at h
    subst h
    rfl

theorem checkStep_fs (env : Env) (w : World) (dataDir tag : Str) :
    (checkStep env w dataDir tag).2.fs = (resolveStep env w).2.fs := by
  unfold checkStep
  rw [IsTagDownloaded_world, Stat_fs]

theorem Stat_stable_ne (env : Env) (w : World) (path : Str)
    (h : stable (resolve w.fs true path)) : ∀ e, (Stat env w path).1 = Except.error e →
      e ≠ Errno.ENOENT := by
  intro e he
  unfold Stat at he
  rcases sys_cases env w (Call.stat path) (fsStat path) with
    ⟨f, _, h1⟩ | ⟨_, a, fs1, hr, h1⟩ | ⟨_, e1, hr, h1⟩
  · rw [h1] at he
    simp only [Except.error.injEq] at he
    rw [← he]
    cases f <;> simp [Fault.toErrno]
  · rw [h1] at he; cases he
  · rw [h1] at he
    simp only [Except.error.injEq] at he
    subst he
    unfold fsStat at hr
    cases hres : resolve w.fs true path with
    | error e2 =>
      rw [hres] at h hr
      simp only [Except.error.injEq] at hr
      rw [← hr]
      exact h
    | ok r =>
      cases r with
      | missing p c nd => rw [hres] at h; exact absurd h (by simp [stable])
      | found loc n => rw [hres] at hr; cases hr

/-- A marker path whose resolution finds a node, or fails on what it finds, is
reported as downloaded. -/
theorem IsTagDownloaded_of_stable (env : Env) (w : World) (dataDir tag : Str)
    (h : stable (resolve w.fs true (Join [dataDir, tag, ".ok".toList]))) :
    (IsTagDownloaded env w dataDir tag).1 = true := by
  simp only [IsTagDownloaded]
  have h1 := Stat_stable_ne env w _ h
  cases hs : Stat env w (Join [dataDir, tag, ".ok".toList]) with
  | mk r w1 =>
    rw [hs] at h1
    cases r with
    | ok n => rfl
    | error e => simpa using h1 e rfl

/-- Without a fault, a marker path is reported as downloaded only when its
resolution finds a node or fails on what it finds. -/
theorem IsTagDownloaded_stable (env : Env) (w : World) (dataDir tag : Str)
    (hf : env.fault w.tick = none) :
    (IsTagDownloaded env w dataDir tag).1 = true ↔
      stable (resolve w.fs true (Join [dataDir, tag, ".ok".toList])) := by
  refine ⟨fun h => ?_, IsTagDownloaded_of_stable env w dataDir tag⟩
  simp only [IsTagDownloaded] at h
  unfold Stat at h
  rcases sys_cases env w (Call.stat (Join [dataDir, tag, ".ok".toList]))
      (fsStat (Join [dataDir, tag, ".ok".toList])) with
    ⟨f, hff, _⟩ | ⟨_, a, fs1, hr, h1⟩ | ⟨_, e1, hr, h1⟩
  · rw [hf] at hff; cases hff
  · obtain ⟨_, loc, hl⟩ := fsStat_ok _ _ _ _ hr
    rw [hl]
    trivial
  · rw [h1] at h
    simp only [Bool.not_eq_true', decide_eq_false_iff_not] at h
    unfold fsStat at hr
    cases hres : resolve w.fs true (Join [dataDir, tag, ".ok".toList]) with
    | error e2 =>
      rw [hres] at hr
      simp only [Except.error.injEq] at hr
      rw [hr]
      exact h
    | ok r =>
      cases r with
      | missing p c nd =>
        rw [hres] at hr
        simp only [Except.error.injEq] at hr
        exact absurd hr.symm h
      | found loc n => trivial

theorem Stat_tick (env : Env) (w : World) (path : Str) :
    (Stat env w path).2.tick = w.tick + 1 := by
  unfold Stat
  rcases sys_cases env w (Call.stat path) (fsStat path) with
    ⟨f, _, h⟩ | ⟨_, a, fs1, hr, h⟩ | ⟨_, e, _, h⟩ <;> rw [h]

/-- C6, amended: when `os.UserHomeDir` gives both calls the same home directory,
both resolve the same tag, the first call succeeds, no fault hits its
inspections of the marker (they are its first two system calls), and the marker
path was resolved without looking at the entry `dataDir/latest` when the first
call started its activation step, the second call issues no GET request, and it
either returns the paths of the first call or fails in the activation step. The
last condition holds whenever no symbolic link of the initial state has a target
with an element `latest` and the marker path has none
(`initial_names_avoid_latest`). -/
theorem second_call_downloads_nothing (env1 env2 : Env) (w w1 : World) (ps : List Str)
    (tag : Str) (hhome : env1.HOME ≠ []) (hsame : env2.HOME = env1.HOME)
    (hfirst : EnsureLatestDBFiles env1 w = (Outcome.paths ps, w1))
    (htag1 : (GetLatest env1 w).1 = Except.ok tag)
    (htag2 : (GetLatest env2 w1).1 = Except.ok tag)
    (hfault : env1.fault w.tick = none ∧ env1.fault (w.tick + 1) = none)
    (havoid : ∀ l n,
      resolve w1.fs false (Join [Join [env1.HOME, ".mmdb".toList], "latest".toList]) =
        Except.ok (Res.found l n) →
      avoids (activationStart env1 w (Join [env1.HOME, ".mmdb".toList]) tag).fs maxSymlinks l
        (Join [Join [env1.HOME, ".mmdb".toList], tag, ".ok".toList]) = true) :
    getRequests (EnsureLatestDBFiles env2 w1).2.trace = getRequests w1.trace ∧
    ((EnsureLatestDBFiles env2 w1).1 = Outcome.paths ps ∨
      ∃ e, (EnsureLatestDBFiles env2 w1).1 = Outcome.error (EnsureErr.symlink e)) := by
  have hhome2 : env2.HOME ≠ [] := by rw [hsame]; exact hhome
  -- the first call
  obtain ⟨d1, t1, hd1, ht1, hps, _, hcases⟩ := EnsureLatestDBFiles_paths env1 w w1 ps hfirst
  have hg1 := GetDataDir_home env1 w hhome
  rw [hg1] at hd1
  have hd1' : d1 = Join [env1.HOME, ".mmdb".toList] := (Option.some.inj hd1).symm
  subst hd1'
  have hr1 : resolveStep env1 w = GetLatest env1 w := by
    unfold resolveStep; rw [hg1]
  rw [hr1, htag1] at ht1
  have htt : t1 = tag := (Except.ok.inj ht1).symm
  subst htt
  have hfs1 : (resolveStep env1 w).2.fs = w.fs := by rw [hr1, GetLatest_world]
  have htick1 : (resolveStep env1 w).2.tick = w.tick := by rw [hr1, GetLatest_world]
  -- the marker path is resolved to something after the first call
  have hstable : stable (resolve w1.fs true
      (Join [Join [env1.HOME, ".mmdb".toList], t1, ".ok".toList])) := by
    rcases hcases with ⟨hc1, ha⟩ | ⟨hc1, hnone, ha⟩
    · obtain ⟨l, hres, hkeep, _⟩ := activation_frame env1 _ w1 _ t1 ps ha.symm
      have hav := havoid l _ hres
      unfold activationStart at hav
      rw [if_pos hc1] at hav
      rw [hkeep _ hav, checkStep_fs, hfs1]
      have h5 := (IsTagDownloaded_stable env1 (resolveStep env1 w).2 _ t1
        (by rw [htick1]; exact hfault.1)).1 hc1
      rw [hfs1] at h5
      exact h5
    · obtain ⟨l, hres, hkeep, _⟩ := activation_frame env1 _ w1 _ t1 ps ha.symm
      have hav := havoid l _ hres
      unfold activationStart at hav
      rw [if_neg (by rw [hc1]; simp)] at hav
      rw [hkeep _ hav]
      have hc2 : (IsTagDownloaded env1 (checkStep env1 w (Join [env1.HOME, ".mmdb".toList]) t1).2
          (Join [env1.HOME, ".mmdb".toList]) t1).1 = false := by
        cases hb : (IsTagDownloaded env1
          (checkStep env1 w (Join [env1.HOME, ".mmdb".toList]) t1).2
          (Join [env1.HOME, ".mmdb".toList]) t1).1 with
        | false => rfl
        | true =>
          exfalso
          have htick2 : (checkStep env1 w (Join [env1.HOME, ".mmdb".toList]) t1).2.tick =
              w.tick + 1 := by
            unfold checkStep
            rw [IsTagDownloaded_world, Stat_tick, htick1]
          have h5 := (IsTagDownloaded_stable env1 _ _ t1
            (by rw [htick2]; exact hfault.2)).1 hb
          rw [checkStep_fs] at h5
          have h6 := IsTagDownloaded_of_stable env1 (resolveStep env1 w).2 _ t1 h5
          unfold checkStep at hc1
          rw [hc1] at h6
          cases h6
      obtain ⟨hm, _, _, _⟩ := DownloadTag_success env1 _ _ t1 hc2 hnone
      obtain ⟨loc, nd, hr⟩ := (pathExists_iff _ _).1 hm
      unfold downloadStep
      rw [hr]
      trivial
  -- the second call
  have hg2 := GetDataDir_home env2 w1 hhome2
  rw [hsame] at hg2
  have hr2 : resolveStep env2 w1 = GetLatest env2 w1 := by
    unfold resolveStep; rw [hg2]
  have hfs : (GetLatest env2 w1).2.fs = w1.fs := by rw [GetLatest_world]
  have hchk : (checkStep env2 w1 (Join [env1.HOME, ".mmdb".toList]) t1).1 = true := by
    unfold checkStep
    rw [hr2]
    apply IsTagDownloaded_of_stable
    rw [hfs]; exact hstable
  have hrun : EnsureLatestDBFiles env2 w1 =
      activate env2 (checkStep env2 w1 (Join [env1.HOME, ".mmdb".toList]) t1).2
        (Join [env1.HOME, ".mmdb".toList]) t1 := by
    rcases EnsureLatestDBFiles_cases env2 w1 with ⟨hp, _⟩ | ⟨d, hd, hrest⟩
    · rw [hg2] at hp; cases hp
    · rw [hg2] at hd
      cases hd
      rcases hrest with ⟨e, he, _⟩ | ⟨t, ht, hrest2⟩
      · rw [hr2, htag2] at he; cases he
      · rw [hr2, htag2] at ht
        cases ht
        rcases hrest2 with ⟨_, ha⟩ | ⟨hc, _⟩ | ⟨hc, _⟩
        · exact ha
        · rw [hchk] at hc; cases hc
        · rw [hchk] at hc; cases hc
  rw [hrun]
  obtain ⟨⟨b1, b2, htr⟩, hout⟩ := activate_spec env2
    (checkStep env2 w1 (Join [env1.HOME, ".mmdb".toList]) t1).2
    (Join [env1.HOME, ".mmdb".toList]) t1
  constructor
  · rw [htr]
    unfold checkStep
    rw [IsTagDownloaded_world, hr2]
    obtain ⟨b3, hst⟩ := Stat_trace env2 (GetLatest env2 w1).2
      (Join [Join [env1.HOME, ".mmdb".toList], t1, ".ok".toList])
    rw [hst, GetLatest_world]
    simp [getRequests]
  · rcases hout with ⟨e, he⟩ | ⟨hp, _⟩
    · exact Or.inr ⟨e, he⟩
    · left
      rw [hp, hps]

/-- Witness of C6 (amended): release `v2` is installed with the home directory
reached through the symbolic link `/home`, then the program runs again. -/
theorem second_call_downloads_nothing_witness :
    getRequests (EnsureLatestDBFiles (goodEnv "/home/u".toList "v2".toList)
      (EnsureLatestDBFiles (goodEnv "/home/u".toList "v2".toList)
        (startWorld linkedHomeFS)).2).2.trace =
    getRequests (EnsureLatestDBFiles (goodEnv "/home/u".toList "v2".toList)
      (startWorld linkedHomeFS)).2.trace :=
  (second_call_downloads_nothing (goodEnv "/home/u".toList "v2".toList)
    (goodEnv "/home/u".toList "v2".toList) (startWorld linkedHomeFS)
    (EnsureLatestDBFiles (goodEnv "/home/u".toList "v2".toList) (startWorld linkedHomeFS)).2
    (Files.map (fun file => Join [exDataDir, "latest".toList, file])) "v2".toList
    (by decide) rfl (by decide!) (by decide!) (by decide!) ⟨rfl, rfl⟩
    (by
      intro l n hl
      have hres1 : resolve (EnsureLatestDBFiles (goodEnv "/home/u".toList "v2".toList)
          (startWorld linkedHomeFS)).2.fs false
          (Join [Join [(goodEnv "/home/u".toList "v2".toList).HOME, ".mmdb".toList],
            "latest".toList]) =
          Except.ok (Res.found ["usr".toList, "home".toList, "u".toList, ".mmdb".toList,
            "latest".toList] (Node.link (Join [exDataDir, "v2".toList]))) := by decide!
      rw [hres1] at hl
      cases hl
      decide!)).1

/-- Counterexample to C6: with `$HOME` unset every call makes its own temporary
data directory, so the second call, for the same latest tag `v2`, downloads the
three files again and returns other paths than the first. -/
theorem temp_dir_second_call_downloads_again :
    (EnsureLatestDBFiles (goodEnv [] "v2".toList) (startWorld freshFS)).1 =
      Outcome.paths (Files.map (fun file => Join ["/tmp/mmdb0".toList, "latest".toList, file])) ∧
    (EnsureLatestDBFiles (goodEnv [] "v2".toList)
      (EnsureLatestDBFiles (goodEnv [] "v2".toList) (startWorld freshFS)).2).1 =
      Outcome.paths (Files.map (fun file => Join ["/tmp/mmdb18".toList, "latest".toList, file])) ∧
    (EnsureLatestDBFiles (goodEnv [] "v2".toList)
      (EnsureLatestDBFiles (goodEnv [] "v2".toList) (startWorld freshFS)).2).1 ≠
      (EnsureLatestDBFiles (goodEnv [] "v2".toList) (startWorld freshFS)).1 ∧
    (getRequests (EnsureLatestDBFiles (goodEnv [] "v2".toList)
      (EnsureLatestDBFiles (goodEnv [] "v2".toList) (startWorld freshFS)).2).2.trace).length =
      (getRequests (EnsureLatestDBFiles (goodEnv [] "v2".toList)
        (startWorld freshFS)).2.trace).length + 3 := by
  decide!

/-- Why C6 needs the inspections of the marker not to be hit by a fault: the
first call finds `os.Stat` failing with an I/O error, which `IsTagDownloaded`
takes for a marker, and succeeds without a download; the second call finds no
marker and downloads the three files. -/
theorem stat_fault_second_call_downloads :
    (EnsureLatestDBFiles (faultyEnv "/home/u".toList "v2".toList 0) (startWorld installedFS)).1 =
      Outcome.paths (Files.map (fun file => Join [exDataDir, "latest".toList, file])) ∧
    (getRequests (EnsureLatestDBFiles (faultyEnv "/home/u".toList "v2".toList 0)
      (startWorld installedFS)).2.trace).length = 0 ∧
    (getRequests (EnsureLatestDBFiles (goodEnv "/home/u".toList "v2".toList)
      (EnsureLatestDBFiles (faultyEnv "/home/u".toList "v2".toList 0)
        (startWorld installedFS)).2).2.trace).length = 3 := by
  decide!

/-- Why C6 needs the marker path not to lead through `dataDir/latest`: the
marker of `v2` is a symbolic link to `dataDir/latest/.ok2`, which exists while
`v1` is active. The first call finds the marker and activates `v2`; then the
link leads to `dataDir/v2/.ok2`, which does not exist, and the second call
downloads the three files. -/
theorem link_through_latest_second_call_downloads :
    (EnsureLatestDBFiles (goodEnv "/home/u".toList "v2".toList) (startWorld aliasFS)).1 =
      Outcome.paths (Files.map (fun file => Join [exDataDir, "latest".toList, file])) ∧
    pathExists aliasFS (Join [exDataDir, "v2".toList, ".ok".toList]) = true ∧
    (getRequests (EnsureLatestDBFiles (goodEnv "/home/u".toList "v2".toList)
      (startWorld aliasFS)).2.trace).length = 0 ∧
    (getRequests (EnsureLatestDBFiles (goodEnv "/home/u".toList "v2".toList)
      (EnsureLatestDBFiles (goodEnv "/home/u".toList "v2".toList)
        (startWorld aliasFS)).2).2.trace).length = 3 := by
  decide!

/-- Why the second call of C6 need not return the paths: its `os.Symlink` fails
with an I/O error after `os.Remove` has removed the link. -/
theorem second_call_activation_fails :
    (EnsureLatestDBFiles (goodEnv "/home/u".toList "v1".toList) (startWorld installedFS)).1 =
      Outcome.paths (Files.map (fun file => Join [exDataDir, "latest".toList, file])) ∧
    (EnsureLatestDBFiles (faultyEnv "/home/u".toList "v1".toList 5)
      (EnsureLatestDBFiles (goodEnv "/home/u".toList "v1".toList)
        (startWorld installedFS)).2).1 = Outcome.error (EnsureErr.symlink Errno.EIO) := by
  decide!

/-- C3, amended: when `EnsureLatestDBFiles` returns without error,
`dataDir/latest` is a symbolic link whose target is the path `dataDir/<tag>` of
the resolved tag, and the returned slice has `len(Files)` paths. Let `l` be the
location of that link. When the inspection of the marker found it, the marker
exists and `dataDir/<tag>` is a directory in the resulting state, each provided
its path was resolved without looking at `l` when the activation step started.
When the call downloaded the tag (neither inspection reported the marker
present), the marker and every required file exist when the download returns;
the marker exists and `dataDir/<tag>` is a directory in the resulting state,
each provided its path was resolved without looking at `l` in the state the
download left; and every returned path exists in the resulting state provided
`dataDir` is absolute and, in the state the download left, `path.Clean(dataDir)`
and the files `dataDir/<tag>/f` were resolved without looking at `l`, expanding
at most `n0` and `n1` symbolic links with `n0 + n1 < maxSymlinks`. A path is
resolved without looking at `l` within the full budget whenever no symbolic link
of the initial state has a target with an element `latest` and the path has none
(`initial_names_avoid_latest`). -/
theorem success_activates_resolved_tag (env : Env) (w w1 : World) (ps : List Str)
    (h : EnsureLatestDBFiles env w = (Outcome.paths ps, w1)) :
    ∃ (dataDir tag : Str) (l : Loc), (GetDataDir env w).1 = some dataDir ∧
      (GetLatest env (GetDataDir env w).2).1 = Except.ok tag ∧
      entryAt w1.fs (Join [dataDir, "latest".toList]) = some (Node.link (Join [dataDir, tag])) ∧
      resolve w1.fs false (Join [dataDir, "latest".toList]) =
        Except.ok (Res.found l (Node.link (Join [dataDir, tag]))) ∧
      ps.length = Files.length ∧
      (∀ n, (Stat env (resolveStep env w).2 (Join [dataDir, tag, ".ok".toList])).1 = Except.ok n →
        (avoids (checkStep env w dataDir tag).2.fs maxSymlinks l
            (Join [dataDir, tag, ".ok".toList]) = true →
          pathExists w1.fs (Join [dataDir, tag, ".ok".toList]) = true) ∧
        (avoids (checkStep env w dataDir tag).2.fs maxSymlinks l (Join [dataDir, tag]) = true →
          isDirectory w1.fs (Join [dataDir, tag]) = true)) ∧
      ((checkStep env w dataDir tag).1 = false →
        (IsTagDownloaded env (checkStep env w dataDir tag).2 dataDir tag).1 = false →
        (pathExists (downloadStep env w dataDir tag).2.fs
            (Join [dataDir, tag, ".ok".toList]) = true ∧
          ∀ f ∈ Files,
            pathExists (downloadStep env w dataDir tag).2.fs (Join [dataDir, tag, f]) = true) ∧
        (avoids (downloadStep env w dataDir tag).2.fs maxSymlinks l
            (Join [dataDir, tag, ".ok".toList]) = true →
          pathExists w1.fs (Join [dataDir, tag, ".ok".toList]) = true) ∧
        (avoids (downloadStep env w dataDir tag).2.fs maxSymlinks l (Join [dataDir, tag]) = true →
          isDirectory w1.fs (Join [dataDir, tag]) = true) ∧
        (∀ n0 n1 : Nat, rooted dataDir = true → n0 + n1 < maxSymlinks →
          avoids (downloadStep env w dataDir tag).2.fs n0 l (Join [dataDir]) = true →
          (∀ f ∈ Files,
            avoids (downloadStep env w dataDir tag).2.fs n1 l (Join [dataDir, tag, f]) = true) →
          ∀ q ∈ ps, pathExists w1.fs q = true)) := by
  obtain ⟨dataDir, tag, hd, ht, hps, hl, hcases⟩ := EnsureLatestDBFiles_paths env w w1 ps h
  have hlen : ps.length = Files.length := by rw [hps, List.length_map]
  rcases hcases with ⟨hc1, ha⟩ | ⟨hc1, hnone, ha⟩
  · -- the marker was trusted
    obtain ⟨l, hres, hkeep, _⟩ := activation_frame env _ w1 dataDir tag ps ha.symm
    refine ⟨dataDir, tag, l, hd, ht, hl, hres, hlen, ?_, ?_⟩
    · intro n hn
      have hex : pathExists (checkStep env w dataDir tag).2.fs
          (Join [dataDir, tag, ".ok".toList]) = true := by
        rw [checkStep_fs]
        exact Stat_ok_exists env _ _ n hn
      obtain ⟨loc, nd, hr⟩ := (pathExists_iff _ _).1 hex
      refine ⟨fun hav => ?_, fun hav => ?_⟩
      · rw [pathExists_iff]
        exact ⟨loc, nd, by rw [hkeep _ hav]; exact hr⟩
      · have hne : Join [dataDir, tag] ≠ [] :=
          activate_target_ne_nil env _ w1 dataDir tag ps ha.symm
        rw [← Join_assoc] at hr
        have hdir := isDirectory_of_child _ _ _ hne plain_ok _ hr
        rw [Join_Join_single] at hdir
        obtain ⟨loc2, hr2⟩ := (isDirectory_iff _ _).1 hdir
        rw [isDirectory_iff]
        exact ⟨loc2, by rw [hkeep _ hav]; exact hr2⟩
    · intro hc
      rw [hc1] at hc
      cases hc
  · -- the tag was downloaded
    obtain ⟨l, hres, hkeep, hvia⟩ := activation_frame env _ w1 dataDir tag ps ha.symm
    refine ⟨dataDir, tag, l, hd, ht, hl, hres, hlen, ?_, ?_⟩
    · intro n hn
      have hchk : (checkStep env w dataDir tag).1 = true :=
        IsTagDownloaded_of_stat_ok env _ dataDir tag n hn
      rw [hc1] at hchk
      cases hchk
    · intro _ hc2
      obtain ⟨hm, hf, _, _⟩ := DownloadTag_success env _ dataDir tag hc2 hnone
      refine ⟨⟨hm, hf⟩, ?_, ?_, ?_⟩
      · intro hav
        obtain ⟨loc, nd, hr⟩ := (pathExists_iff _ _).1 hm
        rw [pathExists_iff]
        exact ⟨loc, nd, by rw [hkeep _ hav]; exact hr⟩
      · intro hav
        obtain ⟨loc, nd, hr⟩ := (pathExists_iff _ _).1 hm
        have hne : Join [dataDir, tag] ≠ [] :=
          activate_target_ne_nil env _ w1 dataDir tag ps ha.symm
        rw [← Join_assoc] at hr
        have hdir := isDirectory_of_child _ _ _ hne plain_ok _ hr
        rw [Join_Join_single] at hdir
        obtain ⟨loc2, hr2⟩ := (isDirectory_iff _ _).1 hdir
        rw [isDirectory_iff]
        exact ⟨loc2, by rw [hkeep _ hav]; exact hr2⟩
      · intro n0 n1 hroot hn hdd hff q hq
        rw [hps] at hq
        obtain ⟨f, hfm, rfl⟩ := List.mem_map.1 hq
        exact hvia n0 n1 f hroot (plain_Files f hfm).1 hn hdd (hff f hfm) (hf f hfm)

/-- Witness of C3 (amended): a first installation of `v2` with the home
directory reached through the symbolic link `/home`. One link is expanded on
the way to the data directory and to each file, `dataDir/latest` is not looked
at, and the marker and every returned path exist in the resulting state. -/
theorem success_activates_resolved_tag_witness :
    pathExists (EnsureLatestDBFiles (goodEnv "/home/u".toList "v2".toList)
      (startWorld linkedHomeFS)).2.fs (Join [exDataDir, "v2".toList, ".ok".toList]) = true ∧
    (Files.map (fun file => Join [exDataDir, "latest".toList, file])).all
      (pathExists (EnsureLatestDBFiles (goodEnv "/home/u".toList "v2".toList)
        (startWorld linkedHomeFS)).2.fs) = true := by
  rw [List.all_eq_true]
  obtain ⟨dataDir, tag, l, hd, ht, _, hres, _, _, hdl⟩ := success_activates_resolved_tag
    (goodEnv "/home/u".toList "v2".toList) (startWorld linkedHomeFS)
    (EnsureLatestDBFiles (goodEnv "/home/u".toList "v2".toList) (startWorld linkedHomeFS)).2
    (Files.map (fun file => Join [exDataDir, "latest".toList, file])) (by decide!)
  have hd1 : (GetDataDir (goodEnv "/home/u".toList "v2".toList) (startWorld linkedHomeFS)).1 =
      some exDataDir := by decide!
  have ht1 : (GetLatest (goodEnv "/home/u".toList "v2".toList)
      (GetDataDir (goodEnv "/home/u".toList "v2".toList) (startWorld linkedHomeFS)).2).1 =
      Except.ok "v2".toList := by decide!
  rw [hd1] at hd
  rw [ht1] at ht
  cases hd
  cases ht
  have hres1 : resolve (EnsureLatestDBFiles (goodEnv "/home/u".toList "v2".toList)
      (startWorld linkedHomeFS)).2.fs false (Join [exDataDir, "latest".toList]) =
      Except.ok (Res.found ["usr".toList, "home".toList, "u".toList, ".mmdb".toList,
        "latest".toList] (Node.link (Join [exDataDir, "v2".toList]))) := by decide!
  rw [hres1] at hres
  cases hres
  obtain ⟨_, hmarker, _, hpaths⟩ := hdl (by decide!) (by decide!)
  exact ⟨hmarker (by decide!),
    hpaths 1 1 (by decide) (by decide) (by decide!) (by decide!)⟩

/-- Counterexample to C3: the marker of `v2` is in place but its files are not;
the call succeeds without a download and returns paths that do not exist. -/
theorem trusted_marker_paths_missing :
    (EnsureLatestDBFiles (goodEnv "/home/u".toList "v2".toList) (startWorld markerOnlyFS)).1 =
      Outcome.paths (Files.map (fun file => Join [exDataDir, "latest".toList, file])) ∧
    pathExists (EnsureLatestDBFiles (goodEnv "/home/u".toList "v2".toList)
      (startWorld markerOnlyFS)).2.fs
      (Join [exDataDir, "latest".toList, "GeoLite2-ASN.mmdb".toList]) = false := by
  decide!

/-- Why C3 needs the marker path not to lead through `dataDir/latest`:
`dataDir/v2` is a symbolic link to `dataDir/latest`, which refers to the empty
directory of `v1`. The call downloads `v2` into that directory and succeeds,
then `dataDir/latest` refers to `dataDir/v2` and `dataDir/v2` to `dataDir/latest`:
neither the marker nor the returned paths exist. -/
theorem link_through_latest_loses_marker :
    (EnsureLatestDBFiles (goodEnv "/home/u".toList "v2".toList) (startWorld loopFS)).1 =
      Outcome.paths (Files.map (fun file => Join [exDataDir, "latest".toList, file])) ∧
    (getRequests (EnsureLatestDBFiles (goodEnv "/home/u".toList "v2".toList)
      (startWorld loopFS)).2.trace).length = 3 ∧
    pathExists (downloadStep (goodEnv "/home/u".toList "v2".toList) (startWorld loopFS)
      exDataDir "v2".toList).2.fs (Join [exDataDir, "v2".toList, ".ok".toList]) = true ∧
    pathExists (EnsureLatestDBFiles (goodEnv "/home/u".toList "v2".toList)
      (startWorld loopFS)).2.fs (Join [exDataDir, "v2".toList, ".ok".toList]) = false ∧
    pathExists (EnsureLatestDBFiles (goodEnv "/home/u".toList "v2".toList)
      (startWorld loopFS)).2.fs
      (Join [exDataDir, "latest".toList, "GeoLite2-ASN.mmdb".toList]) = false := by
  decide!

/-- Why C3 needs an absolute data directory for the returned paths: with
`$HOME` set to the relative path `home/u` the link `home/u/.mmdb/latest` gets the
relative target `home/u/.mmdb/v2`, which is looked up from the directory of the
link. The call downloads `v2` and succeeds, the marker exists, and the returned
paths do not. -/
theorem relative_home_paths_dangle :
    (EnsureLatestDBFiles (goodEnv "home/u".toList "v2".toList) (startWorld freshFS)).1 =
      Outcome.paths
        (Files.map (fun file => Join ["home/u/.mmdb".toList, "latest".toList, file])) ∧
    pathExists (EnsureLatestDBFiles (goodEnv "home/u".toList "v2".toList)
      (startWorld freshFS)).2.fs
      (Join ["home/u/.mmdb".toList, "v2".toList, ".ok".toList]) = true ∧
    pathExists (EnsureLatestDBFiles (goodEnv "home/u".toList "v2".toList)
      (startWorld freshFS)).2.fs
      (Join ["home/u/.mmdb".toList, "latest".toList, "GeoLite2-ASN.mmdb".toList]) = false := by
  decide!

/-- Why C3 needs link budget for the detour through `dataDir/latest`: the home
directory is reached through twenty symbolic links. The call downloads `v2` and
succeeds, the marker and the files exist under `dataDir/v2`, which twenty
expansions reach, but a path through `dataDir/latest` needs forty-one, and
path resolution gives up with `ELOOP`. -/
theorem deep_link_chain_paths_unreachable :
    (EnsureLatestDBFiles (goodEnv "/l0".toList "v2".toList) (startWorld chainFS)).1 =
      Outcome.paths (Files.map (fun file => Join ["/l0/.mmdb".toList, "latest".toList, file])) ∧
    pathExists (EnsureLatestDBFiles (goodEnv "/l0".toList "v2".toList)
      (startWorld chainFS)).2.fs (Join ["/l0/.mmdb".toList, "v2".toList, ".ok".toList]) = true ∧
    pathExists (EnsureLatestDBFiles (goodEnv "/l0".toList "v2".toList)
      (startWorld chainFS)).2.fs
      (Join ["/l0/.mmdb".toList, "v2".toList, "GeoLite2-ASN.mmdb".toList]) = true ∧
    resolve (EnsureLatestDBFiles (goodEnv "/l0".toList "v2".toList)
      (startWorld chainFS)).2.fs true
      (Join ["/l0/.mmdb".toList, "latest".toList, "GeoLite2-ASN.mmdb".toList]) =
      Except.error Errno.ELOOP := by
  decide!

/-- The entry that `dataDir/latest` names without following a final link has the
name `latest`. -/
theorem latest_location (fs : FS) (dataDir : Str) (l : Loc) (n : Node)
    (h : resolve fs false (Join [dataDir, "latest".toList]) = Except.ok (Res.found l n)) :
    l.getLast? = some "latest".toList := by
  rw [← resolveWithin_max, resolveWithin_Join _ _ _ _ _ plain_latest] at h
  obtain ⟨loc, _, h2⟩ := walk_split fs false "latest".toList [] (by decide) _ _ _ _ h
  rw [walk_one fs false _ loc _ plain_latest] at h2
  have hl : l = loc ++ ["latest".toList] := by
    cases hg : fs.get (loc ++ ["latest".toList]) with
    | none => rw [hg] at h2; simp at h2
    | some n2 =>
      rw [hg] at h2
      cases n2 with
      | file => simp at h2; exact h2.1.symm
      | dir => simp at h2; exact h2.1.symm
      | link t => simp at h2; exact h2.1.symm
  rw [hl]
  simp

theorem mkdirTempLoop_linkFree (c : Str) (env : Env) (dir pre : Str) :
    ∀ (tries : Nat) (w : World), linkFree c w.fs →
      linkFree c (mkdirTempLoop env dir pre tries w).2.fs := by
  intro tries
  induction tries with
  | zero => intro w h; exact h
  | succ tries ih =>
    intro w h
    unfold mkdirTempLoop
    simp only
    have hg := grows_linkFree [] c _ _
      (Mkdir_grows [] env w (pre ++ (Nat.repr (env.rand w.tick % 2 ^ 32)).toList)) h
    cases hm : Mkdir env w (pre ++ (Nat.repr (env.rand w.tick % 2 ^ 32)).toList) with
    | mk r w1 =>
      rw [hm] at hg
      cases r with
      | ok u => exact hg
      | error e =>
        simp only
        by_cases h1 : e = Errno.EEXIST
        · rw [if_pos h1]; exact ih w1 hg
        · rw [if_neg h1]
          by_cases h2 : e = Errno.ENOENT
          · rw [if_pos h2]
            simp only [Stat_fs]
            exact hg
          · rw [if_neg h2]; exact hg

theorem GetDataDir_linkFree (c : Str) (env : Env) (w : World) (h : linkFree c w.fs) :
    linkFree c (GetDataDir env w).2.fs := by
  unfold GetDataDir
  cases UserHomeDir env with
  | some d => exact h
  | none => exact mkdirTempLoop_linkFree c env _ _ _ w h

theorem DownloadTag_linkFree (c : Str) (env : Env) (w : World) (dataDir tag : Str)
    (h : linkFree c w.fs) : linkFree c (DownloadTag env w dataDir tag).2.fs := by
  have hf : linkFree c (filesStep env w dataDir tag).2.fs :=
    grows_linkFree _ c _ _ (filesStep_grows env w dataDir tag) h
  have hd : linkFree c (dirStep env w dataDir tag).2.fs :=
    grows_linkFree _ c _ _ (dirStep_grows [] env w dataDir tag) h
  rcases DownloadTag_cases env w dataDir tag with
    ⟨_, e⟩ | ⟨_, _, _, e⟩ | ⟨_, _, _, _, e⟩ | ⟨_, _, _, _, _, e⟩ | ⟨_, _, _, _, e⟩
  · rw [e]
    simp only [IsTagDownloaded_world, Stat_fs]
    exact h
  · rw [e]; exact hd
  · rw [e]; exact hf
  · rw [e]
    exact grows_linkFree [Join [Join [dataDir, tag], ".ok".toList]] c _ _
      (Create_grows _ env _ _ (List.mem_singleton.2 rfl)) hf
  · rw [e]
    exact grows_linkFree [Join [Join [dataDir, tag], ".ok".toList]] c _ _
      (Create_grows _ env _ _ (List.mem_singleton.2 rfl)) hf

/-- The state in which the activation step starts has the symbolic links of the
initial state and no other. -/
theorem activationStart_linkFree (c : Str) (env : Env) (w : World) (dataDir tag : Str)
    (h : linkFree c w.fs) :
    linkFree c (checkStep env w dataDir tag).2.fs ∧
    linkFree c (downloadStep env w dataDir tag).2.fs ∧
    linkFree c (activationStart env w dataDir tag).fs := by
  have h1 : linkFree c (checkStep env w dataDir tag).2.fs := by
    rw [checkStep_fs]
    unfold resolveStep
    rw [GetLatest_world]
    exact GetDataDir_linkFree c env w h
  have h2 : linkFree c (downloadStep env w dataDir tag).2.fs :=
    DownloadTag_linkFree c env _ dataDir tag h1
  refine ⟨h1, h2, ?_⟩
  unfold activationStart
  by_cases hc : (checkStep env w dataDir tag).1 = true
  · rw [if_pos hc]; exact h1
  · rw [if_neg hc]; exact h2

/-- A condition on the initial state under which the activation step cannot
disturb a path: when no symbolic link of the initial state has a target with an
element `latest` and the path has no element `latest`, the path is resolved
without looking at the entry `dataDir/latest`, within the full link budget, in
the states after the check and after the download. -/
theorem initial_names_avoid_latest (env : Env) (w : World) (dataDir tag path : Str) (fs1 : FS)
    (l : Loc) (n : Node) (hl : linkFree "latest".toList w.fs)
    (hp : "latest".toList ∉ splitSlash path)
    (hres : resolve fs1 false (Join [dataDir, "latest".toList]) = Except.ok (Res.found l n)) :
    avoids (checkStep env w dataDir tag).2.fs maxSymlinks l path = true ∧
    avoids (downloadStep env w dataDir tag).2.fs maxSymlinks l path = true ∧
    avoids (activationStart env w dataDir tag).fs maxSymlinks l path = true := by
  obtain ⟨h1, h2, h3⟩ := activationStart_linkFree "latest".toList env w dataDir tag hl
  have hlast := latest_location fs1 dataDir l n hres
  exact ⟨avoids_of_names _ _ l path h1 hp hlast, avoids_of_names _ _ l path h2 hp hlast,
    avoids_of_names _ _ l path h3 hp hlast⟩

end Mmdb
